import Mathlib

/-!
# jiaozifs: commit append, three-way merge driver, hashes and handlers

A shallow embedding of `versionmgr/commit.go` (`CommitOp.AddCommit`,
`CommitOp.DiffCommit`, `CommitOp.Merge`), of `utils/hash/hash.go` and of the
handlers of `controller/commit_ctl.go` and `controller/branch_ctl.go`.

The object store, the user and WIP repositories, the commit graph queries, the
work tree, the changes-merge iterator, the clock and `Commit.GetHash` live in
other packages; the driver only calls them.  They are gathered in `Env`, a
record of operations over a store state `σ`, a work tree type `ω` and an
iterator type `ι`.  Every call the driver makes to one of them is appended,
with its outcome, to a log carried next to the store state, so that "calls
Insert zero times" or "stops at the first error" are statements about the log.
-/

namespace hash

/-- The type `hash.Hash` of `utils/hash/hash.go`: a byte slice.  The nil slice
and the empty slice are both the empty list. -/
abbrev Hash := List (Fin 256)

end hash

namespace hex

/-- The table `hextable` of the encoder: the lower-case hexadecimal digits. -/
def hextable : List Char := "0123456789abcdef".data

/-- The hexadecimal digits a decoder accepts, lower and upper case. -/
def hexDigits : List Char := hextable ++ "ABCDEF".data

/-- The digit of a nibble: `hextable[n]`. -/
def hexDigit (n : Nat) : Char := hextable.getD n '0'

/-- The library function `hex.EncodeToString`: for each byte `v` the digits
`hextable[v>>4]` and `hextable[v&0x0f]`. -/
def EncodeToString (src : List (Fin 256)) : String :=
  ⟨src.flatMap fun v => [hexDigit (v.val / 16), hexDigit (v.val % 16)]⟩

/-- The value of a hexadecimal digit, lower or upper case; none for any other
character. -/
def fromHexChar (c : Char) : Option Nat :=
  if 48 ≤ c.toNat ∧ c.toNat ≤ 57 then some (c.toNat - 48)
  else if 97 ≤ c.toNat ∧ c.toNat ≤ 102 then some (c.toNat - 97 + 10)
  else if 65 ≤ c.toNat ∧ c.toNat ≤ 70 then some (c.toNat - 65 + 10)
  else none

/-- The errors of the decoder: odd length, or a character that is not a
hexadecimal digit. -/
inductive Error where
  | ErrLength
  | InvalidByteError (c : Char)
  deriving DecidableEq, Repr

/-- The decoder, two characters for a byte. -/
def decode : List Char → Except Error (List (Fin 256))
  | [] => .ok []
  | [c] =>
    match fromHexChar c with
    | none => .error (.InvalidByteError c)
    | some _ => .error .ErrLength
  | a :: b :: rest =>
    match fromHexChar a, fromHexChar b with
    | some x, some y =>
      match decode rest with
      | .ok out => .ok (Fin.ofNat (x * 16 + y) :: out)
      | .error e => .error e
    | none, _ => .error (.InvalidByteError a)
    | some _, none => .error (.InvalidByteError b)

/-- The function `hex.DecodeString` of `encoding/hex`, the library of
`commit_ctl.go`: the bytes, or an error and no bytes. A character that is not
a hexadecimal digit is reported before an odd length. A Go string is read as
the list of its bytes, each the character of that code. -/
def DecodeString (s : String) : Except Error (List (Fin 256)) := decode s.data

end hex

namespace gohex

/-- The function `hex.DecodeString` of `github.com/tmthrgd/go-hex`, the
library of `hash.go`: an odd length is reported first, before any character is
looked at; a string of even length is decoded pair by pair, with the error of
its first character that is not a hexadecimal digit. -/
def DecodeString (s : String) : Except hex.Error (List (Fin 256)) :=
  if s.length % 2 = 1 then .error .ErrLength else hex.decode s.data

end gohex

namespace hash

/-- The errors of the package: `fmt.Errorf("hash json must be string")` and
the errors of the decoder. -/
inductive Error where
  | mustBeString
  | hex (e : hex.Error)
  deriving DecidableEq, Repr

/-- `Hash.Hex` (`hash.go:17-19`). -/
def Hash.Hex (hash : Hash) : String := hex.EncodeToString hash

/-- `Hash.IsEmpty` (`hash.go:21-26`). -/
def Hash.IsEmpty (hash : Hash) : Bool :=
  if hash = [] then true else hash.length == 0

/-- The conversion `[]byte(s)` of a string of ASCII characters. -/
def bytesOfString (s : String) : List (Fin 256) := s.data.map fun c => Fin.ofNat c.toNat

/-- The conversion `string(b)`, each byte read as the character of its code
(a byte above 0x7f is no hexadecimal digit either way). -/
def stringOfBytes (b : List (Fin 256)) : String := ⟨b.map fun v => Char.ofNat v.val⟩

/-- `Hash.UnmarshalJSON` (`hash.go:28-46`): the error returned, if any, and the
receiver after the call. The byte 34 is the double quote. -/
def Hash.UnmarshalJSON (hash : Hash) (bytes : List (Fin 256)) : Option Error × Hash :=
  if bytes.length < 2 then (some .mustBeString, hash)
  else if bytes.head? ≠ some 34 ∨ bytes.getLast? ≠ some 34 then (some .mustBeString, hash)
  else if bytes.length = 2 then (none, hash)
  else
    match gohex.DecodeString (stringOfBytes ((bytes.drop 1).take (bytes.length - 2))) with
    | .error err => (some (.hex err), hash)
    | .ok hexData => (none, hexData)

/-- `Hash.MarshalJSON` (`hash.go:48-53`). -/
def Hash.MarshalJSON (hash : Hash) : Except Error (List (Fin 256)) :=
  if hash = [] then .ok [34, 34]
  else .ok (bytesOfString
    (String.mk [Char.ofNat 34] ++ Hash.Hex hash ++ String.mk [Char.ofNat 34]))

/-- `HashesOfHexArray` (`hash.go:55-65`). -/
def HashesOfHexArray : List String → Except hex.Error (List Hash)
  | [] => .ok []
  | hashStr :: rest =>
    match gohex.DecodeString hashStr with
    | .error err => .error err
    | .ok hash =>
      match HashesOfHexArray rest with
      | .error err => .error err
      | .ok hashes => .ok (hash :: hashes)

/-- `HexArrayOfHashes` (`hash.go:67-73`). -/
def HexArrayOfHashes (hashes : List Hash) : List String := hashes.map Hash.Hex

end hash

namespace strings

/-- The scan of `strings.Split` for a non-empty separator: `skip` characters
of a separator just met are still to pass, `acc` holds the current part in
reverse. -/
def splitGo (sep : List Char) : List Char → Nat → List Char → List (List Char)
  | [], _, acc => [acc.reverse]
  | _ :: cs, skip + 1, acc => splitGo sep cs skip acc
  | c :: cs, 0, acc =>
    if sep.isPrefixOf (c :: cs) then acc.reverse :: splitGo sep cs (sep.length - 1) []
    else splitGo sep cs 0 (c :: acc)

/-- The library function `strings.Split(s, sep)` for a non-empty `sep`: the
parts of `s` between the occurrences of `sep`, met from left to right. -/
def Split (s sep : String) : List String := (splitGo sep.data s.data 0 []).map String.mk

/-- The library function `strings.HasPrefix(s, p)`. -/
def HasPrefix (s p : String) : Bool := p.data.isPrefixOf s.data

end strings

namespace models

/-- Instants of `time.Time`, as a count of clock ticks. -/
abbrev Time := Nat

/-- Identifiers of `uuid.UUID`. -/
abbrev UUID := Nat

/-- The struct `models.Signature` as `AddCommit` and `Merge` fill it. -/
structure Signature where
  Name : String
  Email : String
  When : Time
  deriving DecidableEq, Repr

/-- Modelled from the spec: the object kinds of section 3 (blob, tree, commit);
`models.CommitObject` is the kind both drivers write. -/
inductive ObjectType where
  | BlobObject
  | TreeObject
  | CommitObject
  deriving DecidableEq, Repr

/-- The struct `models.Commit`, with the fields the literals of
`commit.go:59-78` and `commit.go:218-228` name, and the `RepositoryID` that
`commit_test.go:27` sets; a literal that does not name it leaves it at the
zero value. -/
structure Commit where
  Hash : hash.Hash
  Type_ : ObjectType
  Author : Signature
  Committer : Signature
  MergeTag : String
  Message : String
  TreeHash : hash.Hash
  ParentHashes : List hash.Hash
  CreatedAt : Time
  UpdatedAt : Time
  RepositoryID : UUID := 0
  deriving DecidableEq, Repr

/-- The fields of `models.User` (`models/user.go:11-23`) read by the drivers. -/
structure User where
  ID : UUID
  Name : String
  Email : String
  deriving DecidableEq, Repr

/-- Modelled from the spec: the WIP record of section 3, with the fields
`AddCommit` reads (`CreatorID`, `CurrentTree`, `UpdatedAt`) and its base
commit. -/
structure WorkingInProcess where
  ID : UUID
  CreatorID : UUID
  BaseCommit : hash.Hash
  CurrentTree : hash.Hash
  UpdatedAt : Time
  RefID : UUID := 0
  deriving DecidableEq, Repr

/-- Modelled from the spec: a tree entry of section 3, reduced to its name and
hash. -/
structure TreeEntry where
  Name : String
  Hash : hash.Hash
  deriving DecidableEq, Repr

/-- The fields of `models.Repository` the controllers read. -/
structure Repository where
  ID : UUID
  Name : String
  OwnerID : UUID
  HEAD : String
  deriving DecidableEq, Repr

/-- The fields of `models.Branch` the controllers read (`branch_ctl.go:237-248`
without the timestamps and the description). -/
structure Branch where
  ID : UUID
  RepositoryID : UUID
  Name : String
  CommitHash : hash.Hash
  CreatorID : UUID
  deriving DecidableEq, Repr

/-- The field of a ref that `commit_ctl.go:62` reads, with its repository
and name. -/
structure Ref where
  RepositoryID : UUID
  Name : String
  CommitHash : hash.Hash
  deriving DecidableEq, Repr

/-- The match modes of a name filter; `models.PrefixMatch` is the one
`branch_ctl.go:54` passes. -/
inductive MatchMode where
  | ExactMatch
  | PrefixMatch
  | SuffixMatch
  | LikeMatch
  deriving DecidableEq, Repr

/-- Modelled from the spec: the parameters of a branch listing, as the setters
`branch_ctl.go:52-66` calls fill them: repository, name filter, cursor and
page amount. The type is declared outside the sources. -/
structure ListBranchParams where
  RepositoryID : UUID
  Name : Option (String × MatchMode)
  After : Option String
  Amount : Int
  deriving DecidableEq, Repr

/-- The constructor `models.NewListBranchParams()`: nothing set. -/
def NewListBranchParams : ListBranchParams := ⟨0, none, none, 0⟩

/-- The setter `SetName`. -/
def ListBranchParams.SetName (p : ListBranchParams) (name : String) (mode : MatchMode) :
    ListBranchParams :=
  { p with Name := some (name, mode) }

/-- The setter `SetAfter`. -/
def ListBranchParams.SetAfter (p : ListBranchParams) (after : String) : ListBranchParams :=
  { p with After := some after }

/-- The setter `SetAmount`. -/
def ListBranchParams.SetAmount (p : ListBranchParams) (amount : Int) : ListBranchParams :=
  { p with Amount := amount }

/-- The setter `SetRepositoryID`. -/
def ListBranchParams.SetRepositoryID (p : ListBranchParams) (id : UUID) : ListBranchParams :=
  { p with RepositoryID := id }

/-- The sentinel errors of the package that `commit_test.go` and the
controllers name. -/
inductive Error where
  | ErrRepoIDMisMatch
  | ErrNotFound
  deriving DecidableEq, Repr

/-- Modelled from the spec: the commit side of the object store of section
4.2, scoped by `repository_id`: the id of the repository and the commits it
holds, in insertion order. `models.NewCommitRepo` and its methods are not in
the sources; `commit_test.go` exercises them. -/
structure CommitRepo where
  repositoryID : UUID
  commits : List Commit
  deriving DecidableEq, Repr

/-- Modelled from the spec: an instant at the precision the database keeps:
microseconds, for instants counted in nanoseconds. -/
def dbTime (t : Time) : Time := t / 1000 * 1000

/-- Modelled from the spec: the stored form of a commit, its four instants at
database precision. -/
def dbForm (c : Commit) : Commit :=
  { c with
    Author := { c.Author with When := dbTime c.Author.When }
    Committer := { c.Committer with When := dbTime c.Committer.When }
    CreatedAt := dbTime c.CreatedAt
    UpdatedAt := dbTime c.UpdatedAt }

/-- Modelled from the spec: `RepositoryID()` of the commit repository
(`commit_test.go:23`). -/
def CommitRepo.RepositoryID (repo : CommitRepo) : UUID := repo.repositoryID

/-- Modelled from the spec: `get_commit(hash)` of section 4.2, the commit
stored under the hash or `NotFound`. -/
def CommitRepo.Commit (repo : CommitRepo) (h : hash.Hash) : Except Error Commit :=
  match repo.commits.find? (fun c => c.Hash = h) with
  | some c => .ok c
  | none => .error .ErrNotFound

/-- Modelled from the spec: `insert_commit(commit)` of section 4.2: it
"persists and returns the stored form", writing an existing hash "is a no-op";
a commit of another repository is refused with `ErrRepoIDMisMatch`
(`commit_test.go:35-40`). -/
def CommitRepo.Insert (repo : CommitRepo) (c : models.Commit) :
    Except Error models.Commit × CommitRepo :=
  if c.RepositoryID ≠ repo.repositoryID then (.error .ErrRepoIDMisMatch, repo)
  else
    match repo.commits.find? (fun d => d.Hash = c.Hash) with
    | some stored => (.ok stored, repo)
    | none => (.ok (dbForm c), { repo with commits := repo.commits ++ [dbForm c] })

end models

namespace versionmgr

open models

/-- Modelled from the spec: a path-keyed change of section 3; the action is
told by which of `From` and `To` is present. -/
structure Change where
  Path : String
  From : Option TreeEntry
  To : Option TreeEntry
  deriving DecidableEq, Repr

/-- The result of `WorkTree.Diff`: the changes in emission order. -/
abbrev Changes := List Change

/-- Go `error` values the drivers can return. `errorf` is `fmt.Errorf` with a
constant message, `UnresolvedConflict` the structured conflict error of the
resolver, `NotFound` and `Internal` the errors of the repositories. -/
inductive Err where
  | errorf (msg : String)
  | NotFound
  | UnresolvedConflict (paths : List String)
  | Internal (code : Nat)
  deriving DecidableEq, Repr

deriving instance DecidableEq for Except

/-- The injected `ConflictResolver`: given our change and their change on one
path, a chosen change or an error. -/
abbrev ConflictResolver := Change → Change → Except Err Change

/-- The calls `commit.go` makes to its collaborators. -/
inductive Call where
  | WipGet (id : UUID)
  | UserGet (id : UUID)
  | Now
  | GetHash (c : models.Commit)
  | Commit (h : hash.Hash)
  | Insert (c : models.Commit)
  | IsAncestor (c other : models.Commit)
  | MergeBase (c other : models.Commit)
  | NewWorkTree (root : hash.Hash)
  | Diff (fromTree toTree : hash.Hash)
  | Next
  | ApplyOneChange (change : Change)
  deriving DecidableEq, Repr

/-- One line of the call log: the call and the error it returned, if any. -/
structure Entry where
  call : Call
  err : Option Err
  deriving DecidableEq, Repr

/-- The state a driver runs in: the state of the stores and the log of the
calls made so far. -/
structure World (σ : Type) where
  store : σ
  log : List Entry
  deriving DecidableEq

/-- The collaborators of `CommitOp`: the WIP, user and object repositories it
holds, the commit graph (`CommitNode`), the work tree, the changes-merge
iterator, the clock and the commit hash. -/
structure Env (σ ω ι : Type) where
  /-- The call `commitOp.wip.Get(ctx, NewGetWipParams().SetID(id))`. -/
  WipGet : UUID → σ → Except Err WorkingInProcess × σ
  /-- The call `commitOp.user.Get(ctx, NewGetUserParams().SetID(id))`. -/
  UserGet : UUID → σ → Except Err User × σ
  /-- The call `time.Now()`. -/
  Now : σ → Time × σ
  /-- The method `commit.GetHash()`. -/
  GetHash : models.Commit → Except Err hash.Hash
  /-- The call `commitOp.object.Commit(ctx, h)`. -/
  Commit : hash.Hash → σ → Except Err models.Commit × σ
  /-- The call `commitOp.object.Insert(ctx, c.Object())`, read back with
  `.Commit()`. -/
  Insert : models.Commit → σ → Except Err models.Commit × σ
  /-- The call `c.IsAncestor(other)` on the commit nodes of `c` and `other`. -/
  IsAncestor : models.Commit → models.Commit → σ → Except Err Bool × σ
  /-- The call `c.MergeBase(other)`; each node is given by its commit. -/
  MergeBase : models.Commit → models.Commit → σ → Except Err (List models.Commit) × σ
  /-- The call `NewWorkTree(ctx, object, NewRootTreeEntry(root))`. -/
  NewWorkTree : hash.Hash → σ → Except Err ω × σ
  /-- The call `workTree.Diff(ctx, toTree)`. -/
  Diff : ω → hash.Hash → σ → Except Err Changes × σ
  /-- The constructor `NewChangesMergeIter(baseDiff, mergeDiff, resolver)`. -/
  NewChangesMergeIter : Changes → Changes → ConflictResolver → ι
  /-- The method `cmw.Has()`. -/
  Has : ι → Bool
  /-- The method `cmw.Next()`, with the iterator it leaves. -/
  Next : ι → Except Err Change × ι
  /-- The call `workTree.ApplyOneChange(ctx, change)`, with the work tree it
  leaves. -/
  ApplyOneChange : ω → Change → σ → Except Err ω × σ
  /-- The value `workTree.Root().Hash()`. -/
  Root : ω → hash.Hash

/-- A driver: from a world to a result (a value or a Go error) and the world
it leaves; `none` when the fuel of the model ran out. -/
def Prog (σ α : Type) := World σ → Option (Except Err α × World σ)

/-- Return a value. -/
def Prog.ret {σ α : Type} (a : α) : Prog σ α := fun w => some (.ok a, w)

/-- Return a Go error (`return nil, err`). -/
def Prog.fail {σ α : Type} (e : Err) : Prog σ α := fun w => some (.error e, w)

/-- Sequencing with `if err != nil { return nil, err }`. -/
def Prog.bind {σ α β : Type} (m : Prog σ α) (f : α → Prog σ β) : Prog σ β := fun w =>
  match m w with
  | none => none
  | some (.error e, w1) => some (.error e, w1)
  | some (.ok a, w1) => f a w1

instance (σ : Type) : Monad (Prog σ) where
  pure := Prog.ret
  bind := Prog.bind

/-- What a result adds to the log: the call with its error, if any. -/
def entryOf {α : Type} (c : Call) : Except Err α → Entry
  | .ok _ => ⟨c, none⟩
  | .error e => ⟨c, some e⟩

/-- Make a call on the store state and log it. -/
def call {σ α : Type} (c : Call) (f : σ → Except Err α × σ) : Prog σ α := fun w =>
  some ((f w.store).1, ⟨(f w.store).2, w.log ++ [entryOf c (f w.store).1]⟩)

/-- Make a call that does not touch the store state and log it. -/
def callPure {σ α : Type} (c : Call) (r : Except Err α) : Prog σ α := fun w =>
  some (r, ⟨w.store, w.log ++ [entryOf c r]⟩)

/-- The receiver `CommitOp`: the commit it holds (nil for an empty repository);
its three repositories are the `Env`. -/
structure CommitOp where
  commit : Option Commit
  deriving DecidableEq, Repr

/-- The constructor `NewCommitOp` (`commit.go:28-35`). -/
def NewCommitOp (commit : Option Commit) : CommitOp := ⟨commit⟩

/-- `CommitOp.AddCommit` (`commit.go:44-95`). -/
def AddCommit {σ ω ι : Type} (env : Env σ ω ι) (commitOp : CommitOp) (committer : User)
    (wipID : UUID) (msg : String) : Prog σ CommitOp :=
  call (.WipGet wipID) (env.WipGet wipID) >>= fun wip =>
  call (.UserGet wip.CreatorID) (env.UserGet wip.CreatorID) >>= fun creator =>
  let parentHash : List hash.Hash :=
    match commitOp.commit with
    | none => []
    | some head => [head.Hash]
  call .Now (fun s => (.ok (env.Now s).1, (env.Now s).2)) >>= fun committerWhen =>
  call .Now (fun s => (.ok (env.Now s).1, (env.Now s).2)) >>= fun createdAt =>
  call .Now (fun s => (.ok (env.Now s).1, (env.Now s).2)) >>= fun updatedAt =>
  let commit : Commit :=
    { Hash := []
      Type_ := .CommitObject
      Author := { Name := creator.Name, Email := creator.Email, When := wip.UpdatedAt }
      Committer := { Name := committer.Name, Email := committer.Email, When := committerWhen }
      MergeTag := ""
      Message := msg
      TreeHash := wip.CurrentTree
      ParentHashes := parentHash
      CreatedAt := createdAt
      UpdatedAt := updatedAt }
  callPure (.GetHash commit) (env.GetHash commit) >>= fun commitHash =>
  let commit : Commit := { commit with Hash := commitHash }
  call (.Insert commit) (env.Insert commit) >>= fun _ =>
  pure ⟨some commit⟩

/-- A method on the pointer receiver `*CommitOp`: it runs on the value the
receiver points to and on the world, and leaves a result, the value the
receiver points to after the call, and the world; `none` when the fuel of the
model ran out. -/
def Method (σ α : Type) := CommitOp → World σ → Option (Except Err α × CommitOp × World σ)

/-- Return a value. -/
def Method.ret {σ α : Type} (a : α) : Method σ α := fun recv w => some (.ok a, recv, w)

/-- Sequencing with `if err != nil { return nil, err }`; the receiver is
handed on as the step before left it. -/
def Method.bind {σ α β : Type} (m : Method σ α) (f : α → Method σ β) : Method σ β :=
  fun recv w =>
    match m recv w with
    | none => none
    | some (.error e, recv1, w1) => some (.error e, recv1, w1)
    | some (.ok a, recv1, w1) => f a recv1 w1

instance (σ : Type) : Monad (Method σ) where
  pure := Method.ret
  bind := Method.bind

/-- A step that neither reads nor writes the receiver. -/
def Method.lift {σ α : Type} (m : Prog σ α) : Method σ α := fun recv w =>
  match m w with
  | none => none
  | some (r, w1) => some (r, recv, w1)

/-- The read `commitOp.commit`. -/
def Method.commit {σ : Type} : Method σ (Option Commit) := fun recv w =>
  some (.ok recv.commit, recv, w)

/-- The assignment `commitOp.commit = c`, by which a method would change its
receiver. -/
def Method.setCommit {σ : Type} (c : Option Commit) : Method σ Unit := fun _ w =>
  some (.ok (), ⟨c⟩, w)

/-- `CommitOp.AddCommit` (`commit.go:44-95`) as a method on its pointer
receiver, statement by statement: the receiver is read at `commit.go:56-57`
and the returned `CommitOp` is a new struct (`commit.go:89-94`). -/
def CommitOp.AddCommit {σ ω ι : Type} (env : Env σ ω ι) (committer : User) (wipID : UUID)
    (msg : String) : Method σ CommitOp :=
  Method.lift (call (.WipGet wipID) (env.WipGet wipID)) >>= fun wip =>
  Method.lift (call (.UserGet wip.CreatorID) (env.UserGet wip.CreatorID)) >>= fun creator =>
  Method.commit >>= fun held =>
  let parentHash : List hash.Hash :=
    match held with
    | none => []
    | some head => [head.Hash]
  Method.lift (call .Now (fun s => (.ok (env.Now s).1, (env.Now s).2))) >>= fun committerWhen =>
  Method.lift (call .Now (fun s => (.ok (env.Now s).1, (env.Now s).2))) >>= fun createdAt =>
  Method.lift (call .Now (fun s => (.ok (env.Now s).1, (env.Now s).2))) >>= fun updatedAt =>
  let commit : Commit :=
    { Hash := []
      Type_ := .CommitObject
      Author := { Name := creator.Name, Email := creator.Email, When := wip.UpdatedAt }
      Committer := { Name := committer.Name, Email := committer.Email, When := committerWhen }
      MergeTag := ""
      Message := msg
      TreeHash := wip.CurrentTree
      ParentHashes := parentHash
      CreatedAt := createdAt
      UpdatedAt := updatedAt }
  Method.lift (callPure (.GetHash commit) (env.GetHash commit)) >>= fun commitHash =>
  let commit : Commit := { commit with Hash := commitHash }
  Method.lift (call (.Insert commit) (env.Insert commit)) >>= fun _ =>
  pure ⟨some commit⟩

/-- `CommitOp.DiffCommit` (`commit.go:98-109`) on a receiver holding `commit`. -/
def DiffCommit {σ ω ι : Type} (env : Env σ ω ι) (commit : Commit) (toCommitID : hash.Hash) :
    Prog σ Changes :=
  call (.NewWorkTree commit.TreeHash) (env.NewWorkTree commit.TreeHash) >>= fun workTree =>
  call (.Commit toCommitID) (env.Commit toCommitID) >>= fun toCommit =>
  call (.Diff commit.TreeHash toCommit.TreeHash) (env.Diff workTree toCommit.TreeHash)

/-- The loop `for cmw.Has() { ... }` of `commit.go:200-210`: at most `fuel`
iterations. -/
def applyChanges {σ ω ι : Type} (env : Env σ ω ι) : Nat → ι → ω → Prog σ ω
  | 0, cmw, workTree => fun w => if env.Has cmw then none else some (.ok workTree, w)
  | fuel + 1, cmw, workTree =>
    if env.Has cmw then
      callPure .Next (env.Next cmw).1 >>= fun change =>
      call (.ApplyOneChange change) (env.ApplyOneChange workTree change) >>= fun workTree1 =>
      applyChanges env fuel (env.Next cmw).2 workTree1
    else pure workTree

/-- `CommitOp.Merge` (`commit.go:112-240`) on a receiver holding `commit`
(`Merge` reads `commitOp.Commit().Hash` unconditionally, so the receiver built
with a nil commit is left out).  `fuel` bounds the depth of the recursion on
the merge bases and the number of iterations of the apply loop. -/
def Merge {σ ω ι : Type} (env : Env σ ω ι) : Nat → Commit → User → hash.Hash → String →
    ConflictResolver → Prog σ Commit
  | 0, _, _, _, _, _ => fun _ => none
  | fuel + 1, commit, merger, toMergeCommitHash, msg, resolver =>
    call (.Commit toMergeCommitHash) (env.Commit toMergeCommitHash) >>= fun toMergeCommit =>
    call (.IsAncestor toMergeCommit commit) (env.IsAncestor toMergeCommit commit) >>=
      fun mergeIsAncestorOfBase =>
    if mergeIsAncestorOfBase then pure commit else
    call (.IsAncestor commit toMergeCommit) (env.IsAncestor commit toMergeCommit) >>=
      fun baseIsAncestorOfMerge =>
    if baseIsAncestorOfMerge then pure toMergeCommit else
    call (.MergeBase commit toMergeCommit) (env.MergeBase commit toMergeCommit) >>=
      fun bestAncestor =>
    match bestAncestor with
    | [] => Prog.fail (.errorf "no common ancesstor find")
    | first :: rest =>
      (match rest with
        | [] => pure first
        | second :: _ => Merge env fuel first merger second.Hash "" resolver) >>=
        fun bestCommit =>
      DiffCommit env first commit.Hash >>= fun baseDiff =>
      DiffCommit env first toMergeCommit.Hash >>= fun mergeDiff =>
      call (.NewWorkTree bestCommit.TreeHash) (env.NewWorkTree bestCommit.TreeHash) >>=
        fun workTree =>
      applyChanges env (fuel + 1) (env.NewChangesMergeIter baseDiff mergeDiff resolver)
        workTree >>= fun workTree1 =>
      call .Now (fun s => (.ok (env.Now s).1, (env.Now s).2)) >>= fun authorWhen =>
      let author : Signature := { Name := merger.Name, Email := merger.Email, When := authorWhen }
      call .Now (fun s => (.ok (env.Now s).1, (env.Now s).2)) >>= fun createdAt =>
      call .Now (fun s => (.ok (env.Now s).1, (env.Now s).2)) >>= fun updatedAt =>
      let mergeCommit : Commit :=
        { Hash := []
          Type_ := .CommitObject
          Author := author
          Committer := author
          MergeTag := ""
          Message := msg
          TreeHash := env.Root workTree1
          ParentHashes := [commit.Hash, toMergeCommitHash]
          CreatedAt := createdAt
          UpdatedAt := updatedAt }
      callPure (.GetHash mergeCommit) (env.GetHash mergeCommit) >>= fun h =>
      let mergeCommit : Commit := { mergeCommit with Hash := h }
      call (.Insert mergeCommit) (env.Insert mergeCommit)

/-- The commits handed to `object.Insert` in a log, in call order. -/
def inserts : List Entry → List Commit
  | [] => []
  | ⟨.Insert c, _⟩ :: rest => c :: inserts rest
  | _ :: rest => inserts rest

/-- The merge bases asked for in a log (`MergeBase` calls), in call order. -/
def mergeBases : List Entry → List (Commit × Commit)
  | [] => []
  | ⟨.MergeBase c other, _⟩ :: rest => (c, other) :: mergeBases rest
  | _ :: rest => mergeBases rest

/-- The diffs computed in a log (`Diff` calls) as pairs (from tree, to tree),
in call order. -/
def diffs : List Entry → List (hash.Hash × hash.Hash)
  | [] => []
  | ⟨.Diff a b, _⟩ :: rest => (a, b) :: diffs rest
  | _ :: rest => diffs rest

/-- The roots of the work trees opened in a log (`NewWorkTree` calls), in call
order. -/
def workTreeRoots : List Entry → List hash.Hash
  | [] => []
  | ⟨.NewWorkTree root, _⟩ :: rest => root :: workTreeRoots rest
  | _ :: rest => workTreeRoots rest

/-- The paths a conflict error lists; no path for any other error. -/
def Err.paths : Err → List String
  | .UnresolvedConflict paths => paths
  | _ => []

/-- The commit `AddCommit` persists, as a function of what it read: the literal
of `commit.go:59-78` filled from the receiver, the submitter, the WIP, its
creator, the message and the three clock readings, with the hash `h` set at
`commit.go:83`. -/
def addedCommit (commitOp : CommitOp) (committer creator : User) (wip : WorkingInProcess)
    (msg : String) (t1 t2 t3 : Time) (h : hash.Hash) : Commit :=
  { Hash := h
    Type_ := .CommitObject
    Author := { Name := creator.Name, Email := creator.Email, When := wip.UpdatedAt }
    Committer := { Name := committer.Name, Email := committer.Email, When := t1 }
    MergeTag := ""
    Message := msg
    TreeHash := wip.CurrentTree
    ParentHashes :=
      match commitOp.commit with
      | none => []
      | some head => [head.Hash]
    CreatedAt := t2
    UpdatedAt := t3 }

/-- A driver keeps a property of the log: whatever it returns, the property
holds of the log it leaves when it held of the log it started from. -/
def Keeps {σ α : Type} (Q : List Entry → Prop) (m : Prog σ α) : Prop :=
  ∀ w r w1, m w = some (r, w1) → Q w.log → Q w1.log

/-- A property of the log that no call other than `Insert` can break. -/
def Stable (Q : List Entry → Prop) : Prop :=
  ∀ log c e, (∀ p, c ≠ .Insert p) → Q log → Q (log ++ [⟨c, e⟩])

/-- Commit identity: the stored hash is `GetHash` of the commit with its `Hash`
field empty. -/
def HashOfContent {σ ω ι : Type} (env : Env σ ω ι) (p : Commit) : Prop :=
  env.GetHash { p with Hash := [] } = .ok p.Hash

/-- Modelled from the spec: the actions of a change (section 3). -/
inductive Action where
  | ADD
  | MODIFY
  | REMOVE
  deriving DecidableEq, Repr

/-- Modelled from the spec: `change.Action()`, told by which of `from` and `to`
is present (section 3); an error when both are absent. -/
def Change.Action (c : Change) : Except Err Action :=
  match c.From, c.To with
  | none, some _ => .ok .ADD
  | some _, some _ => .ok .MODIFY
  | some _, none => .ok .REMOVE
  | none, none => .error (.errorf "malformed change")

/-- The two states of a work repository that `branch_ctl.go` names. -/
inductive WorkRepoState where
  | InBranch
  | InCommit
  deriving DecidableEq, Repr

end versionmgr

namespace rbacmodel

/-- The action `DeleteBranchAction`, as listed in `actions.gen.go:19`. -/
def DeleteBranchAction : String := "repo:DeleteBranch"

/-- The action `ListBranchesAction`, as listed in `actions.gen.go:23`. -/
def ListBranchesAction : String := "repo:ListBranches"

end rbacmodel

namespace utils

/-- Modelled from the spec: the helper `utils.IntValue`, the value of an
optional integer, an absent one counted as 0. The helper is declared outside
the sources. -/
def IntValue (v : Option Int) : Int :=
  match v with
  | some n => n
  | none => 0

end utils

namespace api

/-- The struct `api.Change` as `commit_ctl.go:152-161` fills it. -/
structure Change where
  Action : Int
  Path : String
  BaseHash : Option String
  ToHash : Option String
  deriving DecidableEq, Repr

/-- The parameters `api.GetCommitDiffParams`: the optional path. -/
structure GetCommitDiffParams where
  Path : Option String
  deriving DecidableEq, Repr

/-- The parameters `api.DeleteBranchParams`: the name of the branch. -/
structure DeleteBranchParams where
  RefName : String
  deriving DecidableEq, Repr

/-- The parameters `api.ListBranchesParams`, all optional. -/
structure ListBranchesParams where
  Prefix : Option String
  After : Option String
  Amount : Option Int
  deriving DecidableEq, Repr

/-- The parameters `api.GetEntriesInRefParams`, both optional. -/
structure GetEntriesInRefParams where
  Path : Option String
  Ref : Option String
  deriving DecidableEq, Repr

end api

/-!
## The controllers

`CommitController.GetCommitDiff` and `GetEntriesInRef` (`commit_ctl.go`),
`BranchController.DeleteBranch` and `ListBranches` (`branch_ctl.go`).  A handler
runs on the state
of the repositories and logs the calls it makes to them; it ends as soon as it
has written its response.
-/

namespace controller

open models

/-- The Go errors a handler hands to `w.Error`: an error of a repository or of
the version manager, or an error of the hexadecimal decoder. -/
inductive Error where
  | repo (e : versionmgr.Err)
  | hex (e : hex.Error)
  deriving DecidableEq, Repr

/-- What a handler writes to `api.JiaozifsResponse`. `BranchList` stands for
the JSON of `api.BranchList`, whose pagination `utils.PaginationFor` derives
from the two values kept here; `Entries` for the JSON of the entries of a
tree. `NilDereference` is no response: the handler panicked on dereferencing a
nil pointer. -/
inductive Response where
  | OK
  | JSON (changes : List api.Change)
  | BadRequest (msg : String)
  | Forbidden
  | Unauthorized
  | Error (err : Error)
  | BranchList (results : List Branch) (hasMore : Bool)
  | Entries (entries : List TreeEntry)
  | NilDereference
  deriving DecidableEq, Repr

/-- The calls the handlers make to their collaborators. -/
inductive Call where
  | GetOperator
  | UserGet (name : String)
  | RepositoryGet (ownerID : UUID) (name : String)
  | AuthorizeMember (repoID : UUID) (action : String) (ownerID : UUID)
  | NewWorkRepositoryFromConfig (operator : User) (repository : Repository)
  | CheckOut (state : versionmgr.WorkRepoState) (ref : String)
  | DeleteBranch
  | Commit (repoID : UUID) (h : hash.Hash)
  | DiffCommit (repoID : UUID) (commit : models.Commit) (toCommitID : hash.Hash)
  | BranchList (params : ListBranchParams)
  | RefGet (repoID : UUID) (name : String)
  | NewWorkTree (repoID : UUID) (root : hash.Hash)
  | Ls (path : String)
  deriving DecidableEq, Repr

/-- The state a handler runs in: the state of the repositories and the calls
made so far. -/
structure HWorld (σ : Type) where
  store : σ
  log : List Call
  deriving DecidableEq

/-- The collaborators of the two handlers; `ρ` is the work repository. -/
structure Env (σ ρ : Type) where
  /-- The call `auth.GetOperator(ctx)`. -/
  GetOperator : σ → Except versionmgr.Err User × σ
  /-- The call `Repo.UserRepo().Get(ctx, NewGetUserParams().SetName(name))`. -/
  UserGet : String → σ → Except versionmgr.Err User × σ
  /-- The call `Repo.RepositoryRepo().Get(ctx, ...)` by owner id and name. -/
  RepositoryGet : UUID → String → σ → Except versionmgr.Err Repository × σ
  /-- The call `authorizeMember(ctx, w, repoID, node)` for an action on the
  repository of an owner: no response when it answers true, the response it
  wrote when it answers false. -/
  AuthorizeMember : UUID → String → UUID → σ → Option Response × σ
  /-- The call `versionmgr.NewWorkRepositoryFromConfig(ctx, operator,
  repository, Repo, config)`. -/
  NewWorkRepositoryFromConfig : User → Repository → σ → Except versionmgr.Err ρ × σ
  /-- The call `workRepo.CheckOut(ctx, state, ref)`, with the work repository
  it leaves. -/
  CheckOut : ρ → versionmgr.WorkRepoState → String → σ → Except versionmgr.Err ρ × σ
  /-- The call `workRepo.DeleteBranch(ctx)`. -/
  DeleteBranch : ρ → σ → Except versionmgr.Err Unit × σ
  /-- The call `Repo.CommitRepo(repoID).Commit(ctx, h)`. -/
  Commit : UUID → hash.Hash → σ → Except versionmgr.Err models.Commit × σ
  /-- The call `versionmgr.NewCommitOp(Repo, repoID, commit).DiffCommit(ctx,
  toCommitID)`; the constructor with a repository id is that of a later
  `versionmgr` than the `commit.go` of the sources. -/
  DiffCommit : UUID → models.Commit → hash.Hash → σ →
    Except versionmgr.Err versionmgr.Changes × σ
  /-- The conversion `int(action)` of an action. -/
  ActionCode : versionmgr.Action → Int

/-- A handler: from a world to a value, or to the response written when the
handler returned early, and the world it leaves. -/
def Handler (σ α : Type) := HWorld σ → Except Response α × HWorld σ

/-- Go on with a value. -/
def Handler.ret {σ α : Type} (a : α) : Handler σ α := fun w => (.ok a, w)

/-- Write a response and return. -/
def respond {σ α : Type} (r : Response) : Handler σ α := fun w => (.error r, w)

/-- Sequencing: nothing runs after a response was written. -/
def Handler.bind {σ α β : Type} (m : Handler σ α) (f : α → Handler σ β) : Handler σ β :=
  fun w =>
    match m w with
    | (.error r, w1) => (.error r, w1)
    | (.ok a, w1) => f a w1

instance (σ : Type) : Monad (Handler σ) where
  pure := Handler.ret
  bind := Handler.bind

/-- Make a call, log it, and on an error `w.Error(err)` and return. -/
def callE {σ α : Type} (c : Call) (f : σ → Except versionmgr.Err α × σ) : Handler σ α :=
  fun w =>
    match f w.store with
    | (.ok a, s) => (.ok a, ⟨s, w.log ++ [c]⟩)
    | (.error e, s) => (.error (.Error (.repo e)), ⟨s, w.log ++ [c]⟩)

/-- Call `authorizeMember`, log it, and return when it answered false. -/
def callAuth {σ : Type} (c : Call) (f : σ → Option Response × σ) : Handler σ Unit :=
  fun w =>
    match f w.store with
    | (none, s) => (.ok (), ⟨s, w.log ++ [c]⟩)
    | (some r, s) => (.error r, ⟨s, w.log ++ [c]⟩)

/-- Decode a hexadecimal string, and on an error `w.Error(err)` and return. -/
def decodeE {σ : Type} (s : String) : Handler σ hash.Hash :=
  match hex.DecodeString s with
  | .ok h => pure h
  | .error e => respond (.Error (.hex e))

/-- The response a handler wrote and the world it left. -/
def answer {σ : Type} (h : Handler σ Response) (w : HWorld σ) : Response × HWorld σ :=
  match h w with
  | (.ok r, w1) => (r, w1)
  | (.error r, w1) => (r, w1)

/-- The loop `changes.ForEach` of `commit_ctl.go:144-165`: the entries of the
response for the changes whose path has the prefix `path`, or the first error
of `change.Action()`. -/
def changesResp (actionCode : versionmgr.Action → Int) (path : String) :
    versionmgr.Changes → Except versionmgr.Err (List api.Change)
  | [] => .ok []
  | change :: rest =>
    match change.Action with
    | .error err => .error err
    | .ok action =>
      match changesResp actionCode path rest with
      | .error err => .error err
      | .ok out =>
        if strings.HasPrefix change.Path path then
          .ok ({ Action := actionCode action
                 Path := change.Path
                 BaseHash := change.From.map fun e => hex.EncodeToString e.Hash
                 ToHash := change.To.map fun e => hex.EncodeToString e.Hash } :: out)
        else .ok out

/-- `CommitController.GetCommitDiff` (`commit_ctl.go:85-171`). -/
def GetCommitDiff {σ ρ : Type} (env : Env σ ρ) (ownerName repositoryName basehead : String)
    (params : api.GetCommitDiffParams) : Handler σ Response :=
  callE .GetOperator env.GetOperator >>= fun operator =>
  callE (.UserGet ownerName) (env.UserGet ownerName) >>= fun owner =>
  callE (.RepositoryGet owner.ID repositoryName) (env.RepositoryGet owner.ID repositoryName) >>=
    fun repository =>
  if operator.ID = owner.ID then respond .Forbidden else
  match strings.Split basehead "..." with
  | [base, head] =>
    decodeE base >>= fun bashCommitHash =>
    decodeE head >>= fun toCommitHash =>
    callE (.Commit repository.ID bashCommitHash) (env.Commit repository.ID bashCommitHash) >>=
      fun bashCommit =>
    let path := params.Path.getD ""
    callE (.DiffCommit repository.ID bashCommit toCommitHash)
      (env.DiffCommit repository.ID bashCommit toCommitHash) >>= fun changes =>
    match changesResp env.ActionCode path changes with
    | .error err => respond (.Error (.repo err))
    | .ok resp => pure (.JSON resp)
  | _ => respond (.BadRequest "invalid basehead must be base...head")

/-- `BranchController.DeleteBranch` (`branch_ctl.go:151-203`). -/
def DeleteBranch {σ ρ : Type} (env : Env σ ρ) (ownerName repositoryName : String)
    (params : api.DeleteBranchParams) : Handler σ Response :=
  callE .GetOperator env.GetOperator >>= fun operator =>
  callE (.UserGet ownerName) (env.UserGet ownerName) >>= fun owner =>
  callE (.RepositoryGet owner.ID repositoryName) (env.RepositoryGet owner.ID repositoryName) >>=
    fun repository =>
  callAuth (.AuthorizeMember repository.ID rbacmodel.DeleteBranchAction owner.ID)
    (env.AuthorizeMember repository.ID rbacmodel.DeleteBranchAction owner.ID) >>= fun _ =>
  if params.RefName = repository.HEAD then respond (.BadRequest "can not delete HEAD branch")
  else
  callE (.NewWorkRepositoryFromConfig operator repository)
    (env.NewWorkRepositoryFromConfig operator repository) >>= fun workRepo =>
  callE (.CheckOut .InBranch params.RefName) (env.CheckOut workRepo .InBranch params.RefName) >>=
    fun workRepo1 =>
  callE .DeleteBranch (env.DeleteBranch workRepo1) >>= fun _ =>
  pure .OK

/-- The collaborators of `ListBranches` and `GetEntriesInRef`, added to those
of the other handlers; `ω` is the work tree. -/
structure TreeEnv (σ ρ ω : Type) extends Env σ ρ where
  /-- The call `Repo.BranchRepo().List(ctx, params)`: the branches of the page
  and whether there are more. -/
  BranchList : ListBranchParams → σ → Except versionmgr.Err (List Branch × Bool) × σ
  /-- The call `Repo.RefRepo().Get(ctx, ...)` by repository id and name. -/
  RefGet : UUID → String → σ → Except versionmgr.Err Ref × σ
  /-- The call `versionmgr.NewWorkTree(ctx, Repo.FileTreeRepo(repoID),
  NewRootTreeEntry(root))`. -/
  NewWorkTree : UUID → hash.Hash → σ → Except versionmgr.Err ω × σ
  /-- The call `workTree.Ls(ctx, path)`. -/
  Ls : ω → String → σ → Except versionmgr.Err (List TreeEntry) × σ

/-- The dereference `*p` of an optional parameter: its value, or the panic of
a nil pointer. -/
def deref {σ α : Type} (p : Option α) : Handler σ α :=
  match p with
  | some a => pure a
  | none => respond .NilDereference

/-- The parameters of the listing that `ListBranches` builds
(`branch_ctl.go:52-66`): name filter and cursor when given and not empty, the
page amount, and the repository. `DefaultMaxPerPage` is the constant
`utils.DefaultMaxPerPage`, declared outside the sources. -/
def listBranchParamsOf (DefaultMaxPerPage : Int) (repositoryID : UUID)
    (params : api.ListBranchesParams) : ListBranchParams :=
  let listBranchParams := NewListBranchParams
  let listBranchParams :=
    match params.Prefix with
    | some p => if 0 < p.utf8ByteSize then listBranchParams.SetName p .PrefixMatch
      else listBranchParams
    | none => listBranchParams
  let listBranchParams :=
    match params.After with
    | some a => if 0 < a.utf8ByteSize then listBranchParams.SetAfter a else listBranchParams
    | none => listBranchParams
  let pageAmount := utils.IntValue params.Amount
  let listBranchParams :=
    if pageAmount > DefaultMaxPerPage ∨ pageAmount ≤ 0 then
      listBranchParams.SetAmount DefaultMaxPerPage
    else listBranchParams.SetAmount pageAmount
  listBranchParams.SetRepositoryID repositoryID

/-- `BranchController.ListBranches` (`branch_ctl.go:30-83`). -/
def ListBranches {σ ρ ω : Type} (env : TreeEnv σ ρ ω) (DefaultMaxPerPage : Int)
    (ownerName repositoryName : String) (params : api.ListBranchesParams) :
    Handler σ Response :=
  callE (.UserGet ownerName) (env.UserGet ownerName) >>= fun owner =>
  callE (.RepositoryGet owner.ID repositoryName) (env.RepositoryGet owner.ID repositoryName) >>=
    fun repository =>
  callAuth (.AuthorizeMember repository.ID rbacmodel.ListBranchesAction owner.ID)
    (env.AuthorizeMember repository.ID rbacmodel.ListBranchesAction owner.ID) >>= fun _ =>
  let listBranchParams := listBranchParamsOf DefaultMaxPerPage repository.ID params
  callE (.BranchList listBranchParams) (env.BranchList listBranchParams) >>= fun page =>
  pure (.BranchList page.1 page.2)

/-- `CommitController.GetEntriesInRef` (`commit_ctl.go:26-83`). The ref name
is `*params.Ref` when `params.Path` is not nil (`commit_ctl.go:51-53`). -/
def GetEntriesInRef {σ ρ ω : Type} (env : TreeEnv σ ρ ω) (ownerName repositoryName : String)
    (params : api.GetEntriesInRefParams) : Handler σ Response :=
  callE .GetOperator env.GetOperator >>= fun operator =>
  callE (.UserGet ownerName) (env.UserGet ownerName) >>= fun owner =>
  callE (.RepositoryGet owner.ID repositoryName) (env.RepositoryGet owner.ID repositoryName) >>=
    fun repository =>
  if operator.Name = ownerName then respond .Forbidden else
  (match params.Path with
    | some _ => deref params.Ref
    | none => pure "main") >>= fun refName =>
  callE (.RefGet repository.ID refName) (env.RefGet repository.ID refName) >>= fun ref =>
  callE (.Commit repository.ID ref.CommitHash) (env.Commit repository.ID ref.CommitHash) >>=
    fun commit =>
  callE (.NewWorkTree repository.ID commit.TreeHash)
    (env.NewWorkTree repository.ID commit.TreeHash) >>= fun workTree =>
  let path := params.Path.getD ""
  callE (.Ls path) (env.Ls workTree path) >>= fun treeEntry =>
  pure (.Entries treeEntry)

/-- The status `http.StatusOK`. -/
def StatusOK : Nat := 200

/-- The status `http.StatusCreated`. -/
def StatusCreated : Nat := 201

/-- The status `http.StatusNotFound`. -/
def StatusNotFound : Nat := 404

/-- Modelled from the spec: what the WIP handlers of one repository work on
(section 3): its branches, its commits, the WIPs, the next free id and the
clock. The WIP controller is not in the sources; `wip_test.go` exercises it. -/
structure WipStore where
  branches : List Branch
  commits : List Commit
  wips : List WorkingInProcess
  nextID : UUID
  clock : Time
  deriving DecidableEq, Repr

/-- The branch of a name. -/
def findBranch (st : WipStore) (refName : String) : Option Branch :=
  st.branches.find? fun b => b.Name = refName

/-- The WIP of a branch and a user: a WIP is per (branch, user). -/
def findWip (st : WipStore) (refID user : UUID) : Option WorkingInProcess :=
  st.wips.find? fun w => w.RefID = refID && w.CreatorID = user

/-- The tree of the commit a branch points to; the empty hash when the branch
has no commit yet. -/
def treeOfCommit (st : WipStore) (h : hash.Hash) : hash.Hash :=
  match st.commits.find? (fun c => c.Hash = h) with
  | some c => c.TreeHash
  | none => []

/-- Modelled from the spec: `GetWip` for a user and a branch name. A WIP is
"auto-created on first access", with `current_tree == base_commit.tree_hash`
(section 3); the statuses are those of `wip_test.go:49-77`: Created when the
WIP is created, OK when it was there, NotFound for a branch that is not there.
Returns the status, the WIP and the state after the call. -/
def GetWip (st : WipStore) (user : UUID) (refName : String) :
    Nat × Option WorkingInProcess × WipStore :=
  match findBranch st refName with
  | none => (StatusNotFound, none, st)
  | some branch =>
    match findWip st branch.ID user with
    | some wip => (StatusOK, some wip, st)
    | none =>
      let wip : WorkingInProcess :=
        { ID := st.nextID
          CreatorID := user
          BaseCommit := branch.CommitHash
          CurrentTree := treeOfCommit st branch.CommitHash
          UpdatedAt := st.clock
          RefID := branch.ID }
      (StatusCreated, some wip,
        { st with wips := st.wips ++ [wip], nextID := st.nextID + 1, clock := st.clock + 1 })

/-- Modelled from the spec: `DeleteWip` for a user and a branch name: the WIP
is "discarded on ... delete" (section 3); the statuses are those of
`wip_test.go:153-183`: NotFound when there is no WIP (or no branch), OK when
the WIP was removed. Returns the status and the state after the call. -/
def DeleteWip (st : WipStore) (user : UUID) (refName : String) : Nat × WipStore :=
  match findBranch st refName with
  | none => (StatusNotFound, st)
  | some branch =>
    match findWip st branch.ID user with
    | none => (StatusNotFound, st)
    | some _ =>
      (StatusOK,
        { st with wips := st.wips.filter fun w => !(w.RefID = branch.ID && w.CreatorID = user) })

end controller

/-!
## An in-memory instance

Trees are flat maps from path to blob hash, kept in path order; the stores are
lists.  The drivers are run on it at concrete histories.
-/

namespace memory

open models versionmgr

/-- A tree, as the list of its leaves in path order. -/
abbrev FlatTree := List (String × hash.Hash)

/-- A two-byte digest of a list of numbers. -/
def digest (bs : List Nat) : hash.Hash :=
  let n := bs.foldl (fun acc b => (acc * 31 + b + 1) % 65521) 7
  [Fin.ofNat (n / 256), Fin.ofNat (n % 256)]

/-- The bytes of a string, followed by a zero. -/
def strBytes (s : String) : List Nat := s.data.map Char.toNat ++ [0]

/-- The bytes of a hash, followed by its length. -/
def hashBytes (h : hash.Hash) : List Nat := h.map Fin.val ++ [h.length]

/-- The hash of a tree: the digest of its leaves; the empty tree has the empty
hash. -/
def treeHash : FlatTree → hash.Hash
  | [] => []
  | t => digest (t.flatMap fun e => strBytes e.1 ++ hashBytes e.2)

/-- The hash of a commit: the digest of every field but `Hash`. -/
def commitHash (c : Commit) : hash.Hash :=
  digest (strBytes c.Author.Name ++ strBytes c.Author.Email ++ [c.Author.When] ++
    strBytes c.Committer.Name ++ strBytes c.Committer.Email ++ [c.Committer.When] ++
    strBytes c.MergeTag ++ strBytes c.Message ++ hashBytes c.TreeHash ++
    c.ParentHashes.flatMap hashBytes ++ [c.CreatedAt, c.UpdatedAt])

/-- The state of the stores. -/
structure Store where
  commits : List Commit
  trees : List FlatTree
  wips : List WorkingInProcess
  users : List User
  clock : Time
  deriving DecidableEq, Repr

/-- Lexicographic order on lists of numbers. -/
def listLt : List Nat → List Nat → Bool
  | [], [] => false
  | [], _ :: _ => true
  | _ :: _, [] => false
  | a :: as, b :: bs => decide (a < b) || (decide (a = b) && listLt as bs)

/-- Path order: lexicographic on the characters. -/
def pathLt (a b : String) : Bool := listLt (a.data.map Char.toNat) (b.data.map Char.toNat)

/-- Insert a leaf at its place in path order. -/
def insertLeaf (p : String) (h : hash.Hash) : FlatTree → FlatTree
  | [] => [(p, h)]
  | (q, k) :: rest => if pathLt p q then (p, h) :: (q, k) :: rest else (q, k) :: insertLeaf p h rest

/-- The leaf at a path. -/
def findLeaf (p : String) : FlatTree → Option hash.Hash
  | [] => none
  | (q, k) :: rest => if p = q then some k else findLeaf p rest

/-- Remove the leaf at a path. -/
def removeLeaf (p : String) : FlatTree → FlatTree
  | [] => []
  | (q, k) :: rest => if p = q then rest else (q, k) :: removeLeaf p rest

/-- Load the tree of a root hash: the empty tree for the empty hash. -/
def loadTree (s : Store) (root : hash.Hash) : Except Err FlatTree :=
  if root = [] then .ok []
  else match s.trees.find? (fun t => treeHash t = root) with
    | some t => .ok t
    | none => .error .NotFound

/-- Write a tree. -/
def putTree (s : Store) (t : FlatTree) : Store :=
  if s.trees.contains t then s else { s with trees := s.trees ++ [t] }

/-- Insert a change at its place in path order. -/
def insertChange (c : Change) : Changes → Changes
  | [] => [c]
  | d :: rest => if pathLt c.Path d.Path then c :: d :: rest else d :: insertChange c rest

/-- Modelled from the spec: the tree diff of section 4.4 on flat trees, REMOVE
for a path only in `a`, ADD for a path only in `b`, MODIFY for a path in both
with different hashes, in path order. -/
def diffTrees (a b : FlatTree) : Changes :=
  let gone : Changes := a.filterMap fun e =>
    match findLeaf e.1 b with
    | none => some ⟨e.1, some ⟨e.1, e.2⟩, none⟩
    | some k => if k = e.2 then none else some ⟨e.1, some ⟨e.1, e.2⟩, some ⟨e.1, k⟩⟩
  let added : Changes := b.filterMap fun e =>
    match findLeaf e.1 a with
    | none => some ⟨e.1, none, some ⟨e.1, e.2⟩⟩
    | some _ => none
  (gone ++ added).foldr insertChange []

/-- Modelled from the spec: `apply_one_change` of section 4.3 on a flat tree:
ADD fails on an existing path, MODIFY and REMOVE fail on a missing one. -/
def applyChange (t : FlatTree) (c : Change) : Except Err FlatTree :=
  match c.From, c.To with
  | none, some e =>
    if (findLeaf c.Path t).isSome then .error (.errorf "already exit")
    else .ok (insertLeaf c.Path e.Hash t)
  | some _, some e =>
    if (findLeaf c.Path t).isSome then .ok (insertLeaf c.Path e.Hash (removeLeaf c.Path t))
    else .error .NotFound
  | some _, none =>
    if (findLeaf c.Path t).isSome then .ok (removeLeaf c.Path t) else .error .NotFound
  | none, none => .error (.errorf "invalid change")

/-- The commit stored under a hash. -/
def findCommit (s : Store) (h : hash.Hash) : Option Commit :=
  s.commits.find? (fun c => c.Hash = h)

/-- The hashes reachable from a frontier in at most `n` parent steps. -/
def reach (s : Store) : Nat → List hash.Hash → List hash.Hash
  | 0, frontier => frontier
  | n + 1, frontier =>
    reach s n (frontier ++ frontier.flatMap fun h =>
      match findCommit s h with
      | some c => c.ParentHashes
      | none => []).dedup

/-- Modelled from the spec: `is_ancestor(a, b)` of section 4.5, true when
`a.hash` is reached from `b` over parent edges. -/
def isAncestor (s : Store) (a b : Commit) : Bool :=
  (reach s s.commits.length [b.Hash]).contains a.Hash

/-- Modelled from the spec: `merge_base(a, b)` of section 4.5, the common
ancestors of `a` and `b` that are not ancestors of another common ancestor. -/
def mergeBase (s : Store) (a b : Commit) : List Commit :=
  let common := s.commits.filter fun c => isAncestor s c a && isAncestor s c b
  common.filter fun c => common.all fun d => d.Hash = c.Hash || !isAncestor s c d

/-- Modelled from the spec: the conflicts of two change streams, the pairs of
changes on one path with different outcomes (section 4.4, last row of the
table), in the order of the first stream. -/
def conflicts (baseChanges mergeChanges : Changes) : List (Change × Change) :=
  baseChanges.flatMap fun x =>
    (mergeChanges.filter fun y =>
      x.Path = y.Path && x.To.map (fun e => e.Hash) != y.To.map (fun e => e.Hash)).map
      fun y => (x, y)

/-- Modelled from the spec: all the conflicting paths of two change streams,
what the error of an unresolved conflict lists (sections 4.4 and 7). -/
def conflictPaths (baseChanges mergeChanges : Changes) : List String :=
  (conflicts baseChanges mergeChanges).map fun c => c.1.Path

/-- Modelled from the spec: the changes merge iterator of section 4.4: the two
change streams still to walk, the resolver, and the conflicting paths of the
two streams the iterator was made for. -/
structure ChangesMergeIter where
  baseChanges : Changes
  mergeChanges : Changes
  resolver : ConflictResolver
  conflicting : List String

/-- Modelled from the spec: the constructor of the changes merge iterator, on
`base_diff`, `merge_diff` and the resolver. -/
def NewChangesMergeIter (baseDiff mergeDiff : Changes) (resolver : ConflictResolver) :
    ChangesMergeIter :=
  ⟨baseDiff, mergeDiff, resolver, conflictPaths baseDiff mergeDiff⟩

/-- Modelled from the spec: `has()` of the changes merge iterator. -/
def ChangesMergeIter.Has (it : ChangesMergeIter) : Bool :=
  !(it.baseChanges.isEmpty && it.mergeChanges.isEmpty)

/-- Modelled from the spec: what `next()` returns where the two streams
conflict: the change the resolver chose; when the resolver signals
`UnresolvedConflict`, the "structured error listing all conflicting paths"
(section 4.4); any other error of the resolver as it is. -/
def ChangesMergeIter.resolve (it : ChangesMergeIter) (ours theirs : Change) :
    Except Err Change :=
  match it.resolver ours theirs with
  | .ok change => .ok change
  | .error (.UnresolvedConflict _) => .error (.UnresolvedConflict it.conflicting)
  | .error e => .error e

/-- Modelled from the spec: `next()` of the changes merge iterator, the table
of section 4.4: the change of the side that has the smaller path; on one
path, our change when both have the same `to` hash, else the resolver is
called. The iterator surfaces the first error and terminates (section 7). -/
def ChangesMergeIter.Next (it : ChangesMergeIter) : Except Err Change × ChangesMergeIter :=
  match it.baseChanges, it.mergeChanges with
  | [], [] => (.error (.errorf "no more changes"), it)
  | x :: xs, [] => (.ok x, { it with baseChanges := xs })
  | [], y :: ys => (.ok y, { it with mergeChanges := ys })
  | x :: xs, y :: ys =>
    if pathLt x.Path y.Path then (.ok x, { it with baseChanges := xs })
    else if pathLt y.Path x.Path then (.ok y, { it with mergeChanges := ys })
    else if x.To.map (fun e => e.Hash) = y.To.map (fun e => e.Hash) then
      (.ok x, { it with baseChanges := xs, mergeChanges := ys })
    else (it.resolve x y, { it with baseChanges := xs, mergeChanges := ys })

/-- The in-memory collaborators. -/
def env : Env Store FlatTree ChangesMergeIter where
  WipGet := fun id s =>
    match s.wips.find? (fun w => w.ID = id) with
    | some w => (.ok w, s)
    | none => (.error .NotFound, s)
  UserGet := fun id s =>
    match s.users.find? (fun u => u.ID = id) with
    | some u => (.ok u, s)
    | none => (.error .NotFound, s)
  Now := fun s => (s.clock, { s with clock := s.clock + 1 })
  GetHash := fun c => .ok (commitHash c)
  Commit := fun h s =>
    match findCommit s h with
    | some c => (.ok c, s)
    | none => (.error .NotFound, s)
  Insert := fun c s => (.ok c, { s with commits := s.commits ++ [c] })
  IsAncestor := fun c other s => (.ok (isAncestor s c other), s)
  MergeBase := fun c other s => (.ok (mergeBase s c other), s)
  NewWorkTree := fun root s => (loadTree s root, s)
  Diff := fun t toTree s =>
    match loadTree s toTree with
    | .ok b => (.ok (diffTrees t b), s)
    | .error e => (.error e, s)
  NewChangesMergeIter := NewChangesMergeIter
  Has := ChangesMergeIter.Has
  Next := ChangesMergeIter.Next
  ApplyOneChange := fun t c s =>
    match applyChange t c with
    | .ok t1 => (.ok t1, putTree s t1)
    | .error e => (.error e, s)
  Root := treeHash

/-- A commit of `alice` made at clock `t`, stored under its own hash. -/
def mkCommit (msg : String) (tree : FlatTree) (parents : List hash.Hash) (t : Time) : Commit :=
  let c : Commit :=
    { Hash := []
      Type_ := .CommitObject
      Author := ⟨"alice", "alice@example.org", t⟩
      Committer := ⟨"alice", "alice@example.org", t⟩
      MergeTag := ""
      Message := msg
      TreeHash := treeHash tree
      ParentHashes := parents
      CreatedAt := t
      UpdatedAt := t }
  { c with Hash := commitHash c }

/-- The tree of the first commit: `docs/readme.md`. -/
def tRoot : FlatTree := [("docs/readme.md", [1])]

/-- Branch `A` adds `src/a.txt`. -/
def tA : FlatTree := [("docs/readme.md", [1]), ("src/a.txt", [2])]

/-- Branch `B` adds `src/b.txt`. -/
def tB : FlatTree := [("docs/readme.md", [1]), ("src/b.txt", [3])]

/-- Both additions. -/
def tAB : FlatTree := [("docs/readme.md", [1]), ("src/a.txt", [2]), ("src/b.txt", [3])]

/-- Both additions and `x.txt`. -/
def tABx : FlatTree :=
  [("docs/readme.md", [1]), ("src/a.txt", [2]), ("src/b.txt", [3]), ("x.txt", [8])]

/-- Both additions and `y.txt`. -/
def tABy : FlatTree :=
  [("docs/readme.md", [1]), ("src/a.txt", [2]), ("src/b.txt", [3]), ("y.txt", [9])]

/-- Branch `P` adds `a.txt`, rewrites `docs/readme.md` and adds `src/c.txt`. -/
def tP : FlatTree := [("a.txt", [10]), ("docs/readme.md", [4]), ("src/c.txt", [6])]

/-- Branch `Q` rewrites `docs/readme.md` and adds another `src/c.txt`. -/
def tQ : FlatTree := [("docs/readme.md", [5]), ("src/c.txt", [7])]

/-- The first commit. -/
def c0 : Commit := mkCommit "init" tRoot [] 1

/-- The tip of branch `A`. -/
def cA : Commit := mkCommit "add a" tA [c0.Hash] 2

/-- The tip of branch `B`. -/
def cB : Commit := mkCommit "add b" tB [c0.Hash] 3

/-- Branch `A` after merging `B` and adding `x.txt`. -/
def cA2 : Commit := mkCommit "merge b, add x" tABx [cA.Hash, cB.Hash] 4

/-- Branch `B` after merging `A` and adding `y.txt`. -/
def cB2 : Commit := mkCommit "merge a, add y" tABy [cB.Hash, cA.Hash] 5

/-- The tip of branch `P`. -/
def cP : Commit := mkCommit "p" tP [c0.Hash] 6

/-- The tip of branch `Q`. -/
def cQ : Commit := mkCommit "q" tQ [c0.Hash] 7

/-- A second root commit, unrelated to `c0`. -/
def cR : Commit := mkCommit "other root" tB [] 8

/-- The user who stages. -/
def alice : User := ⟨1, "alice", "alice@example.org"⟩

/-- The user who submits and merges. -/
def bob : User := ⟨2, "bob", "bob@example.org"⟩

/-- A WIP of `alice` on `c0` holding the tree `tA`, last updated at 42. -/
def wipA : WorkingInProcess :=
  { ID := 7, CreatorID := 1, BaseCommit := c0.Hash, CurrentTree := treeHash tA, UpdatedAt := 42 }

/-- A WIP of `alice` on the empty repository holding the tree `tRoot`. -/
def wipRoot : WorkingInProcess :=
  { ID := 8, CreatorID := 1, BaseCommit := [], CurrentTree := treeHash tRoot, UpdatedAt := 41 }

/-- The stores holding the histories above. -/
def store0 : Store where
  commits := [c0, cA, cB, cA2, cB2, cP, cQ, cR]
  trees := [tRoot, tA, tB, tAB, tABx, tABy, tP, tQ]
  wips := [wipA, wipRoot]
  users := [alice, bob]
  clock := 100

/-- The world the scenarios start from: `store0` and an empty log. -/
def world0 : World Store := ⟨store0, []⟩

/-- A resolver that declines every conflict, naming the path. -/
def declineAll : ConflictResolver := fun ours _ => .error (.UnresolvedConflict [ours.Path])

/-- A resolver that picks our change. -/
def pickOurs : ConflictResolver := fun ours _ => .ok ours

/-- The commit a merge of `cB` into `cA` by `bob` with message `m` writes when
the clock reads 100, 101, 102. -/
def mergedAB : Commit :=
  let c : Commit :=
    { Hash := []
      Type_ := .CommitObject
      Author := ⟨"bob", "bob@example.org", 100⟩
      Committer := ⟨"bob", "bob@example.org", 100⟩
      MergeTag := ""
      Message := "m"
      TreeHash := treeHash tAB
      ParentHashes := [cA.Hash, cB.Hash]
      CreatedAt := 101
      UpdatedAt := 102 }
  { c with Hash := commitHash c }

/-- The world that merge of `cB` into `cA` leaves: the commit is stored, the
clock was read three times, and the log lists the twenty calls. -/
def worldAB : World Store :=
  ⟨{ store0 with commits := store0.commits ++ [mergedAB], clock := 103 },
    [⟨.Commit cB.Hash, none⟩, ⟨.IsAncestor cB cA, none⟩, ⟨.IsAncestor cA cB, none⟩,
      ⟨.MergeBase cA cB, none⟩,
      ⟨.NewWorkTree (treeHash tRoot), none⟩, ⟨.Commit cA.Hash, none⟩,
      ⟨.Diff (treeHash tRoot) (treeHash tA), none⟩,
      ⟨.NewWorkTree (treeHash tRoot), none⟩, ⟨.Commit cB.Hash, none⟩,
      ⟨.Diff (treeHash tRoot) (treeHash tB), none⟩,
      ⟨.NewWorkTree (treeHash tRoot), none⟩,
      ⟨.Next, none⟩, ⟨.ApplyOneChange ⟨"src/a.txt", none, some ⟨"src/a.txt", [2]⟩⟩, none⟩,
      ⟨.Next, none⟩, ⟨.ApplyOneChange ⟨"src/b.txt", none, some ⟨"src/b.txt", [3]⟩⟩, none⟩,
      ⟨.Now, none⟩, ⟨.Now, none⟩, ⟨.Now, none⟩,
      ⟨.GetHash { mergedAB with Hash := [] }, none⟩, ⟨.Insert mergedAB, none⟩]⟩

/-- The log of a merge of `cQ` into `cP` up to the merge base query. -/
def logPQ : List Entry :=
  [⟨.Commit cQ.Hash, none⟩, ⟨.IsAncestor cQ cP, none⟩, ⟨.IsAncestor cP cQ, none⟩,
    ⟨.MergeBase cP cQ, none⟩]

/-- The world of that merge after the diff from the merge base `c0` to `cP`. -/
def worldPQ5 : World Store :=
  ⟨store0, logPQ ++ [⟨.NewWorkTree (treeHash tRoot), none⟩, ⟨.Commit cP.Hash, none⟩,
    ⟨.Diff (treeHash tRoot) (treeHash tP), none⟩]⟩

/-- The world of that merge after the diff from the merge base `c0` to `cQ`. -/
def worldPQ6 : World Store :=
  ⟨store0, worldPQ5.log ++ [⟨.NewWorkTree (treeHash tRoot), none⟩, ⟨.Commit cQ.Hash, none⟩,
    ⟨.Diff (treeHash tRoot) (treeHash tQ), none⟩]⟩

/-- The world that merge leaves when the resolver declines every conflict:
`a.txt` was applied, then `Next` failed on `docs/readme.md` with the error that
lists the two conflicting paths. -/
def worldPQ8 : World Store :=
  ⟨putTree store0 [("a.txt", [10]), ("docs/readme.md", [1])],
    worldPQ6.log ++ [⟨.NewWorkTree (treeHash tRoot), none⟩] ++
      [⟨.Next, none⟩, ⟨.ApplyOneChange ⟨"a.txt", none, some ⟨"a.txt", [10]⟩⟩, none⟩] ++
      [⟨.Next, some (.UnresolvedConflict ["docs/readme.md", "src/c.txt"])⟩]⟩

/-- The change of branch `P` that adds `a.txt`. -/
def addAP : Change := ⟨"a.txt", none, some ⟨"a.txt", [10]⟩⟩

/-- The change of branch `P` that adds `src/c.txt`. -/
def addCP : Change := ⟨"src/c.txt", none, some ⟨"src/c.txt", [6]⟩⟩

/-- The change of branch `Q` that adds another `src/c.txt`. -/
def addCQ : Change := ⟨"src/c.txt", none, some ⟨"src/c.txt", [7]⟩⟩

/-- The commit `AddCommit` writes on head `c0` from `wipA`, submitted by `bob`
with message `second`, when the clock reads 100, 101, 102. -/
def addedA : Commit :=
  addedCommit ⟨some c0⟩ bob alice wipA "second" 100 101 102
    (commitHash (addedCommit ⟨some c0⟩ bob alice wipA "second" 100 101 102 []))

/-- The world that `AddCommit` leaves. -/
def worldAdded : World Store :=
  ⟨{ store0 with commits := store0.commits ++ [addedA], clock := 103 },
    [⟨.WipGet 7, none⟩, ⟨.UserGet 1, none⟩, ⟨.Now, none⟩, ⟨.Now, none⟩, ⟨.Now, none⟩,
      ⟨.GetHash { addedA with Hash := [] }, none⟩, ⟨.Insert addedA, none⟩]⟩

/-- The state the handlers run on: the authenticated operator, the users, the
repositories, the branches (repository id and name) and the objects. -/
structure CtlStore where
  operator : Option User
  users : List User
  repos : List Repository
  branches : List (UUID × String)
  objects : Store
  deriving DecidableEq, Repr

/-- The in-memory collaborators of the handlers. A work repository is the id
of its repository and the branch it has checked out; the owner alone is
authorized. -/
def ctlEnv : controller.Env CtlStore (UUID × Option String) where
  GetOperator := fun s =>
    match s.operator with
    | some u => (.ok u, s)
    | none => (.error (.Internal 401), s)
  UserGet := fun name s =>
    match s.users.find? (fun u => u.Name = name) with
    | some u => (.ok u, s)
    | none => (.error .NotFound, s)
  RepositoryGet := fun ownerID name s =>
    match s.repos.find? (fun r => r.OwnerID = ownerID && r.Name = name) with
    | some r => (.ok r, s)
    | none => (.error .NotFound, s)
  AuthorizeMember := fun _ _ ownerID s =>
    match s.operator with
    | some u => if u.ID = ownerID then (none, s) else (some .Forbidden, s)
    | none => (some .Unauthorized, s)
  NewWorkRepositoryFromConfig := fun _ repository s => (.ok (repository.ID, none), s)
  CheckOut := fun workRepo state ref s =>
    match state with
    | .InBranch =>
      if s.branches.contains (workRepo.1, ref) then (.ok (workRepo.1, some ref), s)
      else (.error .NotFound, s)
    | .InCommit => (.ok (workRepo.1, none), s)
  DeleteBranch := fun workRepo s =>
    match workRepo.2 with
    | some ref => (.ok (), { s with branches := s.branches.erase (workRepo.1, ref) })
    | none => (.error (.errorf "not in a branch"), s)
  Commit := fun _ h s =>
    match findCommit s.objects h with
    | some c => (.ok c, s)
    | none => (.error .NotFound, s)
  DiffCommit := fun _ commit toCommitID s =>
    match versionmgr.DiffCommit env commit toCommitID ⟨s.objects, []⟩ with
    | some (r, w1) => (r, { s with objects := w1.store })
    | none => (.error (.Internal 0), s)
  ActionCode := fun a =>
    match a with
    | .ADD => 1
    | .REMOVE => 2
    | .MODIFY => 3

/-- The repository `mlops` of `alice`, with HEAD `main`. -/
def repoA : Repository := ⟨10, "mlops", 1, "main"⟩

/-- The state of the handlers with a given operator: the repository `mlops`
with the branches `main` and `feat` over the objects of `store0`. -/
def ctlStore (operator : User) : CtlStore where
  operator := some operator
  users := [alice, bob]
  repos := [repoA]
  branches := [(10, "main"), (10, "feat")]
  objects := store0

/-- The commit a branch of the handlers' state points to: `feat` at `cA`,
any other at `c0`. -/
def tipOf (name : String) : hash.Hash := if name = "feat" then cA.Hash else c0.Hash

/-- The in-memory collaborators of `ListBranches` and `GetEntriesInRef`: a page
holds the first `Amount` branches of the repository, `Ls` lists the leaves
under a path. -/
def ctlTreeEnv : controller.TreeEnv CtlStore (UUID × Option String) FlatTree :=
  { ctlEnv with
    BranchList := fun params s =>
      let all := (s.branches.filter fun b => b.1 = params.RepositoryID).map fun b =>
        (⟨0, b.1, b.2, tipOf b.2, 1⟩ : Branch)
      (.ok (all.take params.Amount.toNat, decide (params.Amount.toNat < all.length)), s)
    RefGet := fun repoID name s =>
      if s.branches.contains (repoID, name) then (.ok ⟨repoID, name, tipOf name⟩, s)
      else (.error .NotFound, s)
    NewWorkTree := fun _ root s => (loadTree s.objects root, s)
    Ls := fun workTree path s =>
      (.ok ((workTree.filter fun e => strings.HasPrefix e.1 path).map fun e => ⟨e.1, e.2⟩), s) }

/-- The branch `main` of the WIP scenarios, pointing at `c0`. -/
def branchMain : Branch := ⟨20, 10, "main", c0.Hash, 1⟩

/-- The state of the WIP scenarios: the branch `main`, no WIP yet. -/
def wipStore0 : controller.WipStore where
  branches := [branchMain]
  commits := [c0]
  wips := []
  nextID := 30
  clock := 50

/-- The commit repository of repository 10, empty. -/
def commitRepo0 : CommitRepo := ⟨10, []⟩

/-- The commit `cA` as a commit of repository 10, with instants that are not
whole microseconds. -/
def cA10 : Commit :=
  { cA with
    RepositoryID := 10
    Author := { cA.Author with When := 1234567 }
    CreatedAt := 2345678 }

/-- A WIP whose creator is not a user of the store. -/
def wipOrphan : WorkingInProcess :=
  { ID := 9, CreatorID := 5, BaseCommit := c0.Hash, CurrentTree := treeHash tA, UpdatedAt := 43 }

/-- The world of `store0` with the orphan WIP added. -/
def worldOrphan : World Store := ⟨{ store0 with wips := store0.wips ++ [wipOrphan] }, []⟩

/-- The collaborators of `env`, with a `GetHash` that fails. -/
def envHashFails : Env Store FlatTree ChangesMergeIter :=
  { env with GetHash := fun _ => .error (.errorf "hash") }

/-- The collaborators of `env`, with an `Insert` that fails. -/
def envInsertFails : Env Store FlatTree ChangesMergeIter :=
  { env with Insert := fun _ s => (.error (.Internal 500), s) }

end memory

/-! ## Running a driver step by step -/

namespace versionmgr

open models

theorem bind_run {σ α β : Type} (m : Prog σ α) (f : α → Prog σ β) (w : World σ) :
    (m >>= f) w = Prog.bind m f w := rfl

theorem pure_run {σ α : Type} (a : α) (w : World σ) :
    (pure a : Prog σ α) w = some (.ok a, w) := rfl

theorem call_ok {σ α β : Type} {c : Call} {f : σ → Except Err α × σ} {g : α → Prog σ β}
    {w : World σ} {a : α} {s : σ} (h : f w.store = (.ok a, s)) :
    (call c f >>= g) w = g a ⟨s, w.log ++ [⟨c, none⟩]⟩ := by
  simp [bind_run, Prog.bind, call, h, entryOf]

theorem call_err {σ α β : Type} {c : Call} {f : σ → Except Err α × σ} {g : α → Prog σ β}
    {w : World σ} {e : Err} {s : σ} (h : f w.store = (.error e, s)) :
    (call c f >>= g) w = some (.error e, ⟨s, w.log ++ [⟨c, some e⟩]⟩) := by
  simp [bind_run, Prog.bind, call, h, entryOf]

theorem inserts_append (l1 l2 : List Entry) : inserts (l1 ++ l2) = inserts l1 ++ inserts l2 := by
  induction l1 with
  | nil => rfl
  | cons x rest ih =>
    obtain ⟨c, e⟩ := x
    cases c <;> simp [inserts, ih]

theorem mergeBases_append (l1 l2 : List Entry) :
    mergeBases (l1 ++ l2) = mergeBases l1 ++ mergeBases l2 := by
  induction l1 with
  | nil => rfl
  | cons x rest ih =>
    obtain ⟨c, e⟩ := x
    cases c <;> simp [mergeBases, ih]

theorem diffs_append (l1 l2 : List Entry) : diffs (l1 ++ l2) = diffs l1 ++ diffs l2 := by
  induction l1 with
  | nil => rfl
  | cons x rest ih =>
    obtain ⟨c, e⟩ := x
    cases c <;> simp [diffs, ih]

/-! ## Merge: the two paths that create no commit, and the missing merge base -/

/-- C1: when the commit loaded under `t` is an ancestor of the base commit `b`
(`toMerge.IsAncestor(base)` answers true), `Merge` returns exactly `b` with no
error after the load and the one ancestor test, and hands no commit to
`Insert`. -/
theorem Merge_ancestor_returns_base {σ ω ι : Type} (env : Env σ ω ι) (fuel : Nat) (b : Commit)
    (merger : User) (t : hash.Hash) (msg : String) (resolver : ConflictResolver) (w : World σ)
    (m : Commit) (s1 s2 : σ)
    (hload : env.Commit t w.store = (.ok m, s1))
    (hanc : env.IsAncestor m b s1 = (.ok true, s2)) :
    Merge env (fuel + 1) b merger t msg resolver w =
        some (.ok b, ⟨s2, w.log ++ [⟨.Commit t, none⟩, ⟨.IsAncestor m b, none⟩]⟩) ∧
      inserts (w.log ++ [⟨.Commit t, none⟩, ⟨.IsAncestor m b, none⟩]) = inserts w.log := by
  constructor
  · rw [Merge, call_ok hload, call_ok (w := ⟨s1, _⟩) hanc]
    simp [pure_run]
  · simp [inserts_append, inserts]

/-- C2: fast-forward. When the loaded commit `m` is not an ancestor of the base
`b` and `b` is an ancestor of `m`, `Merge` returns exactly `m` with no error
after the load and the two ancestor tests: no merge base is asked for, no diff
is computed and no commit is handed to `Insert`. -/
theorem Merge_fast_forward_returns_toMerge {σ ω ι : Type} (env : Env σ ω ι) (fuel : Nat)
    (b : Commit) (merger : User) (t : hash.Hash) (msg : String) (resolver : ConflictResolver)
    (w : World σ) (m : Commit) (s1 s2 s3 : σ)
    (hload : env.Commit t w.store = (.ok m, s1))
    (hanc : env.IsAncestor m b s1 = (.ok false, s2))
    (hff : env.IsAncestor b m s2 = (.ok true, s3)) :
    Merge env (fuel + 1) b merger t msg resolver w =
        some (.ok m, ⟨s3, w.log ++
          [⟨.Commit t, none⟩, ⟨.IsAncestor m b, none⟩, ⟨.IsAncestor b m, none⟩]⟩) ∧
      inserts (w.log ++
          [⟨.Commit t, none⟩, ⟨.IsAncestor m b, none⟩, ⟨.IsAncestor b m, none⟩]) =
        inserts w.log ∧
      mergeBases (w.log ++
          [⟨.Commit t, none⟩, ⟨.IsAncestor m b, none⟩, ⟨.IsAncestor b m, none⟩]) =
        mergeBases w.log ∧
      diffs (w.log ++
          [⟨.Commit t, none⟩, ⟨.IsAncestor m b, none⟩, ⟨.IsAncestor b m, none⟩]) =
        diffs w.log := by
  refine ⟨?_, ?_, ?_, ?_⟩
  · rw [Merge, call_ok hload, call_ok (w := ⟨s1, _⟩) hanc]
    simp only [Bool.false_eq_true, if_false]
    rw [call_ok (w := ⟨s2, _⟩) hff]
    simp [pure_run]
  · simp [inserts_append, inserts]
  · simp [mergeBases_append, mergeBases]
  · simp [diffs_append, diffs]

/-- C4: no common ancestor. When neither commit is an ancestor of the other and
`MergeBase` returns the empty list, `Merge` returns the error
`fmt.Errorf("no common ancesstor find")` and no commit, right after the merge
base query: no diff is computed and no commit is handed to `Insert`. -/
theorem Merge_no_common_ancestor {σ ω ι : Type} (env : Env σ ω ι) (fuel : Nat)
    (b : Commit) (merger : User) (t : hash.Hash) (msg : String) (resolver : ConflictResolver)
    (w : World σ) (m : Commit) (s1 s2 s3 s4 : σ)
    (hload : env.Commit t w.store = (.ok m, s1))
    (hanc : env.IsAncestor m b s1 = (.ok false, s2))
    (hff : env.IsAncestor b m s2 = (.ok false, s3))
    (hmb : env.MergeBase b m s3 = (.ok [], s4)) :
    Merge env (fuel + 1) b merger t msg resolver w =
        some (.error (.errorf "no common ancesstor find"), ⟨s4, w.log ++
          [⟨.Commit t, none⟩, ⟨.IsAncestor m b, none⟩, ⟨.IsAncestor b m, none⟩,
            ⟨.MergeBase b m, none⟩]⟩) ∧
      inserts (w.log ++
          [⟨.Commit t, none⟩, ⟨.IsAncestor m b, none⟩, ⟨.IsAncestor b m, none⟩,
            ⟨.MergeBase b m, none⟩]) = inserts w.log ∧
      diffs (w.log ++
          [⟨.Commit t, none⟩, ⟨.IsAncestor m b, none⟩, ⟨.IsAncestor b m, none⟩,
            ⟨.MergeBase b m, none⟩]) = diffs w.log := by
  refine ⟨?_, ?_, ?_⟩
  · rw [Merge, call_ok hload, call_ok (w := ⟨s1, _⟩) hanc]
    simp only [Bool.false_eq_true, if_false]
    rw [call_ok (w := ⟨s2, _⟩) hff]
    simp only [Bool.false_eq_true, if_false]
    rw [call_ok (w := ⟨s3, _⟩) hmb]
    simp [Prog.fail]
  · simp [inserts_append, inserts]
  · simp [diffs_append, diffs]

/-! ## What a run adds to the log -/

theorem bind_ok_iff {σ α β : Type} (m : Prog σ α) (f : α → Prog σ β) (w w1 : World σ) (b : β) :
    (m >>= f) w = some (.ok b, w1) ↔
      ∃ a w0, m w = some (.ok a, w0) ∧ f a w0 = some (.ok b, w1) := by
  rw [bind_run]
  unfold Prog.bind
  constructor
  · intro h
    split at h
    · simp at h
    · simp at h
    · next a w0 hm => exact ⟨a, w0, hm, h⟩
  · rintro ⟨a, w0, hm, hf⟩
    rw [hm]
    exact hf

theorem call_eq_ok {σ α : Type} {c : Call} {f : σ → Except Err α × σ} {w w1 : World σ} {a : α}
    (h : call c f w = some (.ok a, w1)) :
    f w.store = (.ok a, w1.store) ∧ w1.log = w.log ++ [⟨c, none⟩] := by
  unfold call at h
  simp only [Option.some.injEq, Prod.mk.injEq] at h
  obtain ⟨h1, h2⟩ := h
  subst h2
  refine ⟨Prod.ext h1 rfl, ?_⟩
  simp [h1, entryOf]

theorem callPure_ok {σ α β : Type} {c : Call} {r : Except Err α} {g : α → Prog σ β}
    {w : World σ} {a : α} (h : r = .ok a) :
    (callPure c r >>= g) w = g a ⟨w.store, w.log ++ [⟨c, none⟩]⟩ := by
  simp [bind_run, Prog.bind, callPure, h, entryOf]

theorem callPure_err {σ α β : Type} {c : Call} {r : Except Err α} {g : α → Prog σ β}
    {w : World σ} {e : Err} (h : r = .error e) :
    (callPure c r >>= g) w = some (.error e, ⟨w.store, w.log ++ [⟨c, some e⟩]⟩) := by
  simp [bind_run, Prog.bind, callPure, h, entryOf]

theorem entryOf_eq {α : Type} (c : Call) (r : Except Err α) :
    ∃ e, entryOf c r = ⟨c, e⟩ := by
  cases r with
  | error e => exact ⟨some e, rfl⟩
  | ok a => exact ⟨none, rfl⟩

theorem keeps_pure {σ α : Type} (Q : List Entry → Prop) (a : α) :
    Keeps Q (pure a : Prog σ α) := by
  intro w r w1 h hq
  rw [pure_run] at h
  simp only [Option.some.injEq, Prod.mk.injEq] at h
  rw [← h.2]
  exact hq

theorem keeps_fail {σ α : Type} (Q : List Entry → Prop) (e : Err) :
    Keeps Q (Prog.fail e : Prog σ α) := by
  intro w r w1 h hq
  simp only [Prog.fail, Option.some.injEq, Prod.mk.injEq] at h
  rw [← h.2]
  exact hq

theorem keeps_call {σ α : Type} {Q : List Entry → Prop} {c : Call}
    (f : σ → Except Err α × σ) (hc : ∀ log e, Q log → Q (log ++ [⟨c, e⟩])) :
    Keeps Q (call c f) := by
  intro w r w1 h hq
  simp only [call, Option.some.injEq, Prod.mk.injEq] at h
  obtain ⟨e, he⟩ := entryOf_eq c (f w.store).1
  rw [← h.2, he]
  exact hc _ _ hq

theorem keeps_bind {σ α β : Type} {Q : List Entry → Prop} {m : Prog σ α} {f : α → Prog σ β}
    (hm : Keeps Q m) (hf : ∀ a, Keeps Q (f a)) : Keeps Q (m >>= f) := by
  intro w r w1 h hq
  rw [bind_run] at h
  unfold Prog.bind at h
  split at h
  · simp at h
  · next e w0 hm0 =>
    simp only [Option.some.injEq, Prod.mk.injEq] at h
    rw [← h.2]
    exact hm _ _ _ hm0 hq
  · next a w0 hm0 => exact hf a _ _ _ h (hm _ _ _ hm0 hq)

theorem keeps_callPure_bind {σ α β : Type} {Q : List Entry → Prop} {c : Call}
    {r : Except Err α} {g : α → Prog σ β} (hc : ∀ log e, Q log → Q (log ++ [⟨c, e⟩]))
    (hg : ∀ a, r = .ok a → Keeps Q (g a)) : Keeps Q (callPure c r >>= g) := by
  intro w r1 w1 h hq
  cases r with
  | error e =>
    rw [callPure_err rfl] at h
    simp only [Option.some.injEq, Prod.mk.injEq] at h
    rw [← h.2]
    exact hc _ _ hq
  | ok a =>
    rw [callPure_ok rfl] at h
    exact hg a rfl _ _ _ h (hc _ _ hq)

theorem keeps_DiffCommit {σ ω ι : Type} (env : Env σ ω ι) {Q : List Entry → Prop}
    (hQ : Stable Q) (c : Commit) (t : hash.Hash) : Keeps Q (DiffCommit env c t) := by
  unfold DiffCommit
  refine keeps_bind (keeps_call _ fun log e => hQ log _ e (by simp)) fun workTree => ?_
  refine keeps_bind (keeps_call _ fun log e => hQ log _ e (by simp)) fun toCommit => ?_
  exact keeps_call _ fun log e => hQ log _ e (by simp)

theorem keeps_applyChanges {σ ω ι : Type} (env : Env σ ω ι) {Q : List Entry → Prop}
    (hQ : Stable Q) (n : Nat) : ∀ (cmw : ι) (workTree : ω),
      Keeps Q (applyChanges env n cmw workTree) := by
  induction n with
  | zero =>
    intro cmw workTree w r w1 h hq
    simp only [applyChanges] at h
    split at h
    · simp at h
    · simp only [Option.some.injEq, Prod.mk.injEq] at h
      rw [← h.2]
      exact hq
  | succ n ih =>
    intro cmw workTree
    rw [applyChanges]
    split
    · refine keeps_callPure_bind (fun log e => hQ log _ e (by simp)) fun change _ => ?_
      refine keeps_bind (keeps_call _ fun log e => hQ log _ e (by simp)) fun workTree1 => ?_
      exact ih _ _
    · exact keeps_pure Q workTree

theorem keeps_Merge {σ ω ι : Type} (env : Env σ ω ι) {Q : List Entry → Prop}
    (hQ : Stable Q)
    (hins : ∀ log p e, HashOfContent env p → Q log → Q (log ++ [⟨.Insert p, e⟩]))
    (fuel : Nat) : ∀ (b : Commit) (merger : User) (t : hash.Hash) (msg : String)
      (resolver : ConflictResolver), Keeps Q (Merge env fuel b merger t msg resolver) := by
  induction fuel with
  | zero =>
    intro b merger t msg resolver w r w1 h
    simp [Merge] at h
  | succ n ih =>
    intro b merger t msg resolver
    rw [Merge]
    refine keeps_bind (keeps_call _ fun log e => hQ log _ e (by simp)) fun toMergeCommit => ?_
    refine keeps_bind (keeps_call _ fun log e => hQ log _ e (by simp)) fun isAnc => ?_
    split
    · exact keeps_pure Q b
    refine keeps_bind (keeps_call _ fun log e => hQ log _ e (by simp)) fun isFf => ?_
    split
    · exact keeps_pure Q toMergeCommit
    refine keeps_bind (keeps_call _ fun log e => hQ log _ e (by simp)) fun bestAncestor => ?_
    cases bestAncestor with
    | nil => exact keeps_fail Q _
    | cons first rest =>
      have hsub : Keeps Q (match rest with
          | [] => (pure first : Prog σ Commit)
          | second :: _ => Merge env n first merger second.Hash "" resolver) := by
        cases rest with
        | nil => exact keeps_pure Q first
        | cons second _ => exact ih _ _ _ _ _
      refine keeps_bind hsub fun bestCommit => ?_
      refine keeps_bind (keeps_DiffCommit env hQ _ _) fun baseDiff => ?_
      refine keeps_bind (keeps_DiffCommit env hQ _ _) fun mergeDiff => ?_
      refine keeps_bind (keeps_call _ fun log e => hQ log _ e (by simp)) fun workTree => ?_
      refine keeps_bind (keeps_applyChanges env hQ _ _ _) fun workTree1 => ?_
      refine keeps_bind (keeps_call _ fun log e => hQ log _ e (by simp)) fun authorWhen => ?_
      refine keeps_bind (keeps_call _ fun log e => hQ log _ e (by simp)) fun createdAt => ?_
      refine keeps_bind (keeps_call _ fun log e => hQ log _ e (by simp)) fun updatedAt => ?_
      refine keeps_callPure_bind (fun log e => hQ log _ e (by simp)) fun h hh => ?_
      exact keeps_call _ fun log e => hins log _ e hh

/-! ## Merge: the commit of the three-way path -/

/-- C3: whenever `Merge` takes the three-way path (neither commit is an
ancestor of the other) and succeeds, the last call it made is the `Insert` of
a commit whose parent hashes are the two-element list of the hash of the base
commit held by the receiver and the `toMergeCommitHash` argument, in that
order, whose author and committer are both the merger (name and email, one
signature) and whose message is the `msg` argument; nothing is assumed on the
merge bases or on the resolver. -/
theorem Merge_three_way_commit_fields {σ ω ι : Type} (env : Env σ ω ι) (fuel : Nat)
    (b : Commit) (merger : User) (t : hash.Hash) (msg : String) (resolver : ConflictResolver)
    (w : World σ) (m : Commit) (s1 s2 s3 : σ)
    (hload : env.Commit t w.store = (.ok m, s1))
    (hanc : env.IsAncestor m b s1 = (.ok false, s2))
    (hff : env.IsAncestor b m s2 = (.ok false, s3))
    (c : Commit) (w1 : World σ)
    (hok : Merge env fuel b merger t msg resolver w = some (.ok c, w1)) :
    ∃ log p, w1.log = log ++ [⟨.Insert p, none⟩] ∧
      p.ParentHashes = [b.Hash, t] ∧
      p.Author.Name = merger.Name ∧ p.Author.Email = merger.Email ∧
      p.Committer = p.Author ∧ p.Message = msg := by
  cases fuel with
  | zero => simp [Merge] at hok
  | succ n =>
    rw [Merge, call_ok hload, call_ok (w := ⟨s1, _⟩) hanc] at hok
    simp only [Bool.false_eq_true, if_false] at hok
    rw [call_ok (w := ⟨s2, _⟩) hff] at hok
    simp only [Bool.false_eq_true, if_false] at hok
    rw [bind_ok_iff] at hok
    obtain ⟨bestAncestor, w4, -, hok⟩ := hok
    cases bestAncestor with
    | nil => simp [Prog.fail] at hok
    | cons first rest =>
      simp only [bind_ok_iff] at hok
      obtain ⟨bestCommit, w5, -, baseDiff, w6, -, mergeDiff, w7, -, workTree, w8, -,
        workTree1, w9, -, authorWhen, w10, -, createdAt, w11, -, updatedAt, w12, -,
        h, w13, -, hins⟩ := hok
      obtain ⟨-, hlog⟩ := call_eq_ok hins
      exact ⟨w13.log, _, hlog, rfl, rfl, rfl, rfl, rfl⟩

/-! ## Merge: the apply loop stops at the first error -/

theorem bind_of_ok {σ α β : Type} {m : Prog σ α} {f : α → Prog σ β} {w w0 : World σ} {a : α}
    (h : m w = some (.ok a, w0)) : (m >>= f) w = f a w0 := by
  simp [bind_run, Prog.bind, h]

theorem bind_of_err {σ α β : Type} {m : Prog σ α} {f : α → Prog σ β} {w w0 : World σ}
    {e : Err} (h : m w = some (.error e, w0)) : (m >>= f) w = some (.error e, w0) := by
  simp [bind_run, Prog.bind, h]

theorem stable_inserts (l : List Commit) : Stable (fun log => inserts log = l) := by
  intro log c e hc hq
  rw [inserts_append, hq]
  cases c <;> simp [inserts] at hc ⊢

theorem applyChanges_error {σ ω ι : Type} (env : Env σ ω ι) (n : Nat) :
    ∀ (cmw : ι) (workTree : ω) (w w1 : World σ) (e : Err),
      applyChanges env n cmw workTree w = some (.error e, w1) →
      ∃ done last, w1.log = w.log ++ done ++ [last] ∧ (∀ x ∈ done, x.err = none) ∧
        last.err = some e ∧ (last.call = .Next ∨ ∃ ch, last.call = .ApplyOneChange ch) := by
  induction n with
  | zero =>
    intro cmw workTree w w1 e h
    simp only [applyChanges] at h
    split at h <;> simp at h
  | succ n ih =>
    intro cmw workTree w w1 e h
    rw [applyChanges] at h
    split at h
    · cases hnext : (env.Next cmw).1 with
      | error e1 =>
        rw [callPure_err hnext] at h
        simp only [Option.some.injEq, Prod.mk.injEq, Except.error.injEq] at h
        obtain ⟨he, hw⟩ := h
        subst he hw
        exact ⟨[], ⟨.Next, some e1⟩, by simp, by simp, rfl, Or.inl rfl⟩
      | ok change =>
        rw [callPure_ok hnext] at h
        cases happly : env.ApplyOneChange workTree change w.store with
        | mk r s =>
          cases r with
          | error e1 =>
            rw [call_err (w := ⟨w.store, w.log ++ [Entry.mk .Next none]⟩) happly] at h
            simp only [Option.some.injEq, Prod.mk.injEq, Except.error.injEq] at h
            obtain ⟨he, hw⟩ := h
            subst he hw
            exact ⟨[⟨.Next, none⟩], ⟨.ApplyOneChange change, some e1⟩, by simp, by simp, rfl,
              Or.inr ⟨change, rfl⟩⟩
          | ok workTree1 =>
            rw [call_ok (w := ⟨w.store, w.log ++ [Entry.mk .Next none]⟩) happly] at h
            obtain ⟨done, last, hlog, hdone, hlast, hcall⟩ := ih _ _ _ _ _ h
            refine ⟨⟨.Next, none⟩ :: ⟨.ApplyOneChange change, none⟩ :: done, last, ?_, ?_,
              hlast, hcall⟩
            · rw [hlog]
              simp
            · intro x hx
              simp only [List.mem_cons] at hx
              rcases hx with rfl | rfl | hx
              · rfl
              · rfl
              · exact hdone x hx
    · simp [pure_run] at h

theorem applyChanges_next_error {σ ω ι : Type} (env : Env σ ω ι) (n : Nat) (cmw : ι)
    (workTree : ω) (w : World σ) (e : Err) (hhas : env.Has cmw = true)
    (hnext : (env.Next cmw).1 = .error e) :
    applyChanges env (n + 1) cmw workTree w =
      some (.error e, ⟨w.store, w.log ++ [⟨.Next, some e⟩]⟩) := by
  rw [applyChanges, if_pos hhas, callPure_err hnext]

theorem applyChanges_apply_error {σ ω ι : Type} (env : Env σ ω ι) (n : Nat) (cmw : ι)
    (workTree : ω) (w : World σ) (change : Change) (e : Err) (s : σ)
    (hhas : env.Has cmw = true) (hnext : (env.Next cmw).1 = .ok change)
    (happly : env.ApplyOneChange workTree change w.store = (.error e, s)) :
    applyChanges env (n + 1) cmw workTree w =
      some (.error e, ⟨s, w.log ++ [⟨.Next, none⟩, ⟨.ApplyOneChange change, some e⟩]⟩) := by
  rw [applyChanges, if_pos hhas, callPure_ok hnext,
    call_err (w := ⟨w.store, w.log ++ [Entry.mk .Next none]⟩) happly]
  simp

theorem Merge_of_loop_error {σ ω ι : Type} (env : Env σ ω ι) (fuel : Nat)
    (b : Commit) (merger : User) (t : hash.Hash) (msg : String) (resolver : ConflictResolver)
    (w : World σ) (m bc : Commit) (s1 s2 s3 s4 s7 : σ) (baseDiff mergeDiff : Changes)
    (w5 w6 w8 : World σ) (workTree : ω) (e : Err)
    (hload : env.Commit t w.store = (.ok m, s1))
    (hanc : env.IsAncestor m b s1 = (.ok false, s2))
    (hff : env.IsAncestor b m s2 = (.ok false, s3))
    (hmb : env.MergeBase b m s3 = (.ok [bc], s4))
    (hbd : DiffCommit env bc b.Hash ⟨s4, w.log ++ [⟨.Commit t, none⟩, ⟨.IsAncestor m b, none⟩,
        ⟨.IsAncestor b m, none⟩, ⟨.MergeBase b m, none⟩]⟩ = some (.ok baseDiff, w5))
    (hmd : DiffCommit env bc m.Hash w5 = some (.ok mergeDiff, w6))
    (hwt : env.NewWorkTree bc.TreeHash w6.store = (.ok workTree, s7))
    (hloop : applyChanges env (fuel + 1) (env.NewChangesMergeIter baseDiff mergeDiff resolver)
        workTree ⟨s7, w6.log ++ [⟨.NewWorkTree bc.TreeHash, none⟩]⟩ = some (.error e, w8)) :
    Merge env (fuel + 1) b merger t msg resolver w = some (.error e, w8) ∧
      inserts w8.log = inserts w.log := by
  refine ⟨?_, ?_⟩
  · rw [Merge, call_ok hload, call_ok (w := ⟨s1, _⟩) hanc]
    simp only [Bool.false_eq_true, if_false]
    rw [call_ok (w := ⟨s2, _⟩) hff]
    simp only [Bool.false_eq_true, if_false]
    rw [call_ok (w := ⟨s3, _⟩) hmb]
    simp only [List.append_assoc, List.cons_append, List.nil_append] at hbd ⊢
    rw [bind_of_ok (pure_run bc _), bind_of_ok hbd, bind_of_ok hmd, call_ok hwt,
      bind_of_err hloop]
  · have hQ := stable_inserts (inserts w.log)
    have h5 := keeps_DiffCommit env hQ _ _ _ _ _ hbd (by simp [inserts_append, inserts])
    have h6 := keeps_DiffCommit env hQ _ _ _ _ _ hmd h5
    exact keeps_applyChanges env hQ _ _ _ _ _ _ hloop (by simp [inserts_append, inserts, h6])

/-- C6: a conflict aborts the merge. An iteration of the apply loop whose
`Next` returns an error ends the loop with that error, without calling
`ApplyOneChange`; one whose `ApplyOneChange` fails ends it with that error
(first two parts). On the three-way path with a single merge base `bc`, once
both diffs and the work tree are there, if the apply loop fails with `e`, then
`Merge` returns the error `e` and no commit, in the world the loop left; the
log of that world ends with the call that failed (a `Next` or an
`ApplyOneChange`) with error `e`, every loop call before it succeeded, so the
loop stopped at its first error, and no commit was handed to `Insert`. -/
theorem Merge_loop_error_aborts {σ ω ι : Type} (env : Env σ ω ι) (fuel : Nat)
    (b : Commit) (merger : User) (t : hash.Hash) (msg : String) (resolver : ConflictResolver)
    (w : World σ) (m bc : Commit) (s1 s2 s3 s4 s7 : σ) (baseDiff mergeDiff : Changes)
    (w5 w6 w8 : World σ) (workTree : ω) (e : Err)
    (hload : env.Commit t w.store = (.ok m, s1))
    (hanc : env.IsAncestor m b s1 = (.ok false, s2))
    (hff : env.IsAncestor b m s2 = (.ok false, s3))
    (hmb : env.MergeBase b m s3 = (.ok [bc], s4))
    (hbd : DiffCommit env bc b.Hash ⟨s4, w.log ++ [⟨.Commit t, none⟩, ⟨.IsAncestor m b, none⟩,
        ⟨.IsAncestor b m, none⟩, ⟨.MergeBase b m, none⟩]⟩ = some (.ok baseDiff, w5))
    (hmd : DiffCommit env bc m.Hash w5 = some (.ok mergeDiff, w6))
    (hwt : env.NewWorkTree bc.TreeHash w6.store = (.ok workTree, s7))
    (hloop : applyChanges env (fuel + 1) (env.NewChangesMergeIter baseDiff mergeDiff resolver)
        workTree ⟨s7, w6.log ++ [⟨.NewWorkTree bc.TreeHash, none⟩]⟩ = some (.error e, w8)) :
    (∀ (n : Nat) (cmw : ι) (wt : ω) (w0 : World σ) (e0 : Err), env.Has cmw = true →
        (env.Next cmw).1 = .error e0 →
        applyChanges env (n + 1) cmw wt w0 =
          some (.error e0, ⟨w0.store, w0.log ++ [⟨.Next, some e0⟩]⟩)) ∧
      (∀ (n : Nat) (cmw : ι) (wt : ω) (w0 : World σ) (change : Change) (e0 : Err) (s : σ),
        env.Has cmw = true → (env.Next cmw).1 = .ok change →
        env.ApplyOneChange wt change w0.store = (.error e0, s) →
        applyChanges env (n + 1) cmw wt w0 =
          some (.error e0, ⟨s, w0.log ++ [⟨.Next, none⟩, ⟨.ApplyOneChange change, some e0⟩]⟩)) ∧
      Merge env (fuel + 1) b merger t msg resolver w = some (.error e, w8) ∧
      inserts w8.log = inserts w.log ∧
      ∃ done last, w8.log = w6.log ++ [⟨.NewWorkTree bc.TreeHash, none⟩] ++ done ++ [last] ∧
        (∀ x ∈ done, x.err = none) ∧ last.err = some e ∧
        (last.call = .Next ∨ ∃ ch, last.call = .ApplyOneChange ch) :=
  ⟨fun n cmw wt w0 e0 => applyChanges_next_error env n cmw wt w0 e0,
    fun n cmw wt w0 change e0 s => applyChanges_apply_error env n cmw wt w0 change e0 s,
    (Merge_of_loop_error env fuel b merger t msg resolver w m bc s1 s2 s3 s4 s7 baseDiff
      mergeDiff w5 w6 w8 workTree e hload hanc hff hmb hbd hmd hwt hloop).1,
    (Merge_of_loop_error env fuel b merger t msg resolver w m bc s1 s2 s3 s4 s7 baseDiff
      mergeDiff w5 w6 w8 workTree e hload hanc hff hmb hbd hmd hwt hloop).2,
    applyChanges_error env _ _ _ _ _ _ hloop⟩

/-! ## AddCommit -/

theorem call_then_pure {σ α β : Type} (c : Call) (f : σ → Except Err α × σ) (x : β)
    (w : World σ) :
    (call c f >>= fun _ => (pure x : Prog σ β)) w =
      some ((f w.store).1.map (fun _ => x),
        ⟨(f w.store).2, w.log ++ [entryOf c (f w.store).1]⟩) := by
  cases h : f w.store with
  | mk r s =>
    cases r with
    | error e => rw [call_err h]; rfl
    | ok a => rw [call_ok h]; rfl

theorem inserts_entryOf_Insert {α : Type} (p : Commit) (r : Except Err α) :
    inserts [entryOf (.Insert p) r] = [p] := by
  cases r <;> rfl

theorem AddCommit_run {σ ω ι : Type} (env : Env σ ω ι) (commitOp : CommitOp) (committer : User)
    (wipID : UUID) (msg : String) (w : World σ) (wip : WorkingInProcess) (creator : User)
    (s1 s2 s3 s4 s5 : σ) (t1 t2 t3 : Time) (h : hash.Hash)
    (hwip : env.WipGet wipID w.store = (.ok wip, s1))
    (huser : env.UserGet wip.CreatorID s1 = (.ok creator, s2))
    (hn1 : env.Now s2 = (t1, s3)) (hn2 : env.Now s3 = (t2, s4)) (hn3 : env.Now s4 = (t3, s5))
    (hhash : env.GetHash (addedCommit commitOp committer creator wip msg t1 t2 t3 []) = .ok h) :
    AddCommit env commitOp committer wipID msg w =
      some ((env.Insert (addedCommit commitOp committer creator wip msg t1 t2 t3 h) s5).1.map
          (fun _ => ⟨some (addedCommit commitOp committer creator wip msg t1 t2 t3 h)⟩),
        ⟨(env.Insert (addedCommit commitOp committer creator wip msg t1 t2 t3 h) s5).2,
          w.log ++ [⟨.WipGet wipID, none⟩, ⟨.UserGet wip.CreatorID, none⟩, ⟨.Now, none⟩,
            ⟨.Now, none⟩, ⟨.Now, none⟩,
            ⟨.GetHash (addedCommit commitOp committer creator wip msg t1 t2 t3 []), none⟩,
            entryOf (.Insert (addedCommit commitOp committer creator wip msg t1 t2 t3 h))
              (env.Insert (addedCommit commitOp committer creator wip msg t1 t2 t3 h) s5).1]⟩) := by
  rw [AddCommit, call_ok hwip, call_ok (w := ⟨s1, _⟩) huser]
  rw [call_ok (w := ⟨s2, _⟩) (a := t1) (s := s3) (by simp [hn1])]
  rw [call_ok (w := ⟨s3, _⟩) (a := t2) (s := s4) (by simp [hn2])]
  rw [call_ok (w := ⟨s4, _⟩) (a := t3) (s := s5) (by simp [hn3])]
  simp only [addedCommit] at hhash ⊢
  rw [callPure_ok (a := h) hhash, call_then_pure]
  simp

theorem AddCommit_persists {σ ω ι : Type} (env : Env σ ω ι) (commitOp : CommitOp)
    (committer : User) (wipID : UUID) (msg : String) (w : World σ) (wip : WorkingInProcess)
    (creator : User) (s1 s2 : σ)
    (hwip : env.WipGet wipID w.store = (.ok wip, s1))
    (huser : env.UserGet wip.CreatorID s1 = (.ok creator, s2))
    (hhash : ∀ c, ∃ h, env.GetHash c = .ok h) :
    ∃ t2 t3 h r w1, AddCommit env commitOp committer wipID msg w = some (r, w1) ∧
      inserts w1.log = inserts w.log ++
        [addedCommit commitOp committer creator wip msg (env.Now s2).1 t2 t3 h] ∧
      ∀ op1, r = .ok op1 → op1.commit =
        some (addedCommit commitOp committer creator wip msg (env.Now s2).1 t2 t3 h) := by
  obtain ⟨h, hh⟩ := hhash (addedCommit commitOp committer creator wip msg (env.Now s2).1
    (env.Now (env.Now s2).2).1 (env.Now (env.Now (env.Now s2).2).2).1 [])
  refine ⟨(env.Now (env.Now s2).2).1, (env.Now (env.Now (env.Now s2).2).2).1, h, _, _,
    AddCommit_run env commitOp committer wipID msg w wip creator s1 s2 _ _ _ _ _ _ h hwip huser
      rfl rfl rfl hh, ?_, ?_⟩
  · simp only [inserts_append]
    rw [show ∀ (a b c d e f g : Entry), [a, b, c, d, e, f, g] = [a, b, c, d, e, f] ++ [g] from
      fun _ _ _ _ _ _ _ => rfl, inserts_append, inserts_entryOf_Insert]
    simp [inserts]
  · intro op1 hop
    cases hins : (env.Insert (addedCommit commitOp committer creator wip msg (env.Now s2).1
      (env.Now (env.Now s2).2).1 (env.Now (env.Now (env.Now s2).2).2).1 h)
      (env.Now (env.Now (env.Now s2).2).2).2).1 with
    | error e => simp [hins, Except.map] at hop
    | ok c =>
      simp only [hins, Except.map, Except.ok.injEq] at hop
      rw [← hop]

/-- C8: for a WIP `wip` stored under `wipID` whose creator is loadable, and any
message, `AddCommit` hands exactly one commit to `Insert`; its tree hash is
`wip.CurrentTree`, its message is `msg`, and its parent hashes are the
one-element list of the hash of the head commit when the receiver holds one
and the empty list when the receiver was built with a nil commit. When
`Insert` succeeds, the returned `CommitOp` holds that commit. (`GetHash` is
taken to succeed.) -/
theorem AddCommit_tree_message_parents {σ ω ι : Type} (env : Env σ ω ι) (commitOp : CommitOp)
    (committer : User) (wipID : UUID) (msg : String) (w : World σ) (wip : WorkingInProcess)
    (creator : User) (s1 s2 : σ)
    (hwip : env.WipGet wipID w.store = (.ok wip, s1))
    (huser : env.UserGet wip.CreatorID s1 = (.ok creator, s2))
    (hhash : ∀ c, ∃ h, env.GetHash c = .ok h) :
    ∃ p r w1, AddCommit env commitOp committer wipID msg w = some (r, w1) ∧
      inserts w1.log = inserts w.log ++ [p] ∧
      (∀ op1, r = .ok op1 → op1.commit = some p) ∧
      p.TreeHash = wip.CurrentTree ∧ p.Message = msg ∧
      (∀ head, commitOp.commit = some head → p.ParentHashes = [head.Hash]) ∧
      (commitOp.commit = none → p.ParentHashes = []) := by
  obtain ⟨t2, t3, h, r, w1, hrun, hins, hret⟩ :=
    AddCommit_persists env commitOp committer wipID msg w wip creator s1 s2 hwip huser hhash
  refine ⟨_, r, w1, hrun, hins, hret, rfl, rfl, ?_, ?_⟩
  · intro head hhead
    simp [addedCommit, hhead]
  · intro hnil
    simp [addedCommit, hnil]

/-- C9: for a WIP `wip` whose creator is `creator` and any submitting user
`committer`, the one commit `AddCommit` hands to `Insert` has the author
signature (`creator.Name`, `creator.Email`) with `When = wip.UpdatedAt`, not a
clock reading, and the committer signature (`committer.Name`,
`committer.Email`) with `When` the first clock reading; the author does not
depend on the submitter. (`GetHash` is taken to succeed.) -/
theorem AddCommit_signatures {σ ω ι : Type} (env : Env σ ω ι) (commitOp : CommitOp)
    (committer : User) (wipID : UUID) (msg : String) (w : World σ) (wip : WorkingInProcess)
    (creator : User) (s1 s2 : σ)
    (hwip : env.WipGet wipID w.store = (.ok wip, s1))
    (huser : env.UserGet wip.CreatorID s1 = (.ok creator, s2))
    (hhash : ∀ c, ∃ h, env.GetHash c = .ok h) :
    ∃ p r w1, AddCommit env commitOp committer wipID msg w = some (r, w1) ∧
      inserts w1.log = inserts w.log ++ [p] ∧
      p.Author = ⟨creator.Name, creator.Email, wip.UpdatedAt⟩ ∧
      p.Committer = ⟨committer.Name, committer.Email, (env.Now s2).1⟩ := by
  obtain ⟨t2, t3, h, r, w1, hrun, hins, -⟩ :=
    AddCommit_persists env commitOp committer wipID msg w wip creator s1 s2 hwip huser hhash
  exact ⟨_, r, w1, hrun, hins, rfl, rfl⟩

theorem keeps_AddCommit {σ ω ι : Type} (env : Env σ ω ι) {Q : List Entry → Prop}
    (hQ : Stable Q)
    (hins : ∀ log p e, HashOfContent env p → Q log → Q (log ++ [⟨.Insert p, e⟩]))
    (commitOp : CommitOp) (committer : User) (wipID : UUID) (msg : String) :
    Keeps Q (AddCommit env commitOp committer wipID msg) := by
  unfold AddCommit
  refine keeps_bind (keeps_call _ fun log e => hQ log _ e (by simp)) fun wip => ?_
  refine keeps_bind (keeps_call _ fun log e => hQ log _ e (by simp)) fun creator => ?_
  refine keeps_bind (keeps_call _ fun log e => hQ log _ e (by simp)) fun t1 => ?_
  refine keeps_bind (keeps_call _ fun log e => hQ log _ e (by simp)) fun t2 => ?_
  refine keeps_bind (keeps_call _ fun log e => hQ log _ e (by simp)) fun t3 => ?_
  refine keeps_callPure_bind (fun log e => hQ log _ e (by simp)) fun h hh => ?_
  refine keeps_bind (keeps_call _ fun log e => hins log _ e hh) fun _ => ?_
  exact keeps_pure Q _

theorem stable_hashOfContent {σ ω ι : Type} (env : Env σ ω ι) (l : List Commit) :
    Stable (fun log => ∀ p ∈ inserts log, p ∈ l ∨ HashOfContent env p) := by
  intro log c e hc hq p hp
  rw [inserts_append] at hp
  have : inserts [⟨c, e⟩] = [] := by
    cases c <;> simp [inserts] at hc ⊢
  rw [this, List.append_nil] at hp
  exact hq p hp

theorem insert_hashOfContent {σ ω ι : Type} (env : Env σ ω ι) (l : List Commit)
    (log : List Entry) (p : Commit) (e : Option Err) (hp : HashOfContent env p)
    (hq : ∀ q ∈ inserts log, q ∈ l ∨ HashOfContent env q) :
    ∀ q ∈ inserts (log ++ [⟨.Insert p, e⟩]), q ∈ l ∨ HashOfContent env q := by
  intro q hq1
  rw [inserts_append] at hq1
  simp only [inserts, List.mem_append, List.mem_singleton] at hq1
  rcases hq1 with hq1 | rfl
  · exact hq q hq1
  · exact Or.inr hp

/-- C10: commit identity. Every commit that a run of `AddCommit`, or a run of
`Merge` (its three-way path is the only one that persists), hands to `Insert`
carries in its `Hash` field the value `GetHash` returned on that same commit
while its `Hash` field was empty: the stored hash is computed from the other
fields, never from an earlier hash value. -/
theorem persisted_hash_is_GetHash_of_content {σ ω ι : Type} (env : Env σ ω ι) :
    (∀ (commitOp : CommitOp) (committer : User) (wipID : UUID) (msg : String) (w w1 : World σ)
        (r : Except Err CommitOp),
        AddCommit env commitOp committer wipID msg w = some (r, w1) →
        ∀ p ∈ inserts w1.log, p ∈ inserts w.log ∨ env.GetHash { p with Hash := [] } = .ok p.Hash) ∧
      (∀ (fuel : Nat) (b : Commit) (merger : User) (t : hash.Hash) (msg : String)
        (resolver : ConflictResolver) (w w1 : World σ) (r : Except Err Commit),
        Merge env fuel b merger t msg resolver w = some (r, w1) →
        ∀ p ∈ inserts w1.log, p ∈ inserts w.log ∨ env.GetHash { p with Hash := [] } = .ok p.Hash) := by
  constructor
  · intro commitOp committer wipID msg w w1 r hrun
    exact keeps_AddCommit env (stable_hashOfContent env (inserts w.log))
      (insert_hashOfContent env (inserts w.log)) commitOp committer wipID msg w r w1 hrun
      (fun p hp => Or.inl hp)
  · intro fuel b merger t msg resolver w w1 r hrun
    exact keeps_Merge env (stable_hashOfContent env (inserts w.log))
      (insert_hashOfContent env (inserts w.log)) fuel b merger t msg resolver w r w1 hrun
      (fun p hp => Or.inl hp)

end versionmgr

/-! ## The changes merge iterator of the spec: an unresolved conflict -/

namespace memory

open models versionmgr

end memory

/-! ## The drivers on the in-memory histories -/

namespace memory

open models versionmgr

/-- Witness of C1: merging the root commit `c0` into its child `cA` returns
`cA` and inserts nothing. -/
theorem Merge_ancestor_returns_base_witness :
    (env.Commit c0.Hash world0.store = (.ok c0, store0) ∧
      env.IsAncestor c0 cA store0 = (.ok true, store0)) ∧
    (Merge env 1 cA bob c0.Hash "m" declineAll world0 =
        some (.ok cA, ⟨store0, world0.log ++
          [⟨.Commit c0.Hash, none⟩, ⟨.IsAncestor c0 cA, none⟩]⟩) ∧
      inserts (world0.log ++ [⟨.Commit c0.Hash, none⟩, ⟨.IsAncestor c0 cA, none⟩]) =
        inserts world0.log) :=
  ⟨⟨by decide!, by decide!⟩,
    Merge_ancestor_returns_base env 0 cA bob c0.Hash "m" declineAll world0 c0 store0 store0
      (by decide!) (by decide!)⟩

/-- Witness of C2: merging the child `cA` into the root commit `c0` is a
fast-forward to `cA`. -/
theorem Merge_fast_forward_returns_toMerge_witness :
    (env.Commit cA.Hash world0.store = (.ok cA, store0) ∧
      env.IsAncestor cA c0 store0 = (.ok false, store0) ∧
      env.IsAncestor c0 cA store0 = (.ok true, store0)) ∧
    (Merge env 1 c0 bob cA.Hash "m" declineAll world0 =
        some (.ok cA, ⟨store0, world0.log ++
          [⟨.Commit cA.Hash, none⟩, ⟨.IsAncestor cA c0, none⟩, ⟨.IsAncestor c0 cA, none⟩]⟩) ∧
      inserts (world0.log ++
          [⟨.Commit cA.Hash, none⟩, ⟨.IsAncestor cA c0, none⟩, ⟨.IsAncestor c0 cA, none⟩]) =
        inserts world0.log ∧
      mergeBases (world0.log ++
          [⟨.Commit cA.Hash, none⟩, ⟨.IsAncestor cA c0, none⟩, ⟨.IsAncestor c0 cA, none⟩]) =
        mergeBases world0.log ∧
      diffs (world0.log ++
          [⟨.Commit cA.Hash, none⟩, ⟨.IsAncestor cA c0, none⟩, ⟨.IsAncestor c0 cA, none⟩]) =
        diffs world0.log) :=
  ⟨⟨by decide!, by decide!, by decide!⟩,
    Merge_fast_forward_returns_toMerge env 0 c0 bob cA.Hash "m" declineAll world0 cA
      store0 store0 store0 (by decide!) (by decide!) (by decide!)⟩

/-- Witness of C4: merging the unrelated root `cR` into `cA` finds no merge
base. -/
theorem Merge_no_common_ancestor_witness :
    (env.Commit cR.Hash world0.store = (.ok cR, store0) ∧
      env.IsAncestor cR cA store0 = (.ok false, store0) ∧
      env.IsAncestor cA cR store0 = (.ok false, store0) ∧
      env.MergeBase cA cR store0 = (.ok [], store0)) ∧
    (Merge env 1 cA bob cR.Hash "m" declineAll world0 =
        some (.error (.errorf "no common ancesstor find"), ⟨store0, world0.log ++
          [⟨.Commit cR.Hash, none⟩, ⟨.IsAncestor cR cA, none⟩, ⟨.IsAncestor cA cR, none⟩,
            ⟨.MergeBase cA cR, none⟩]⟩) ∧
      inserts (world0.log ++
          [⟨.Commit cR.Hash, none⟩, ⟨.IsAncestor cR cA, none⟩, ⟨.IsAncestor cA cR, none⟩,
            ⟨.MergeBase cA cR, none⟩]) = inserts world0.log ∧
      diffs (world0.log ++
          [⟨.Commit cR.Hash, none⟩, ⟨.IsAncestor cR cA, none⟩, ⟨.IsAncestor cA cR, none⟩,
            ⟨.MergeBase cA cR, none⟩]) = diffs world0.log) :=
  ⟨⟨by decide!, by decide!, by decide!, by decide!⟩,
    Merge_no_common_ancestor env 0 cA bob cR.Hash "m" declineAll world0 cR
      store0 store0 store0 store0 (by decide!) (by decide!) (by decide!) (by decide!)⟩

/-- Witness of C3: the clean three-way merge of `cB` into `cA` succeeds and
its last call inserts a commit with parents `cA`, `cB`, signed by `bob`. -/
theorem Merge_three_way_commit_fields_witness :
    (env.Commit cB.Hash world0.store = (.ok cB, store0) ∧
      env.IsAncestor cB cA store0 = (.ok false, store0) ∧
      env.IsAncestor cA cB store0 = (.ok false, store0) ∧
      Merge env 3 cA bob cB.Hash "m" declineAll world0 = some (.ok mergedAB, worldAB)) ∧
    ∃ log p, worldAB.log = log ++ [⟨.Insert p, none⟩] ∧
      p.ParentHashes = [cA.Hash, cB.Hash] ∧
      p.Author.Name = bob.Name ∧ p.Author.Email = bob.Email ∧
      p.Committer = p.Author ∧ p.Message = "m" :=
  ⟨⟨by decide!, by decide!, by decide!, by decide!⟩,
    Merge_three_way_commit_fields env 3 cA bob cB.Hash "m" declineAll world0 cB
      store0 store0 store0 (by decide!) (by decide!) (by decide!) mergedAB worldAB
      (by decide!)⟩

/-- Witness of C6: merging `cQ` into `cP` with a resolver that declines
everything applies `a.txt`, fails on `docs/readme.md` with the error of the
iterator and inserts nothing. -/
theorem Merge_loop_error_aborts_witness :
    (env.Commit cQ.Hash world0.store = (.ok cQ, store0) ∧
      env.IsAncestor cQ cP store0 = (.ok false, store0) ∧
      env.IsAncestor cP cQ store0 = (.ok false, store0) ∧
      env.MergeBase cP cQ store0 = (.ok [c0], store0) ∧
      DiffCommit env c0 cP.Hash ⟨store0, world0.log ++ [⟨.Commit cQ.Hash, none⟩,
        ⟨.IsAncestor cQ cP, none⟩, ⟨.IsAncestor cP cQ, none⟩, ⟨.MergeBase cP cQ, none⟩]⟩ =
        some (.ok (diffTrees tRoot tP), worldPQ5) ∧
      DiffCommit env c0 cQ.Hash worldPQ5 = some (.ok (diffTrees tRoot tQ), worldPQ6) ∧
      env.NewWorkTree c0.TreeHash worldPQ6.store = (.ok tRoot, store0) ∧
      applyChanges env (2 + 1)
        (env.NewChangesMergeIter (diffTrees tRoot tP) (diffTrees tRoot tQ) declineAll) tRoot
        ⟨store0, worldPQ6.log ++ [⟨.NewWorkTree c0.TreeHash, none⟩]⟩ =
        some (.error (.UnresolvedConflict ["docs/readme.md", "src/c.txt"]), worldPQ8)) ∧
    ((∀ (n : Nat) (cmw : ChangesMergeIter) (wt : FlatTree) (w0 : World Store) (e0 : Err),
        env.Has cmw = true → (env.Next cmw).1 = .error e0 →
        applyChanges env (n + 1) cmw wt w0 =
          some (.error e0, ⟨w0.store, w0.log ++ [⟨.Next, some e0⟩]⟩)) ∧
      (∀ (n : Nat) (cmw : ChangesMergeIter) (wt : FlatTree) (w0 : World Store)
        (change : Change) (e0 : Err) (s : Store),
        env.Has cmw = true → (env.Next cmw).1 = .ok change →
        env.ApplyOneChange wt change w0.store = (.error e0, s) →
        applyChanges env (n + 1) cmw wt w0 =
          some (.error e0, ⟨s, w0.log ++ [⟨.Next, none⟩, ⟨.ApplyOneChange change, some e0⟩]⟩)) ∧
      Merge env (2 + 1) cP bob cQ.Hash "m" declineAll world0 =
        some (.error (.UnresolvedConflict ["docs/readme.md", "src/c.txt"]), worldPQ8) ∧
      inserts worldPQ8.log = inserts world0.log ∧
      ∃ done last,
        worldPQ8.log = worldPQ6.log ++ [⟨.NewWorkTree c0.TreeHash, none⟩] ++ done ++ [last] ∧
        (∀ x ∈ done, x.err = none) ∧
        last.err = some (.UnresolvedConflict ["docs/readme.md", "src/c.txt"]) ∧
        (last.call = .Next ∨ ∃ ch, last.call = .ApplyOneChange ch)) :=
  ⟨⟨by decide!, by decide!, by decide!, by decide!, by decide!, by decide!, by decide!,
      by decide!⟩,
    Merge_loop_error_aborts env 2 cP bob cQ.Hash "m" declineAll world0 cQ c0
      store0 store0 store0 store0 store0 (diffTrees tRoot tP) (diffTrees tRoot tQ)
      worldPQ5 worldPQ6 worldPQ8 tRoot (.UnresolvedConflict ["docs/readme.md", "src/c.txt"])
      (by decide!) (by decide!) (by decide!) (by decide!) (by decide!) (by decide!)
      (by decide!) (by decide!)⟩

/-- Witness of C8: `AddCommit` on head `c0` from the WIP 7 inserts one commit
with the tree of the WIP, the message and the parent `c0`. -/
theorem AddCommit_tree_message_parents_witness :
    (env.WipGet 7 world0.store = (.ok wipA, store0) ∧
      env.UserGet wipA.CreatorID store0 = (.ok alice, store0) ∧
      ∀ c, ∃ h, env.GetHash c = .ok h) ∧
    ∃ p r w1, AddCommit env ⟨some c0⟩ bob 7 "second" world0 = some (r, w1) ∧
      inserts w1.log = inserts world0.log ++ [p] ∧
      (∀ op1, r = .ok op1 → op1.commit = some p) ∧
      p.TreeHash = wipA.CurrentTree ∧ p.Message = "second" ∧
      (∀ head, (⟨some c0⟩ : CommitOp).commit = some head → p.ParentHashes = [head.Hash]) ∧
      ((⟨some c0⟩ : CommitOp).commit = none → p.ParentHashes = []) :=
  ⟨⟨by decide!, by decide!, fun c => ⟨commitHash c, rfl⟩⟩,
    AddCommit_tree_message_parents env ⟨some c0⟩ bob 7 "second" world0 wipA alice store0 store0
      (by decide!) (by decide!) (fun c => ⟨commitHash c, rfl⟩)⟩

/-- Witness of C9: on the empty repository, the commit `AddCommit` inserts for
the WIP of `alice` submitted by `bob` is authored by `alice` at the WIP's
update time and committed by `bob` at the first clock reading. -/
theorem AddCommit_signatures_witness :
    (env.WipGet 8 world0.store = (.ok wipRoot, store0) ∧
      env.UserGet wipRoot.CreatorID store0 = (.ok alice, store0) ∧
      ∀ c, ∃ h, env.GetHash c = .ok h) ∧
    ∃ p r w1, AddCommit env ⟨none⟩ bob 8 "first" world0 = some (r, w1) ∧
      inserts w1.log = inserts world0.log ++ [p] ∧
      p.Author = ⟨alice.Name, alice.Email, wipRoot.UpdatedAt⟩ ∧
      p.Committer = ⟨bob.Name, bob.Email, (env.Now store0).1⟩ :=
  ⟨⟨by decide!, by decide!, fun c => ⟨commitHash c, rfl⟩⟩,
    AddCommit_signatures env ⟨none⟩ bob 8 "first" world0 wipRoot alice store0 store0
      (by decide!) (by decide!) (fun c => ⟨commitHash c, rfl⟩)⟩

/-- Witness of C10: the commit inserted by `AddCommit` on `c0` and the commit
inserted by the merge of `cB` into `cA` both carry the hash of their content. -/
theorem persisted_hash_is_GetHash_of_content_witness :
    (AddCommit env ⟨some c0⟩ bob 7 "second" world0 = some (.ok ⟨some addedA⟩, worldAdded) ∧
      ∀ p ∈ inserts worldAdded.log,
        p ∈ inserts world0.log ∨ env.GetHash { p with Hash := [] } = .ok p.Hash) ∧
    (Merge env 3 cA bob cB.Hash "m" declineAll world0 = some (.ok mergedAB, worldAB) ∧
      ∀ p ∈ inserts worldAB.log,
        p ∈ inserts world0.log ∨ env.GetHash { p with Hash := [] } = .ok p.Hash) :=
  ⟨⟨by decide!, (persisted_hash_is_GetHash_of_content env).1 ⟨some c0⟩ bob 7 "second" world0
      worldAdded (.ok ⟨some addedA⟩) (by decide!)⟩,
    ⟨by decide!, (persisted_hash_is_GetHash_of_content env).2 3 cA bob cB.Hash "m" declineAll
      world0 worldAB (.ok mergedAB) (by decide!)⟩⟩

/-- C5, on the code: a criss-cross merge. `cA2` and `cB2` have the two merge
bases `cA` and `cB`; the synthetic commit merging them has the tree `tAB`.
`Merge` computes both diffs from the tree `tA` of the first merge base (the
last two diffs of the log), opens the work tree that receives the changes at
the tree `tAB` of the synthetic commit (the last root of the log), and so
fails on re-adding `src/b.txt`, which the synthetic tree already holds. -/
theorem Merge_crisscross_diffs_from_first_merge_base :
    mergeBase store0 cA2 cB2 = [cA, cB] ∧
      (Merge env 4 cA2 bob cB2.Hash "m" pickOurs world0).map (fun r => r.1) =
        some (.error (.errorf "already exit")) ∧
      (Merge env 4 cA2 bob cB2.Hash "m" pickOurs world0).map
          (fun r => (inserts r.2.log).map fun c => c.TreeHash) = some [treeHash tAB] ∧
      (Merge env 4 cA2 bob cB2.Hash "m" pickOurs world0).map (fun r => diffs r.2.log) =
        some [(treeHash tRoot, treeHash tA), (treeHash tRoot, treeHash tB),
          (treeHash tA, treeHash tABx), (treeHash tA, treeHash tABy)] ∧
      (Merge env 4 cA2 bob cB2.Hash "m" pickOurs world0).map (fun r => workTreeRoots r.2.log) =
        some [treeHash tRoot, treeHash tRoot, treeHash tRoot,
          treeHash tA, treeHash tA, treeHash tAB] ∧
      treeHash tA ≠ treeHash tAB :=
  ⟨by decide!, by decide!, by decide!, by decide!, by decide!, by decide!⟩

end memory

/-! ## Hexadecimal form of a hash -/

namespace hex

theorem fromHexChar_hexDigit : ∀ k : Fin 16, fromHexChar (hexDigit k.val) = some k.val := by
  decide

theorem hexDigit_mem : ∀ k : Fin 16, hexDigit k.val ∈ hextable := by decide

theorem hexDigit_inj : ∀ a b : Fin 16, hexDigit a.val = hexDigit b.val → a = b := by decide

theorem data_EncodeToString_cons (v : Fin 256) (rest : List (Fin 256)) :
    (EncodeToString (v :: rest)).data =
      hexDigit (v.val / 16) :: hexDigit (v.val % 16) :: (EncodeToString rest).data := by
  simp [EncodeToString]

theorem length_EncodeToString (src : List (Fin 256)) :
    (EncodeToString src).length = 2 * src.length := by
  induction src with
  | nil => rfl
  | cons v rest ih =>
    have := data_EncodeToString_cons v rest
    simp only [String.length] at ih ⊢
    rw [this]
    simp [ih]
    omega

theorem hexDigit_div_mem (v : Fin 256) : hexDigit (v.val / 16) ∈ hextable :=
  hexDigit_mem ⟨v.val / 16, by omega⟩

theorem hexDigit_mod_mem (v : Fin 256) : hexDigit (v.val % 16) ∈ hextable :=
  hexDigit_mem ⟨v.val % 16, by omega⟩

theorem mem_EncodeToString (src : List (Fin 256)) :
    ∀ c ∈ (EncodeToString src).data, c ∈ hextable := by
  induction src with
  | nil => intro c hc; simp [EncodeToString] at hc
  | cons v rest ih =>
    intro c hc
    rw [data_EncodeToString_cons] at hc
    simp only [List.mem_cons] at hc
    rcases hc with rfl | rfl | hc
    · exact hexDigit_div_mem v
    · exact hexDigit_mod_mem v
    · exact ih c hc

theorem nibbles_EncodeToString (src : List (Fin 256)) :
    ∀ (i : Nat) (v : Fin 256), src[i]? = some v →
      (EncodeToString src).data[2 * i]? = some (hexDigit (v.val / 16)) ∧
        (EncodeToString src).data[2 * i + 1]? = some (hexDigit (v.val % 16)) := by
  induction src with
  | nil => intro i v h; simp at h
  | cons u rest ih =>
    intro i v h
    rw [data_EncodeToString_cons]
    cases i with
    | zero =>
      simp only [List.getElem?_cons_zero, Option.some.injEq] at h
      subst h
      simp
    | succ j =>
      simp only [List.getElem?_cons_succ] at h
      have := ih j v h
      rw [show 2 * (j + 1) = 2 * j + 1 + 1 by ring]
      simpa using this

theorem byte_of_nibbles (u v : Fin 256)
    (h1 : hexDigit (u.val / 16) = hexDigit (v.val / 16))
    (h2 : hexDigit (u.val % 16) = hexDigit (v.val % 16)) : u = v := by
  have e1 := hexDigit_inj ⟨u.val / 16, by omega⟩ ⟨v.val / 16, by omega⟩ h1
  have e2 := hexDigit_inj ⟨u.val % 16, by omega⟩ ⟨v.val % 16, by omega⟩ h2
  simp only [Fin.mk.injEq] at e1 e2
  apply Fin.ext
  omega

theorem EncodeToString_injective : ∀ (a b : List (Fin 256)),
    EncodeToString a = EncodeToString b → a = b
  | [], [], _ => rfl
  | [], v :: rest, h => by
    have := congrArg String.length h
    rw [length_EncodeToString, length_EncodeToString] at this
    simp at this
  | v :: rest, [], h => by
    have := congrArg String.length h
    rw [length_EncodeToString, length_EncodeToString] at this
    simp at this
  | u :: as, v :: bs, h => by
    have hd := congrArg String.data h
    rw [data_EncodeToString_cons, data_EncodeToString_cons] at hd
    simp only [List.cons.injEq] at hd
    obtain ⟨h1, h2, h3⟩ := hd
    have huv := byte_of_nibbles u v h1 h2
    have hrest := EncodeToString_injective as bs (String.ext h3)
    rw [huv, hrest]

theorem ofNat_nibbles (v : Fin 256) : (Fin.ofNat (v.val / 16 * 16 + v.val % 16) : Fin 256) = v := by
  apply Fin.ext
  simp only [Fin.ofNat, Fin.val_mk]
  omega

theorem decode_EncodeToString (src : List (Fin 256)) :
    decode (EncodeToString src).data = .ok src := by
  induction src with
  | nil => rfl
  | cons v rest ih =>
    rw [data_EncodeToString_cons, decode]
    have h1 := fromHexChar_hexDigit ⟨v.val / 16, by omega⟩
    have h2 := fromHexChar_hexDigit ⟨v.val % 16, by omega⟩
    simp only at h1 h2
    simp only [h1, h2, ih, ofNat_nibbles]

theorem decode_ok : ∀ (cs : List Char) (out : List (Fin 256)), decode cs = .ok out →
    cs.length % 2 = 0 ∧ ∀ c ∈ cs, (fromHexChar c).isSome = true
  | [], _, _ => by simp
  | [c], out, h => by
    simp only [decode] at h
    split at h <;> simp at h
  | a :: b :: rest, out, h => by
    simp only [decode] at h
    split at h
    · next x y hx hy =>
      split at h
      · next out1 hrest =>
        obtain ⟨hlen, hall⟩ := decode_ok rest out1 hrest
        refine ⟨by simp; omega, ?_⟩
        intro c hc
        simp only [List.mem_cons] at hc
        rcases hc with rfl | rfl | hc
        · simp [hx]
        · simp [hy]
        · exact hall c hc
      · simp at h
    · simp at h
    · simp at h

end hex

namespace gohex

theorem DecodeString_eq_ok (s : String) (out : List (Fin 256)) :
    DecodeString s = .ok out ↔ hex.DecodeString s = .ok out := by
  unfold DecodeString hex.DecodeString
  constructor
  · intro h
    split at h
    · cases h
    · exact h
  · intro h
    have hl := (hex.decode_ok s.data out h).1
    have : ¬ s.length % 2 = 1 := by
      have : s.length = s.data.length := rfl
      omega
    rw [if_neg this]
    exact h

theorem DecodeString_EncodeToString (src : List (Fin 256)) :
    DecodeString (hex.EncodeToString src) = .ok src :=
  (DecodeString_eq_ok _ _).2 (hex.decode_EncodeToString src)

end gohex

namespace hash

theorem char_of_byte_of_hextable :
    ∀ c ∈ hex.hextable, Char.ofNat (Fin.ofNat c.toNat : Fin 256).val = c := by decide

theorem stringOfBytes_bytesOfString_Hex (h : Hash) :
    stringOfBytes (bytesOfString (Hash.Hex h)) = Hash.Hex h := by
  apply String.ext
  simp only [stringOfBytes, bytesOfString, List.map_map]
  conv_rhs => rw [← List.map_id (Hash.Hex h).data]
  apply List.map_congr_left
  intro c hc
  exact char_of_byte_of_hextable c (hex.mem_EncodeToString h c hc)

theorem length_bytesOfString_Hex (h : Hash) : (bytesOfString (Hash.Hex h)).length = 2 * h.length := by
  simp only [bytesOfString, List.length_map]
  exact hex.length_EncodeToString h

theorem MarshalJSON_eq (h : Hash) :
    Hash.MarshalJSON h = .ok (34 :: bytesOfString (Hash.Hex h) ++ [34]) := by
  unfold Hash.MarshalJSON
  split
  · next he => subst he; rfl
  · simp [bytesOfString, String.data_append]
    rfl

theorem UnmarshalJSON_quoted (recv h : Hash) (hne : h ≠ []) :
    Hash.UnmarshalJSON recv (34 :: bytesOfString (Hash.Hex h) ++ [34]) = (none, h) := by
  have hlen := length_bytesOfString_Hex h
  have hpos : 0 < h.length := List.length_pos.mpr hne
  unfold Hash.UnmarshalJSON
  have h1 : ¬ (34 :: bytesOfString (Hash.Hex h) ++ [34]).length < 2 := by simp
  have h2 : ¬ ((34 :: bytesOfString (Hash.Hex h) ++ [34]).head? ≠ some 34 ∨
      (34 :: bytesOfString (Hash.Hex h) ++ [34]).getLast? ≠ some 34) := by
    have : (34 :: bytesOfString (Hash.Hex h) ++ [34]).getLast? = some 34 :=
      List.getLast?_concat (34 :: bytesOfString (Hash.Hex h))
    rw [List.cons_append] at this
    simp [this]
  have h3 : ¬ (34 :: bytesOfString (Hash.Hex h) ++ [34]).length = 2 := by
    rw [List.length_append, List.length_cons, hlen]
    simp only [List.length_singleton]
    omega
  have h4 : ((34 :: bytesOfString (Hash.Hex h) ++ [34]).drop 1).take
      ((34 :: bytesOfString (Hash.Hex h) ++ [34]).length - 2) = bytesOfString (Hash.Hex h) := by
    simp
  rw [if_neg h1, if_neg h2, if_neg h3, h4, stringOfBytes_bytesOfString_Hex]
  simp [Hash.Hex, gohex.DecodeString_EncodeToString]

/-- C12: for every hash `h` of `n` bytes, `h.Hex()` has exactly `2n`
characters, each one of the sixteen digits `0-9a-f` (lower case, nothing
before them); the characters `2i` and `2i+1` are the digits of the high and of
the low nibble of byte `i`; the empty (or nil) hash gives the empty string;
and two hashes with the same `Hex` have the same bytes. -/
theorem Hex_external_form (h : Hash) :
    (Hash.Hex h).length = 2 * h.length ∧
      (∀ c ∈ (Hash.Hex h).data, c ∈ hex.hextable) ∧
      (∀ (i : Nat) (v : Fin 256), h[i]? = some v →
        (Hash.Hex h).data[2 * i]? = some (hex.hexDigit (v.val / 16)) ∧
          (Hash.Hex h).data[2 * i + 1]? = some (hex.hexDigit (v.val % 16))) ∧
      Hash.Hex [] = "" ∧
      ∀ h1 : Hash, Hash.Hex h = Hash.Hex h1 → h = h1 :=
  ⟨hex.length_EncodeToString h, hex.mem_EncodeToString h, hex.nibbles_EncodeToString h, rfl,
    hex.EncodeToString_injective h⟩

/-- C13: for every hash `h`, `MarshalJSON` succeeds and returns the lower-case
hex of `h` between two double quotes (byte 34), which is `""` for the empty
(or nil) hash; and `UnmarshalJSON` of that output into an empty receiver
returns no error and leaves the receiver equal to `h`. -/
theorem MarshalJSON_UnmarshalJSON_roundtrip (h : Hash) :
    Hash.MarshalJSON h = .ok (34 :: bytesOfString (Hash.Hex h) ++ [34]) ∧
      (h = [] → Hash.MarshalJSON h = .ok [34, 34]) ∧
      ∀ out, Hash.MarshalJSON h = .ok out → Hash.UnmarshalJSON [] out = (none, h) := by
  refine ⟨MarshalJSON_eq h, ?_, ?_⟩
  · intro he
    subst he
    rfl
  · intro out hout
    rw [MarshalJSON_eq] at hout
    simp only [Except.ok.injEq] at hout
    subst hout
    by_cases he : h = []
    · subst he
      rfl
    · exact UnmarshalJSON_quoted [] h he

theorem isSome_fromHexChar_of_byte :
    ∀ v : Fin 256, (hex.fromHexChar (Char.ofNat v.val)).isSome = true →
      Char.ofNat v.val ∈ hex.hexDigits := by
  decide!

/-- C14: for every receiver and every byte string that is shorter than two
bytes, or does not start with a double quote, or does not end with one, or
whose content between the quotes is not an even-length string of hexadecimal
digits, `UnmarshalJSON` returns an error and leaves the receiver as it was. -/
theorem UnmarshalJSON_rejects_malformed (recv : Hash) (bytes : List (Fin 256))
    (hbad : bytes.length < 2 ∨ bytes.head? ≠ some 34 ∨ bytes.getLast? ≠ some 34 ∨
      ¬ (((bytes.drop 1).take (bytes.length - 2)).length % 2 = 0 ∧
        ∀ v ∈ (bytes.drop 1).take (bytes.length - 2), Char.ofNat v.val ∈ hex.hexDigits)) :
    ∃ err, Hash.UnmarshalJSON recv bytes = (some err, recv) := by
  unfold Hash.UnmarshalJSON
  split
  · exact ⟨_, rfl⟩
  split
  · exact ⟨_, rfl⟩
  next hlen hq =>
  have hinner : ¬ (((bytes.drop 1).take (bytes.length - 2)).length % 2 = 0 ∧
      ∀ v ∈ (bytes.drop 1).take (bytes.length - 2), Char.ofNat v.val ∈ hex.hexDigits) := by
    rcases hbad with h | h | h | h
    · exact absurd h hlen
    · exact absurd (Or.inl h) hq
    · exact absurd (Or.inr h) hq
    · exact h
  split
  · next h2 =>
    exfalso
    apply hinner
    simp [h2]
  · split
    · exact ⟨_, rfl⟩
    · next hexData hdec =>
      exfalso
      apply hinner
      obtain ⟨hl, hall⟩ := hex.decode_ok _ _ ((gohex.DecodeString_eq_ok _ _).1 hdec)
      simp only [stringOfBytes, List.length_map] at hl
      refine ⟨hl, ?_⟩
      intro v hv
      apply isSome_fromHexChar_of_byte
      apply hall
      simp only [stringOfBytes, List.mem_map]
      exact ⟨v, hv, rfl⟩

end hash

/-! ## DiffCommit: from the held commit to the named one -/

namespace versionmgr

open models

/-! ## Drivers that return -/

theorem isSome_pure {σ α : Type} (a : α) (w : World σ) :
    ((pure a : Prog σ α) w).isSome = true := rfl

theorem isSome_call {σ α : Type} (c : Call) (f : σ → Except Err α × σ) (w : World σ) :
    (call c f w).isSome = true := rfl

theorem isSome_callPure {σ α : Type} (c : Call) (r : Except Err α) (w : World σ) :
    (callPure c r w).isSome = true := rfl

theorem isSome_bind {σ α β : Type} (m : Prog σ α) (f : α → Prog σ β) (w : World σ)
    (hm : (m w).isSome = true) (hf : ∀ a w1, (f a w1).isSome = true) :
    ((m >>= f) w).isSome = true := by
  rw [bind_run, Prog.bind]
  cases h : m w with
  | none => simp [h] at hm
  | some rw1 =>
    obtain ⟨r, w1⟩ := rw1
    cases r with
    | error e => rfl
    | ok a => exact hf a w1

theorem isSome_AddCommit {σ ω ι : Type} (env : Env σ ω ι) (commitOp : CommitOp)
    (committer : User) (wipID : UUID) (msg : String) (w : World σ) :
    (AddCommit env commitOp committer wipID msg w).isSome = true := by
  unfold AddCommit
  refine isSome_bind _ _ _ (isSome_call _ _ _) fun wip w1 => ?_
  refine isSome_bind _ _ _ (isSome_call _ _ _) fun creator w2 => ?_
  refine isSome_bind _ _ _ (isSome_call _ _ _) fun t1 w3 => ?_
  refine isSome_bind _ _ _ (isSome_call _ _ _) fun t2 w4 => ?_
  refine isSome_bind _ _ _ (isSome_call _ _ _) fun t3 w5 => ?_
  refine isSome_bind _ _ _ (isSome_callPure _ _ _) fun h w6 => ?_
  refine isSome_bind _ _ _ (isSome_call _ _ _) fun _ w7 => ?_
  exact isSome_pure _ _

theorem keeps_applyChanges_loop {σ ω ι : Type} (env : Env σ ω ι) {Q : List Entry → Prop}
    (hnext : ∀ log e, Q log → Q (log ++ [⟨.Next, e⟩]))
    (happly : ∀ log ch e, Q log → Q (log ++ [⟨.ApplyOneChange ch, e⟩])) (n : Nat) :
    ∀ (cmw : ι) (workTree : ω), Keeps Q (applyChanges env n cmw workTree) := by
  induction n with
  | zero =>
    intro cmw workTree w r w1 h hq
    simp only [applyChanges] at h
    split at h
    · simp at h
    · simp only [Option.some.injEq, Prod.mk.injEq] at h
      rw [← h.2]
      exact hq
  | succ n ih =>
    intro cmw workTree
    rw [applyChanges]
    split
    · refine keeps_callPure_bind (fun log e => hnext log e) fun change _ => ?_
      refine keeps_bind (keeps_call _ fun log e => happly log change e) fun workTree1 => ?_
      exact ih _ _
    · exact keeps_pure Q workTree

theorem DiffCommit_ok {σ ω ι : Type} (env : Env σ ω ι) (c : Commit) (t : hash.Hash)
    (w : World σ) (workTree : ω) (s1 : σ) (toCommit : Commit) (s2 : σ)
    (hwt : env.NewWorkTree c.TreeHash w.store = (.ok workTree, s1))
    (hload : env.Commit t s1 = (.ok toCommit, s2)) :
    DiffCommit env c t w =
      some ((env.Diff workTree toCommit.TreeHash s2).1,
        ⟨(env.Diff workTree toCommit.TreeHash s2).2,
          w.log ++ [⟨.NewWorkTree c.TreeHash, none⟩, ⟨.Commit t, none⟩,
            entryOf (.Diff c.TreeHash toCommit.TreeHash)
              (env.Diff workTree toCommit.TreeHash s2).1]⟩) := by
  unfold DiffCommit
  rw [call_ok hwt, call_ok (w := ⟨s1, _⟩) hload]
  simp [call]

theorem DiffCommit_missing {σ ω ι : Type} (env : Env σ ω ι) (c : Commit) (t : hash.Hash)
    (w : World σ) (workTree : ω) (s1 : σ) (e : Err) (s2 : σ)
    (hwt : env.NewWorkTree c.TreeHash w.store = (.ok workTree, s1))
    (hload : env.Commit t s1 = (.error e, s2)) :
    DiffCommit env c t w =
      some (.error e,
        ⟨s2, w.log ++ [⟨.NewWorkTree c.TreeHash, none⟩, ⟨.Commit t, some e⟩]⟩) := by
  unfold DiffCommit
  rw [call_ok hwt, call_err (w := ⟨s1, _⟩) hload]
  simp

theorem Merge_single_base_diffs {σ ω ι : Type} (env : Env σ ω ι) (fuel : Nat) (b : Commit)
    (merger : User) (t : hash.Hash) (msg : String) (resolver : ConflictResolver) (w : World σ)
    (m bc ours theirs : Commit) (s1 s2 s3 s4 s5 s6 s7 s8 s9 s10 : σ) (wt1 wt2 : ω)
    (baseDiff mergeDiff : Changes) (r : Except Err Commit) (w1 : World σ)
    (hload : env.Commit t w.store = (.ok m, s1))
    (hanc : env.IsAncestor m b s1 = (.ok false, s2))
    (hff : env.IsAncestor b m s2 = (.ok false, s3))
    (hmb : env.MergeBase b m s3 = (.ok [bc], s4))
    (hwt1 : env.NewWorkTree bc.TreeHash s4 = (.ok wt1, s5))
    (hours : env.Commit b.Hash s5 = (.ok ours, s6))
    (hbd : env.Diff wt1 ours.TreeHash s6 = (.ok baseDiff, s7))
    (hwt2 : env.NewWorkTree bc.TreeHash s7 = (.ok wt2, s8))
    (htheirs : env.Commit m.Hash s8 = (.ok theirs, s9))
    (hmd : env.Diff wt2 theirs.TreeHash s9 = (.ok mergeDiff, s10))
    (hrun : Merge env (fuel + 1) b merger t msg resolver w = some (r, w1)) :
    diffs w1.log =
      diffs w.log ++ [(bc.TreeHash, ours.TreeHash), (bc.TreeHash, theirs.TreeHash)] := by
  rw [Merge, call_ok hload, call_ok (w := ⟨s1, _⟩) hanc] at hrun
  simp only [Bool.false_eq_true, if_false] at hrun
  rw [call_ok (w := ⟨s2, _⟩) hff] at hrun
  simp only [Bool.false_eq_true, if_false] at hrun
  rw [call_ok (w := ⟨s3, _⟩) hmb] at hrun
  simp only [] at hrun
  rw [bind_of_ok (pure_run bc _)] at hrun
  have h1 := DiffCommit_ok env bc b.Hash ⟨s4, w.log ++ [Entry.mk (.Commit t) none] ++
    [Entry.mk (.IsAncestor m b) none] ++ [Entry.mk (.IsAncestor b m) none] ++
    [Entry.mk (.MergeBase b m) none]⟩ wt1 s5 ours s6 hwt1 hours
  rw [hbd] at h1
  rw [bind_of_ok h1] at hrun
  have h2 := DiffCommit_ok env bc m.Hash ⟨s7, w.log ++ [Entry.mk (.Commit t) none] ++
    [Entry.mk (.IsAncestor m b) none] ++ [Entry.mk (.IsAncestor b m) none] ++
    [Entry.mk (.MergeBase b m) none] ++ [Entry.mk (.NewWorkTree bc.TreeHash) none,
      Entry.mk (.Commit b.Hash) none,
      entryOf (.Diff bc.TreeHash ours.TreeHash) (Except.ok baseDiff)]⟩ wt2 s8 theirs s9 hwt2 htheirs
  rw [hmd] at h2
  rw [bind_of_ok h2] at hrun
  have hstep : ∀ (log : List Entry) (c : Call) (e : Option Err), (∀ x y, c ≠ .Diff x y) →
      diffs log = diffs w.log ++ [(bc.TreeHash, ours.TreeHash), (bc.TreeHash, theirs.TreeHash)] →
      diffs (log ++ [⟨c, e⟩]) =
        diffs w.log ++ [(bc.TreeHash, ours.TreeHash), (bc.TreeHash, theirs.TreeHash)] := by
    intro log c e hc hq
    rw [diffs_append, hq]
    cases c <;> simp [diffs] at hc ⊢
  refine (?_ : Keeps (fun log => diffs log =
    diffs w.log ++ [(bc.TreeHash, ours.TreeHash), (bc.TreeHash, theirs.TreeHash)]) _) _ r w1 hrun
    ?_
  · refine keeps_bind (keeps_call _ fun log e => hstep log _ e (by simp)) fun workTree => ?_
    refine keeps_bind (keeps_applyChanges_loop env (fun log e => hstep log _ e (by simp))
      (fun log ch e => hstep log _ e (by simp)) _ _ _) fun workTree1 => ?_
    refine keeps_bind (keeps_call _ fun log e => hstep log _ e (by simp)) fun authorWhen => ?_
    refine keeps_bind (keeps_call _ fun log e => hstep log _ e (by simp)) fun createdAt => ?_
    refine keeps_bind (keeps_call _ fun log e => hstep log _ e (by simp)) fun updatedAt => ?_
    refine keeps_callPure_bind (fun log e => hstep log _ e (by simp)) fun h _ => ?_
    exact keeps_call _ fun log e => hstep log _ e (by simp)
  · simp [diffs_append, diffs, entryOf]

theorem Merge_single_base_returns {σ ω ι : Type} (env : Env σ ω ι) (fuel : Nat) (b : Commit)
    (merger : User) (t : hash.Hash) (msg : String) (resolver : ConflictResolver) (w : World σ)
    (m bc ours theirs : Commit) (s1 s2 s3 s4 s5 s6 s7 s8 s9 s10 : σ) (wt1 wt2 : ω)
    (baseDiff mergeDiff : Changes)
    (hload : env.Commit t w.store = (.ok m, s1))
    (hanc : env.IsAncestor m b s1 = (.ok false, s2))
    (hff : env.IsAncestor b m s2 = (.ok false, s3))
    (hmb : env.MergeBase b m s3 = (.ok [bc], s4))
    (hwt1 : env.NewWorkTree bc.TreeHash s4 = (.ok wt1, s5))
    (hours : env.Commit b.Hash s5 = (.ok ours, s6))
    (hbd : env.Diff wt1 ours.TreeHash s6 = (.ok baseDiff, s7))
    (hwt2 : env.NewWorkTree bc.TreeHash s7 = (.ok wt2, s8))
    (htheirs : env.Commit m.Hash s8 = (.ok theirs, s9))
    (hmd : env.Diff wt2 theirs.TreeHash s9 = (.ok mergeDiff, s10))
    (hloop : ∀ (wt3 : ω) (s11 : σ), env.NewWorkTree bc.TreeHash s10 = (.ok wt3, s11) →
      (applyChanges env (fuel + 1) (env.NewChangesMergeIter baseDiff mergeDiff resolver) wt3
        ⟨s11, w.log ++ [⟨.Commit t, none⟩, ⟨.IsAncestor m b, none⟩, ⟨.IsAncestor b m, none⟩,
          ⟨.MergeBase b m, none⟩, ⟨.NewWorkTree bc.TreeHash, none⟩, ⟨.Commit b.Hash, none⟩,
          ⟨.Diff bc.TreeHash ours.TreeHash, none⟩, ⟨.NewWorkTree bc.TreeHash, none⟩,
          ⟨.Commit m.Hash, none⟩, ⟨.Diff bc.TreeHash theirs.TreeHash, none⟩,
          ⟨.NewWorkTree bc.TreeHash, none⟩]⟩).isSome = true) :
    (Merge env (fuel + 1) b merger t msg resolver w).isSome = true := by
  rw [Merge, call_ok hload, call_ok (w := ⟨s1, _⟩) hanc]
  simp only [Bool.false_eq_true, if_false]
  rw [call_ok (w := ⟨s2, _⟩) hff]
  simp only [Bool.false_eq_true, if_false]
  rw [call_ok (w := ⟨s3, _⟩) hmb]
  simp only []
  rw [bind_of_ok (pure_run bc _)]
  have h1 := DiffCommit_ok env bc b.Hash ⟨s4, w.log ++ [Entry.mk (.Commit t) none] ++
    [Entry.mk (.IsAncestor m b) none] ++ [Entry.mk (.IsAncestor b m) none] ++
    [Entry.mk (.MergeBase b m) none]⟩ wt1 s5 ours s6 hwt1 hours
  rw [hbd] at h1
  rw [bind_of_ok h1]
  have h2 := DiffCommit_ok env bc m.Hash ⟨s7, w.log ++ [Entry.mk (.Commit t) none] ++
    [Entry.mk (.IsAncestor m b) none] ++ [Entry.mk (.IsAncestor b m) none] ++
    [Entry.mk (.MergeBase b m) none] ++ [Entry.mk (.NewWorkTree bc.TreeHash) none,
      Entry.mk (.Commit b.Hash) none,
      entryOf (.Diff bc.TreeHash ours.TreeHash) (Except.ok baseDiff)]⟩ wt2 s8 theirs s9 hwt2 htheirs
  rw [hmd] at h2
  rw [bind_of_ok h2]
  rcases hwt3 : env.NewWorkTree bc.TreeHash s10 with ⟨e | wt3, s11⟩
  · rw [call_err (w := ⟨s10, _⟩) hwt3]
    rfl
  · rw [call_ok (w := ⟨s10, _⟩) hwt3]
    have hl := hloop wt3 s11 hwt3
    simp only [entryOf, List.append_assoc, List.cons_append, List.nil_append] at hl ⊢
    refine isSome_bind _ _ _ hl fun workTree1 w12 => ?_
    refine isSome_bind _ _ _ (isSome_call _ _ _) fun t1 w13 => ?_
    refine isSome_bind _ _ _ (isSome_call _ _ _) fun t2 w14 => ?_
    refine isSome_bind _ _ _ (isSome_call _ _ _) fun t3 w15 => ?_
    refine isSome_bind _ _ _ (isSome_callPure _ _ _) fun h w16 => ?_
    exact isSome_call _ _ _

/-- C11: direction of `DiffCommit`. On a receiver holding `c`, once the work
tree of `c.TreeHash` is open, `DiffCommit(t)` returns what `Diff` from that
work tree to the tree of the commit stored under `t` returns (the logged diff
is from `c.TreeHash` to that commit's `TreeHash`); when the store has no
commit under `t` it returns the store's error and no changes, without calling
`Diff`. Consequently, in a run of `Merge` with the single merge base `bc`, the
two diffs computed are from the tree of `bc` to the tree of the commit stored
under the base's hash, and from the tree of `bc` to the tree of the commit
stored under the loaded commit's hash, in that order: this holds of every
result of `Merge`, and `Merge` does return a result whenever the fuel
suffices for the apply loop on the iterator of the two diffs. -/
theorem DiffCommit_direction {σ ω ι : Type} (env : Env σ ω ι) :
    (∀ (c : Commit) (t : hash.Hash) (w : World σ) (workTree : ω) (s1 : σ),
        env.NewWorkTree c.TreeHash w.store = (.ok workTree, s1) →
        (∀ (toCommit : Commit) (s2 : σ), env.Commit t s1 = (.ok toCommit, s2) →
          DiffCommit env c t w =
            some ((env.Diff workTree toCommit.TreeHash s2).1,
              ⟨(env.Diff workTree toCommit.TreeHash s2).2,
                w.log ++ [⟨.NewWorkTree c.TreeHash, none⟩, ⟨.Commit t, none⟩,
                  entryOf (.Diff c.TreeHash toCommit.TreeHash)
                    (env.Diff workTree toCommit.TreeHash s2).1]⟩)) ∧
        (∀ (e : Err) (s2 : σ), env.Commit t s1 = (.error e, s2) →
          DiffCommit env c t w =
            some (.error e,
              ⟨s2, w.log ++ [⟨.NewWorkTree c.TreeHash, none⟩, ⟨.Commit t, some e⟩]⟩))) ∧
      (∀ (fuel : Nat) (b : Commit) (merger : User) (t : hash.Hash) (msg : String)
        (resolver : ConflictResolver) (w : World σ) (m bc ours theirs : Commit)
        (s1 s2 s3 s4 s5 s6 s7 s8 s9 s10 : σ) (wt1 wt2 : ω) (baseDiff mergeDiff : Changes)
        (r : Except Err Commit) (w1 : World σ),
        env.Commit t w.store = (.ok m, s1) →
        env.IsAncestor m b s1 = (.ok false, s2) →
        env.IsAncestor b m s2 = (.ok false, s3) →
        env.MergeBase b m s3 = (.ok [bc], s4) →
        env.NewWorkTree bc.TreeHash s4 = (.ok wt1, s5) →
        env.Commit b.Hash s5 = (.ok ours, s6) →
        env.Diff wt1 ours.TreeHash s6 = (.ok baseDiff, s7) →
        env.NewWorkTree bc.TreeHash s7 = (.ok wt2, s8) →
        env.Commit m.Hash s8 = (.ok theirs, s9) →
        env.Diff wt2 theirs.TreeHash s9 = (.ok mergeDiff, s10) →
        Merge env (fuel + 1) b merger t msg resolver w = some (r, w1) →
        diffs w1.log =
          diffs w.log ++ [(bc.TreeHash, ours.TreeHash), (bc.TreeHash, theirs.TreeHash)]) ∧
      (∀ (fuel : Nat) (b : Commit) (merger : User) (t : hash.Hash) (msg : String)
        (resolver : ConflictResolver) (w : World σ) (m bc ours theirs : Commit)
        (s1 s2 s3 s4 s5 s6 s7 s8 s9 s10 : σ) (wt1 wt2 : ω) (baseDiff mergeDiff : Changes),
        env.Commit t w.store = (.ok m, s1) →
        env.IsAncestor m b s1 = (.ok false, s2) →
        env.IsAncestor b m s2 = (.ok false, s3) →
        env.MergeBase b m s3 = (.ok [bc], s4) →
        env.NewWorkTree bc.TreeHash s4 = (.ok wt1, s5) →
        env.Commit b.Hash s5 = (.ok ours, s6) →
        env.Diff wt1 ours.TreeHash s6 = (.ok baseDiff, s7) →
        env.NewWorkTree bc.TreeHash s7 = (.ok wt2, s8) →
        env.Commit m.Hash s8 = (.ok theirs, s9) →
        env.Diff wt2 theirs.TreeHash s9 = (.ok mergeDiff, s10) →
        (∀ (wt3 : ω) (s11 : σ), env.NewWorkTree bc.TreeHash s10 = (.ok wt3, s11) →
          (applyChanges env (fuel + 1) (env.NewChangesMergeIter baseDiff mergeDiff resolver) wt3
            ⟨s11, w.log ++ [⟨.Commit t, none⟩, ⟨.IsAncestor m b, none⟩,
              ⟨.IsAncestor b m, none⟩, ⟨.MergeBase b m, none⟩,
              ⟨.NewWorkTree bc.TreeHash, none⟩, ⟨.Commit b.Hash, none⟩,
              ⟨.Diff bc.TreeHash ours.TreeHash, none⟩, ⟨.NewWorkTree bc.TreeHash, none⟩,
              ⟨.Commit m.Hash, none⟩, ⟨.Diff bc.TreeHash theirs.TreeHash, none⟩,
              ⟨.NewWorkTree bc.TreeHash, none⟩]⟩).isSome = true) →
        ∃ r w1, Merge env (fuel + 1) b merger t msg resolver w = some (r, w1) ∧
          diffs w1.log =
            diffs w.log ++ [(bc.TreeHash, ours.TreeHash), (bc.TreeHash, theirs.TreeHash)]) :=
  ⟨fun c t w workTree s1 hwt =>
      ⟨fun toCommit s2 hload => DiffCommit_ok env c t w workTree s1 toCommit s2 hwt hload,
        fun e s2 hload => DiffCommit_missing env c t w workTree s1 e s2 hwt hload⟩,
    fun fuel b merger t msg resolver w m bc ours theirs s1 s2 s3 s4 s5 s6 s7 s8 s9 s10 wt1 wt2
        baseDiff mergeDiff r w1 hload hanc hff hmb hwt1 hours hbd hwt2 htheirs hmd hrun =>
      Merge_single_base_diffs env fuel b merger t msg resolver w m bc ours theirs
        s1 s2 s3 s4 s5 s6 s7 s8 s9 s10 wt1 wt2 baseDiff mergeDiff r w1
        hload hanc hff hmb hwt1 hours hbd hwt2 htheirs hmd hrun,
    fun fuel b merger t msg resolver w m bc ours theirs s1 s2 s3 s4 s5 s6 s7 s8 s9 s10 wt1 wt2
        baseDiff mergeDiff hload hanc hff hmb hwt1 hours hbd hwt2 htheirs hmd hloop => by
      have hsome := Merge_single_base_returns env fuel b merger t msg resolver w m bc ours
        theirs s1 s2 s3 s4 s5 s6 s7 s8 s9 s10 wt1 wt2 baseDiff mergeDiff
        hload hanc hff hmb hwt1 hours hbd hwt2 htheirs hmd hloop
      cases hrun : Merge env (fuel + 1) b merger t msg resolver w with
      | none => simp [hrun] at hsome
      | some rw1 =>
        exact ⟨rw1.1, rw1.2, rfl,
          Merge_single_base_diffs env fuel b merger t msg resolver w m bc ours theirs
            s1 s2 s3 s4 s5 s6 s7 s8 s9 s10 wt1 wt2 baseDiff mergeDiff rw1.1 rw1.2
            hload hanc hff hmb hwt1 hours hbd hwt2 htheirs hmd hrun⟩⟩

/-! ## The receiver of a method -/

theorem method_bind_run {σ α β : Type} (m : Method σ α) (f : α → Method σ β) (recv : CommitOp)
    (w : World σ) : (m >>= f) recv w = Method.bind m f recv w := rfl

theorem method_lift_bind {σ α β : Type} (m : Prog σ α) (f : α → Method σ β) (g : α → Prog σ β)
    (recv : CommitOp)
    (h : ∀ a w, f a recv w = (g a w).map fun rw => (rw.1, recv, rw.2)) (w : World σ) :
    (Method.lift m >>= f) recv w = ((m >>= g) w).map fun rw => (rw.1, recv, rw.2) := by
  rw [method_bind_run, bind_run, Method.bind, Prog.bind, Method.lift]
  cases hm : m w with
  | none => rfl
  | some rw1 =>
    obtain ⟨r, w1⟩ := rw1
    cases r with
    | error e => rfl
    | ok a => exact h a w1

theorem method_commit_bind {σ β : Type} (f : Option Commit → Method σ β) (recv : CommitOp)
    (w : World σ) : (Method.commit >>= f) recv w = f recv.commit recv w := rfl

theorem CommitOp_AddCommit_eq {σ ω ι : Type} (env : Env σ ω ι) (committer : User)
    (wipID : UUID) (msg : String) (commitOp : CommitOp) (w : World σ) :
    CommitOp.AddCommit env committer wipID msg commitOp w =
      (AddCommit env commitOp committer wipID msg w).map fun rw => (rw.1, commitOp, rw.2) := by
  unfold CommitOp.AddCommit AddCommit
  refine method_lift_bind _ _ _ _ (fun wip w1 => ?_) w
  refine method_lift_bind _ _ _ _ (fun creator w2 => ?_) w1
  rw [method_commit_bind]
  refine method_lift_bind _ _ _ _ (fun t1 w3 => ?_) w2
  refine method_lift_bind _ _ _ _ (fun t2 w4 => ?_) w3
  refine method_lift_bind _ _ _ _ (fun t3 w5 => ?_) w4
  refine method_lift_bind _ _ _ _ (fun h w6 => ?_) w5
  refine method_lift_bind _ _ _ _ (fun _ w7 => ?_) w6
  rfl

theorem CommitOp_AddCommit_receiver {σ ω ι : Type} (env : Env σ ω ι) (committer : User)
    (wipID : UUID) (msg : String) (commitOp : CommitOp) (w : World σ) :
    ∃ r w1, CommitOp.AddCommit env committer wipID msg commitOp w = some (r, commitOp, w1) ∧
      AddCommit env commitOp committer wipID msg w = some (r, w1) := by
  have hsome := isSome_AddCommit env commitOp committer wipID msg w
  rw [CommitOp_AddCommit_eq]
  cases h : AddCommit env commitOp committer wipID msg w with
  | none => simp [h] at hsome
  | some rw1 => exact ⟨rw1.1, rw1.2, rfl, rfl⟩

/-! ## AddCommit: failures -/

theorem AddCommit_until_hash {σ ω ι : Type} (env : Env σ ω ι) (commitOp : CommitOp)
    (committer : User) (wipID : UUID) (msg : String) (w : World σ) (wip : WorkingInProcess)
    (creator : User) (s1 s2 s3 s4 s5 : σ) (t1 t2 t3 : Time) (e : Err)
    (hwip : env.WipGet wipID w.store = (.ok wip, s1))
    (huser : env.UserGet wip.CreatorID s1 = (.ok creator, s2))
    (hn1 : env.Now s2 = (t1, s3)) (hn2 : env.Now s3 = (t2, s4)) (hn3 : env.Now s4 = (t3, s5))
    (hhash : env.GetHash (addedCommit commitOp committer creator wip msg t1 t2 t3 []) =
      .error e) :
    AddCommit env commitOp committer wipID msg w =
      some (.error e,
        ⟨s5, w.log ++ [⟨.WipGet wipID, none⟩, ⟨.UserGet wip.CreatorID, none⟩, ⟨.Now, none⟩,
          ⟨.Now, none⟩, ⟨.Now, none⟩,
          ⟨.GetHash (addedCommit commitOp committer creator wip msg t1 t2 t3 []), some e⟩]⟩) := by
  rw [AddCommit, call_ok hwip, call_ok (w := ⟨s1, _⟩) huser]
  rw [call_ok (w := ⟨s2, _⟩) (a := t1) (s := s3) (by simp [hn1])]
  rw [call_ok (w := ⟨s3, _⟩) (a := t2) (s := s4) (by simp [hn2])]
  rw [call_ok (w := ⟨s4, _⟩) (a := t3) (s := s5) (by simp [hn3])]
  simp only [addedCommit] at hhash ⊢
  rw [callPure_err hhash]
  simp

/-- C20: `AddCommit` on failure. If the WIP lookup fails, or the lookup of the
WIP's creator fails, or `GetHash` fails, `AddCommit` returns that error and no
`CommitOp`, and no commit was handed to `Insert`; if `Insert` fails,
`AddCommit` returns that error and no `CommitOp`, `Insert` having been called
once; if `Insert` succeeds, the new commit is carried by the returned
`CommitOp`, and its parent is the commit the receiver holds (none for a nil
commit). In every case `AddCommit` returns, and the method run on its pointer
receiver leaves the receiver holding what it held before the call, with the
same result and world: the receiver is only read (`commit.go:56-57`), the new
commit is in the returned `CommitOp` alone. -/
theorem AddCommit_atomic_on_failure {σ ω ι : Type} (env : Env σ ω ι) (commitOp : CommitOp)
    (committer : User) (wipID : UUID) (msg : String) (w : World σ) :
    (∀ (e : Err) (s1 : σ), env.WipGet wipID w.store = (.error e, s1) →
        ∃ w1, AddCommit env commitOp committer wipID msg w = some (.error e, w1) ∧
          inserts w1.log = inserts w.log) ∧
      (∀ (wip : WorkingInProcess) (s1 : σ) (e : Err) (s2 : σ),
        env.WipGet wipID w.store = (.ok wip, s1) →
        env.UserGet wip.CreatorID s1 = (.error e, s2) →
        ∃ w1, AddCommit env commitOp committer wipID msg w = some (.error e, w1) ∧
          inserts w1.log = inserts w.log) ∧
      (∀ (wip : WorkingInProcess) (creator : User) (s1 s2 s3 s4 s5 : σ) (t1 t2 t3 : Time),
        env.WipGet wipID w.store = (.ok wip, s1) →
        env.UserGet wip.CreatorID s1 = (.ok creator, s2) →
        env.Now s2 = (t1, s3) → env.Now s3 = (t2, s4) → env.Now s4 = (t3, s5) →
        (∀ e, env.GetHash (addedCommit commitOp committer creator wip msg t1 t2 t3 []) =
            .error e →
          ∃ w1, AddCommit env commitOp committer wipID msg w = some (.error e, w1) ∧
            inserts w1.log = inserts w.log) ∧
        (∀ h, env.GetHash (addedCommit commitOp committer creator wip msg t1 t2 t3 []) =
            .ok h →
          (∀ e s6, env.Insert (addedCommit commitOp committer creator wip msg t1 t2 t3 h) s5 =
              (.error e, s6) →
            ∃ w1, AddCommit env commitOp committer wipID msg w = some (.error e, w1) ∧
              inserts w1.log = inserts w.log ++
                [addedCommit commitOp committer creator wip msg t1 t2 t3 h]) ∧
          (∀ c s6, env.Insert (addedCommit commitOp committer creator wip msg t1 t2 t3 h) s5 =
              (.ok c, s6) →
            ∃ w1, AddCommit env commitOp committer wipID msg w =
                some (.ok ⟨some (addedCommit commitOp committer creator wip msg t1 t2 t3 h)⟩,
                  w1) ∧
              (addedCommit commitOp committer creator wip msg t1 t2 t3 h).ParentHashes =
                (match commitOp.commit with
                  | none => []
                  | some head => [head.Hash])))) ∧
      (∃ r w1,
        CommitOp.AddCommit env committer wipID msg commitOp w = some (r, commitOp, w1) ∧
          AddCommit env commitOp committer wipID msg w = some (r, w1)) := by
  refine ⟨?_, ?_, ?_, CommitOp_AddCommit_receiver env committer wipID msg commitOp w⟩
  · intro e s1 hwip
    refine ⟨⟨s1, w.log ++ [⟨.WipGet wipID, some e⟩]⟩, ?_, ?_⟩
    · rw [AddCommit, call_err hwip]
    · simp [inserts_append, inserts]
  · intro wip s1 e s2 hwip huser
    refine ⟨⟨s2, w.log ++ [⟨.WipGet wipID, none⟩] ++ [⟨.UserGet wip.CreatorID, some e⟩]⟩, ?_, ?_⟩
    · rw [AddCommit, call_ok hwip, call_err (w := ⟨s1, _⟩) huser]
    · simp [inserts_append, inserts]
  · intro wip creator s1 s2 s3 s4 s5 t1 t2 t3 hwip huser hn1 hn2 hn3
    refine ⟨?_, ?_⟩
    · intro e hhash
      refine ⟨_, AddCommit_until_hash env commitOp committer wipID msg w wip creator
        s1 s2 s3 s4 s5 t1 t2 t3 e hwip huser hn1 hn2 hn3 hhash, ?_⟩
      simp [inserts_append, inserts]
    · intro h hhash
      have hrun := AddCommit_run env commitOp committer wipID msg w wip creator
        s1 s2 s3 s4 s5 t1 t2 t3 h hwip huser hn1 hn2 hn3 hhash
      refine ⟨?_, ?_⟩
      · intro e s6 hins
        rw [hins] at hrun
        refine ⟨_, hrun, ?_⟩
        simp [inserts_append, inserts, entryOf]
      · intro c s6 hins
        rw [hins] at hrun
        exact ⟨_, hrun, rfl⟩

end versionmgr

/-! ## Splitting a range on three dots -/

namespace strings

theorem splitGo_dotfree (a rest acc : List Char) (ha : ∀ c ∈ a, c ≠ '.') :
    splitGo ['.', '.', '.'] (a ++ rest) 0 acc =
      splitGo ['.', '.', '.'] rest 0 (a.reverse ++ acc) := by
  induction a generalizing acc with
  | nil => rfl
  | cons c a ih =>
    have hc : c ≠ '.' := ha c (by simp)
    have hc1 : ('.' == c) = false := by
      simp only [beq_eq_false_iff_ne, ne_eq]
      exact fun h => hc h.symm
    rw [List.cons_append, splitGo]
    simp only [List.isPrefixOf, hc1, Bool.false_and, Bool.false_eq_true, if_false]
    rw [ih (c :: acc) fun d hd => ha d (by simp [hd])]
    simp

theorem splitGo_separator (rest acc : List Char) :
    splitGo ['.', '.', '.'] ('.' :: '.' :: '.' :: rest) 0 acc =
      acc.reverse :: splitGo ['.', '.', '.'] rest 0 [] := by
  simp [splitGo, List.isPrefixOf]

theorem splitGo_two_dots (rest acc : List Char) (hrest : ∀ c ∈ rest, c ≠ '.') :
    splitGo ['.', '.', '.'] ('.' :: '.' :: rest) 0 acc =
      splitGo ['.', '.', '.'] rest 0 ('.' :: '.' :: acc) := by
  cases rest with
  | nil => simp [splitGo, List.isPrefixOf]
  | cons c rest =>
    have hc : c ≠ '.' := hrest c (by simp)
    have hc1 : ('.' == c) = false := by
      simp only [beq_eq_false_iff_ne, ne_eq]
      exact fun h => hc h.symm
    simp [splitGo, List.isPrefixOf, hc1]

theorem Split_three_dots (a b : String) (ha : ∀ c ∈ a.data, c ≠ '.')
    (hb : ∀ c ∈ b.data, c ≠ '.') : Split (a ++ "..." ++ b) "..." = [a, b] := by
  have hdata : (a ++ "..." ++ b).data = a.data ++ ('.' :: '.' :: '.' :: (b.data ++ [])) := by
    simp [String.data_append]
  have hsep : ("..." : String).data = ['.', '.', '.'] := rfl
  unfold Split
  rw [hdata, hsep, splitGo_dotfree _ _ _ ha, splitGo_separator, splitGo_dotfree _ _ _ hb]
  simp [splitGo]

theorem Split_two_dots (a b : String) (ha : ∀ c ∈ a.data, c ≠ '.')
    (hb : ∀ c ∈ b.data, c ≠ '.') : Split (a ++ ".." ++ b) "..." = [a ++ ".." ++ b] := by
  have hdata : (a ++ ".." ++ b).data = a.data ++ ('.' :: '.' :: (b.data ++ [])) := by
    simp [String.data_append]
  have hsep : ("..." : String).data = ['.', '.', '.'] := rfl
  unfold Split
  rw [hdata, hsep, splitGo_dotfree _ _ _ ha,
    splitGo_two_dots _ _ (by simpa using hb), splitGo_dotfree _ _ _ hb]
  simp only [splitGo, List.append_nil, List.map_cons, List.map_nil, List.cons.injEq, and_true]
  apply String.ext
  simp [String.data_append]

theorem Split_two_separators (a b c : String) (ha : ∀ x ∈ a.data, x ≠ '.')
    (hb : ∀ x ∈ b.data, x ≠ '.') (hc : ∀ x ∈ c.data, x ≠ '.') :
    Split (a ++ "..." ++ b ++ "..." ++ c) "..." = [a, b, c] := by
  have hdata : (a ++ "..." ++ b ++ "..." ++ c).data =
      a.data ++ ('.' :: '.' :: '.' :: (b.data ++ ('.' :: '.' :: '.' :: (c.data ++ [])))) := by
    simp [String.data_append]
  have hsep : ("..." : String).data = ['.', '.', '.'] := rfl
  unfold Split
  rw [hdata, hsep, splitGo_dotfree _ _ _ ha, splitGo_separator, splitGo_dotfree _ _ _ hb,
    splitGo_separator, splitGo_dotfree _ _ _ hc]
  simp [splitGo]

end strings

namespace hex

theorem fromHexChar_dot : fromHexChar '.' = none := by decide

theorem dotfree_of_DecodeString (s : String) (out : List (Fin 256))
    (h : DecodeString s = .ok out) : ∀ c ∈ s.data, c ≠ '.' := by
  intro c hc hdot
  have := (decode_ok s.data out h).2 c hc
  rw [hdot, fromHexChar_dot] at this
  simp at this

end hex

/-! ## The handlers -/

namespace controller

open models

theorem hbind_run {σ α β : Type} (m : Handler σ α) (f : α → Handler σ β) (w : HWorld σ) :
    (m >>= f) w = Handler.bind m f w := rfl

theorem callE_ok {σ α β : Type} {c : Call} {f : σ → Except versionmgr.Err α × σ}
    {g : α → Handler σ β} {w : HWorld σ} {a : α} {s : σ} (h : f w.store = (.ok a, s)) :
    (callE c f >>= g) w = g a ⟨s, w.log ++ [c]⟩ := by
  simp [hbind_run, Handler.bind, callE, h]

theorem callE_err {σ α β : Type} {c : Call} {f : σ → Except versionmgr.Err α × σ}
    {g : α → Handler σ β} {w : HWorld σ} {e : versionmgr.Err} {s : σ}
    (h : f w.store = (.error e, s)) :
    (callE c f >>= g) w = (.error (.Error (.repo e)), ⟨s, w.log ++ [c]⟩) := by
  simp [hbind_run, Handler.bind, callE, h]

theorem callAuth_ok {σ β : Type} {c : Call} {f : σ → Option Response × σ}
    {g : Unit → Handler σ β} {w : HWorld σ} {s : σ} (h : f w.store = (none, s)) :
    (callAuth c f >>= g) w = g () ⟨s, w.log ++ [c]⟩ := by
  simp [hbind_run, Handler.bind, callAuth, h]

theorem decodeE_ok {σ β : Type} {str : String} {g : hash.Hash → Handler σ β} {w : HWorld σ}
    {out : hash.Hash} (h : hex.DecodeString str = .ok out) :
    ((decodeE str : Handler σ hash.Hash) >>= g) w = g out w := by
  simp only [hbind_run, Handler.bind, decodeE, h]
  rfl

theorem GetCommitDiff_of_owner {σ ρ : Type} (env : Env σ ρ)
    (ownerName repositoryName basehead : String) (params : api.GetCommitDiffParams)
    (w : HWorld σ) (operator owner : User) (repository : Repository) (s1 s2 s3 : σ)
    (hop : env.GetOperator w.store = (.ok operator, s1))
    (hown : env.UserGet ownerName s1 = (.ok owner, s2))
    (hrepo : env.RepositoryGet owner.ID repositoryName s2 = (.ok repository, s3))
    (heq : operator.ID = owner.ID) :
    answer (GetCommitDiff env ownerName repositoryName basehead params) w =
      (.Forbidden, ⟨s3, w.log ++
        [.GetOperator, .UserGet ownerName, .RepositoryGet owner.ID repositoryName]⟩) := by
  unfold answer GetCommitDiff
  rw [callE_ok hop, callE_ok (w := ⟨s1, _⟩) hown, callE_ok (w := ⟨s2, _⟩) hrepo]
  simp [heq, respond]

/-- C17: `GetCommitDiff` forbids the owner. For every request of an
authenticated operator on a repository that is found, when the operator's ID
equals the ID of the owner the handler answers Forbidden after the three
lookups, whatever `basehead` and the parameters are: it parsed no range,
loaded no commit and computed no diff. Hence a run that calls `DiffCommit` is
one of an operator who is not the owner. -/
theorem GetCommitDiff_forbids_owner {σ ρ : Type} (env : Env σ ρ)
    (ownerName repositoryName basehead : String) (params : api.GetCommitDiffParams)
    (w : HWorld σ) (operator owner : User) (repository : Repository) (s1 s2 s3 : σ)
    (hop : env.GetOperator w.store = (.ok operator, s1))
    (hown : env.UserGet ownerName s1 = (.ok owner, s2))
    (hrepo : env.RepositoryGet owner.ID repositoryName s2 = (.ok repository, s3)) :
    (operator.ID = owner.ID →
        answer (GetCommitDiff env ownerName repositoryName basehead params) w =
          (.Forbidden, ⟨s3, w.log ++
            [.GetOperator, .UserGet ownerName, .RepositoryGet owner.ID repositoryName]⟩)) ∧
      (∀ (repoID : UUID) (commit : Commit) (t : hash.Hash),
        Call.DiffCommit repoID commit t ∈
          (answer (GetCommitDiff env ownerName repositoryName basehead params) w).2.log →
        Call.DiffCommit repoID commit t ∉ w.log → operator.ID ≠ owner.ID) := by
  refine ⟨GetCommitDiff_of_owner env ownerName repositoryName basehead params w operator owner
    repository s1 s2 s3 hop hown hrepo, ?_⟩
  intro repoID commit t hmem hnot heq
  rw [GetCommitDiff_of_owner env ownerName repositoryName basehead params w operator owner
    repository s1 s2 s3 hop hown hrepo heq] at hmem
  simp only [List.mem_append, List.mem_cons, List.mem_singleton, List.not_mem_nil,
    or_false] at hmem
  rcases hmem with h | h | h | h
  · exact hnot h
  · cases h
  · cases h
  · cases h

theorem GetCommitDiff_bad_range {σ ρ : Type} (env : Env σ ρ)
    (ownerName repositoryName basehead : String) (params : api.GetCommitDiffParams)
    (w : HWorld σ) (operator owner : User) (repository : Repository) (s1 s2 s3 : σ)
    (hop : env.GetOperator w.store = (.ok operator, s1))
    (hown : env.UserGet ownerName s1 = (.ok owner, s2))
    (hrepo : env.RepositoryGet owner.ID repositoryName s2 = (.ok repository, s3))
    (hne : operator.ID ≠ owner.ID) (hlen : (strings.Split basehead "...").length ≠ 2) :
    answer (GetCommitDiff env ownerName repositoryName basehead params) w =
      (.BadRequest "invalid basehead must be base...head", ⟨s3, w.log ++
        [.GetOperator, .UserGet ownerName, .RepositoryGet owner.ID repositoryName]⟩) := by
  unfold answer GetCommitDiff
  rw [callE_ok hop, callE_ok (w := ⟨s1, _⟩) hown, callE_ok (w := ⟨s2, _⟩) hrepo]
  simp only [hne, if_false]
  generalize strings.Split basehead "..." = parts at hlen
  rcases parts with _ | ⟨x, _ | ⟨y, _ | ⟨z, rest⟩⟩⟩
  · simp [respond]
  · simp [respond]
  · simp at hlen
  · simp [respond]

theorem GetCommitDiff_range {σ ρ : Type} (env : Env σ ρ)
    (ownerName repositoryName : String) (a b : String) (ha hb : hash.Hash)
    (params : api.GetCommitDiffParams)
    (w : HWorld σ) (operator owner : User) (repository : Repository) (s1 s2 s3 : σ)
    (hop : env.GetOperator w.store = (.ok operator, s1))
    (hown : env.UserGet ownerName s1 = (.ok owner, s2))
    (hrepo : env.RepositoryGet owner.ID repositoryName s2 = (.ok repository, s3))
    (hne : operator.ID ≠ owner.ID)
    (hda : hex.DecodeString a = .ok ha) (hdb : hex.DecodeString b = .ok hb) :
    (∀ e s4, env.Commit repository.ID ha s3 = (.error e, s4) →
        answer (GetCommitDiff env ownerName repositoryName (a ++ "..." ++ b) params) w =
          (.Error (.repo e), ⟨s4, w.log ++
            [.GetOperator, .UserGet ownerName, .RepositoryGet owner.ID repositoryName,
              .Commit repository.ID ha]⟩)) ∧
      (∀ base s4, env.Commit repository.ID ha s3 = (.ok base, s4) →
        (answer (GetCommitDiff env ownerName repositoryName (a ++ "..." ++ b) params) w).2.log =
          w.log ++ [.GetOperator, .UserGet ownerName, .RepositoryGet owner.ID repositoryName,
            .Commit repository.ID ha, .DiffCommit repository.ID base hb]) := by
  have hsplit : strings.Split (a ++ "..." ++ b) "..." = [a, b] :=
    strings.Split_three_dots a b (hex.dotfree_of_DecodeString a ha hda)
      (hex.dotfree_of_DecodeString b hb hdb)
  constructor
  · intro e s4 hload
    unfold answer GetCommitDiff
    rw [callE_ok hop, callE_ok (w := ⟨s1, _⟩) hown, callE_ok (w := ⟨s2, _⟩) hrepo]
    simp only [hne, if_false, hsplit]
    rw [decodeE_ok hda, decodeE_ok hdb, callE_err (w := ⟨s3, _⟩) hload]
    simp
  · intro base s4 hload
    unfold answer GetCommitDiff
    rw [callE_ok hop, callE_ok (w := ⟨s1, _⟩) hown, callE_ok (w := ⟨s2, _⟩) hrepo]
    simp only [hne, if_false, hsplit]
    rw [decodeE_ok hda, decodeE_ok hdb, callE_ok (w := ⟨s3, _⟩) hload]
    simp only []
    cases hdiff : env.DiffCommit repository.ID base hb s4 with
    | mk r s5 =>
      cases r with
      | error e =>
        rw [callE_err (w := ⟨s4, _⟩) hdiff]
        simp
      | ok changes =>
        rw [callE_ok (w := ⟨s4, _⟩) hdiff]
        cases changesResp env.ActionCode (params.Path.getD "") changes <;>
          simp [respond, pure, Handler.ret]

/-- C15: the range syntax of `GetCommitDiff`. For a request that passes the
lookups and the owner check, the handler answers BadRequest, having loaded no
commit, for every `basehead` whose split on `...` does not give exactly two
parts; in particular for every two-dot range `a..b` and every range with two
separators `a...b...c` (`a`, `b`, `c` without a dot). For `a...b` with `a` and
`b` valid hex, it loads the commit stored under the bytes of `a` as the base
and, when it is there, calls `DiffCommit` from it to the bytes of `b`. -/
theorem GetCommitDiff_range_syntax {σ ρ : Type} (env : Env σ ρ)
    (ownerName repositoryName : String) (w : HWorld σ) (operator owner : User)
    (repository : Repository) (s1 s2 s3 : σ)
    (hop : env.GetOperator w.store = (.ok operator, s1))
    (hown : env.UserGet ownerName s1 = (.ok owner, s2))
    (hrepo : env.RepositoryGet owner.ID repositoryName s2 = (.ok repository, s3))
    (hne : operator.ID ≠ owner.ID) :
    (∀ (basehead : String) (params : api.GetCommitDiffParams),
        (strings.Split basehead "...").length ≠ 2 →
        answer (GetCommitDiff env ownerName repositoryName basehead params) w =
          (.BadRequest "invalid basehead must be base...head", ⟨s3, w.log ++
            [.GetOperator, .UserGet ownerName, .RepositoryGet owner.ID repositoryName]⟩)) ∧
      (∀ (a b : String) (params : api.GetCommitDiffParams),
        (∀ c ∈ a.data, c ≠ '.') → (∀ c ∈ b.data, c ≠ '.') →
        answer (GetCommitDiff env ownerName repositoryName (a ++ ".." ++ b) params) w =
          (.BadRequest "invalid basehead must be base...head", ⟨s3, w.log ++
            [.GetOperator, .UserGet ownerName, .RepositoryGet owner.ID repositoryName]⟩)) ∧
      (∀ (a b c : String) (params : api.GetCommitDiffParams),
        (∀ x ∈ a.data, x ≠ '.') → (∀ x ∈ b.data, x ≠ '.') → (∀ x ∈ c.data, x ≠ '.') →
        answer (GetCommitDiff env ownerName repositoryName (a ++ "..." ++ b ++ "..." ++ c)
            params) w =
          (.BadRequest "invalid basehead must be base...head", ⟨s3, w.log ++
            [.GetOperator, .UserGet ownerName, .RepositoryGet owner.ID repositoryName]⟩)) ∧
      (∀ (a b : String) (ha hb : hash.Hash) (params : api.GetCommitDiffParams),
        hex.DecodeString a = .ok ha → hex.DecodeString b = .ok hb →
        (∀ e s4, env.Commit repository.ID ha s3 = (.error e, s4) →
          answer (GetCommitDiff env ownerName repositoryName (a ++ "..." ++ b) params) w =
            (.Error (.repo e), ⟨s4, w.log ++
              [.GetOperator, .UserGet ownerName, .RepositoryGet owner.ID repositoryName,
                .Commit repository.ID ha]⟩)) ∧
        (∀ base s4, env.Commit repository.ID ha s3 = (.ok base, s4) →
          (answer (GetCommitDiff env ownerName repositoryName (a ++ "..." ++ b) params) w).2.log =
            w.log ++ [.GetOperator, .UserGet ownerName, .RepositoryGet owner.ID repositoryName,
              .Commit repository.ID ha, .DiffCommit repository.ID base hb])) := by
  refine ⟨?_, ?_, ?_, ?_⟩
  · intro basehead params hlen
    exact GetCommitDiff_bad_range env ownerName repositoryName basehead params w operator owner
      repository s1 s2 s3 hop hown hrepo hne hlen
  · intro a b params ha hb
    apply GetCommitDiff_bad_range env ownerName repositoryName _ params w operator owner
      repository s1 s2 s3 hop hown hrepo hne
    rw [strings.Split_two_dots a b ha hb]
    simp
  · intro a b c params ha hb hc
    apply GetCommitDiff_bad_range env ownerName repositoryName _ params w operator owner
      repository s1 s2 s3 hop hown hrepo hne
    rw [strings.Split_two_separators a b c ha hb hc]
    simp
  · intro a b ha hb params hda hdb
    exact GetCommitDiff_range env ownerName repositoryName a b ha hb params w operator owner
      repository s1 s2 s3 hop hown hrepo hne hda hdb

/-- C16: `DeleteBranch` protects HEAD. For every repository that is found and
every authorized request, when `RefName` equals the repository's `HEAD` the
handler answers BadRequest right after the authorization: no work repository
is opened, nothing is checked out, nothing is deleted. For any other `RefName`
it opens the work repository, checks out that branch (`InBranch`, `RefName`)
and then deletes the checked out branch, answering OK; it stops with the
error of the first of these three calls that fails. -/
theorem DeleteBranch_protects_HEAD {σ ρ : Type} (env : Env σ ρ)
    (ownerName repositoryName : String) (params : api.DeleteBranchParams) (w : HWorld σ)
    (operator owner : User) (repository : Repository) (s1 s2 s3 s4 : σ)
    (hop : env.GetOperator w.store = (.ok operator, s1))
    (hown : env.UserGet ownerName s1 = (.ok owner, s2))
    (hrepo : env.RepositoryGet owner.ID repositoryName s2 = (.ok repository, s3))
    (hauth : env.AuthorizeMember repository.ID rbacmodel.DeleteBranchAction owner.ID s3 =
      (none, s4)) :
    (params.RefName = repository.HEAD →
        answer (DeleteBranch env ownerName repositoryName params) w =
          (.BadRequest "can not delete HEAD branch", ⟨s4, w.log ++
            [.GetOperator, .UserGet ownerName, .RepositoryGet owner.ID repositoryName,
              .AuthorizeMember repository.ID rbacmodel.DeleteBranchAction owner.ID]⟩)) ∧
      (params.RefName ≠ repository.HEAD →
        (∀ e s5, env.NewWorkRepositoryFromConfig operator repository s4 = (.error e, s5) →
          answer (DeleteBranch env ownerName repositoryName params) w =
            (.Error (.repo e), ⟨s5, w.log ++
              [.GetOperator, .UserGet ownerName, .RepositoryGet owner.ID repositoryName,
                .AuthorizeMember repository.ID rbacmodel.DeleteBranchAction owner.ID,
                .NewWorkRepositoryFromConfig operator repository]⟩)) ∧
        (∀ workRepo s5,
          env.NewWorkRepositoryFromConfig operator repository s4 = (.ok workRepo, s5) →
          (∀ e s6, env.CheckOut workRepo .InBranch params.RefName s5 = (.error e, s6) →
            answer (DeleteBranch env ownerName repositoryName params) w =
              (.Error (.repo e), ⟨s6, w.log ++
                [.GetOperator, .UserGet ownerName, .RepositoryGet owner.ID repositoryName,
                  .AuthorizeMember repository.ID rbacmodel.DeleteBranchAction owner.ID,
                  .NewWorkRepositoryFromConfig operator repository,
                  .CheckOut .InBranch params.RefName]⟩)) ∧
          (∀ workRepo1 s6,
            env.CheckOut workRepo .InBranch params.RefName s5 = (.ok workRepo1, s6) →
            (∀ e s7, env.DeleteBranch workRepo1 s6 = (.error e, s7) →
              answer (DeleteBranch env ownerName repositoryName params) w =
                (.Error (.repo e), ⟨s7, w.log ++
                  [.GetOperator, .UserGet ownerName, .RepositoryGet owner.ID repositoryName,
                    .AuthorizeMember repository.ID rbacmodel.DeleteBranchAction owner.ID,
                    .NewWorkRepositoryFromConfig operator repository,
                    .CheckOut .InBranch params.RefName, .DeleteBranch]⟩)) ∧
            (∀ s7, env.DeleteBranch workRepo1 s6 = (.ok (), s7) →
              answer (DeleteBranch env ownerName repositoryName params) w =
                (.OK, ⟨s7, w.log ++
                  [.GetOperator, .UserGet ownerName, .RepositoryGet owner.ID repositoryName,
                    .AuthorizeMember repository.ID rbacmodel.DeleteBranchAction owner.ID,
                    .NewWorkRepositoryFromConfig operator repository,
                    .CheckOut .InBranch params.RefName, .DeleteBranch]⟩))))) := by
  have hstart : ∀ (k : Unit → Handler σ Response),
      answer (callE .GetOperator env.GetOperator >>= fun operator =>
        callE (.UserGet ownerName) (env.UserGet ownerName) >>= fun owner =>
        callE (.RepositoryGet owner.ID repositoryName)
          (env.RepositoryGet owner.ID repositoryName) >>= fun repository =>
        callAuth (.AuthorizeMember repository.ID rbacmodel.DeleteBranchAction owner.ID)
          (env.AuthorizeMember repository.ID rbacmodel.DeleteBranchAction owner.ID) >>= k) w =
        answer (k ()) ⟨s4, w.log ++ [.GetOperator] ++ [.UserGet ownerName] ++
          [.RepositoryGet owner.ID repositoryName] ++
          [.AuthorizeMember repository.ID rbacmodel.DeleteBranchAction owner.ID]⟩ := by
    intro k
    unfold answer
    rw [callE_ok hop, callE_ok (w := ⟨s1, _⟩) hown, callE_ok (w := ⟨s2, _⟩) hrepo,
      callAuth_ok (w := ⟨s3, _⟩) hauth]
  constructor
  · intro hhead
    unfold answer DeleteBranch
    rw [callE_ok hop, callE_ok (w := ⟨s1, _⟩) hown, callE_ok (w := ⟨s2, _⟩) hrepo,
      callAuth_ok (w := ⟨s3, _⟩) hauth]
    simp [hhead, respond]
  · intro hother
    refine ⟨?_, ?_⟩
    · intro e s5 hnew
      unfold answer DeleteBranch
      rw [callE_ok hop, callE_ok (w := ⟨s1, _⟩) hown, callE_ok (w := ⟨s2, _⟩) hrepo,
        callAuth_ok (w := ⟨s3, _⟩) hauth]
      simp only [hother, if_false]
      rw [callE_err (w := ⟨s4, _⟩) hnew]
      simp
    · intro workRepo s5 hnew
      refine ⟨?_, ?_⟩
      · intro e s6 hco
        unfold answer DeleteBranch
        rw [callE_ok hop, callE_ok (w := ⟨s1, _⟩) hown, callE_ok (w := ⟨s2, _⟩) hrepo,
          callAuth_ok (w := ⟨s3, _⟩) hauth]
        simp only [hother, if_false]
        rw [callE_ok (w := ⟨s4, _⟩) hnew, callE_err (w := ⟨s5, _⟩) hco]
        simp
      · intro workRepo1 s6 hco
        refine ⟨?_, ?_⟩
        · intro e s7 hdel
          unfold answer DeleteBranch
          rw [callE_ok hop, callE_ok (w := ⟨s1, _⟩) hown, callE_ok (w := ⟨s2, _⟩) hrepo,
            callAuth_ok (w := ⟨s3, _⟩) hauth]
          simp only [hother, if_false]
          rw [callE_ok (w := ⟨s4, _⟩) hnew, callE_ok (w := ⟨s5, _⟩) hco,
            callE_err (w := ⟨s6, _⟩) hdel]
          simp
        · intro s7 hdel
          unfold answer DeleteBranch
          rw [callE_ok hop, callE_ok (w := ⟨s1, _⟩) hown, callE_ok (w := ⟨s2, _⟩) hrepo,
            callAuth_ok (w := ⟨s3, _⟩) hauth]
          simp only [hother, if_false]
          rw [callE_ok (w := ⟨s4, _⟩) hnew, callE_ok (w := ⟨s5, _⟩) hco,
            callE_ok (w := ⟨s6, _⟩) hdel]
          simp [pure, Handler.ret]

end controller

namespace models

/-- The stored form keeps the hash. -/
theorem Hash_dbForm (c : Commit) : (dbForm c).Hash = c.Hash := rfl

/-- The precision of the database is idempotent. -/
theorem dbTime_dbTime (t : Time) : dbTime (dbTime t) = dbTime t := by
  unfold dbTime
  rw [Nat.mul_div_cancel _ (by decide : 0 < 1000)]

/-- The stored form of a stored form is itself. -/
theorem dbForm_dbForm (c : Commit) : dbForm (dbForm c) = dbForm c := by
  simp [dbForm, dbTime_dbTime]

/-- C18: commit store round trip. For a commit of the repository's own id,
`Insert` succeeds and a following `Commit` of the commit's hash returns
exactly the commit `Insert` returned (so the two are equal up to database
time precision); when the hash was not stored before, what `Insert` returns
is the commit itself at database time precision, and it is the one commit
added to the store. A commit of another repository id is refused with
`ErrRepoIDMisMatch` and the store is left as it was. -/
theorem CommitRepo_Insert_Commit_roundtrip (repo : CommitRepo) (c : Commit) :
    (c.RepositoryID = repo.RepositoryID →
      ∃ stored repo1, repo.Insert c = (.ok stored, repo1) ∧
        repo1.Commit c.Hash = .ok stored ∧
        stored.Hash = c.Hash ∧
        repo1.RepositoryID = repo.RepositoryID ∧
        (repo.Commit c.Hash = .error .ErrNotFound →
          stored = dbForm c ∧ dbForm stored = dbForm c ∧
            repo1.commits = repo.commits ++ [dbForm c])) ∧
      (c.RepositoryID ≠ repo.RepositoryID →
        repo.Insert c = (.error .ErrRepoIDMisMatch, repo)) := by
  constructor
  · intro hid
    unfold CommitRepo.RepositoryID at hid
    cases hfind : repo.commits.find? (fun d => d.Hash = c.Hash) with
    | some stored =>
      refine ⟨stored, repo, ?_, ?_, ?_, rfl, ?_⟩
      · simp [CommitRepo.Insert, hid, hfind]
      · simp [CommitRepo.Commit, hfind]
      · simpa using List.find?_some hfind
      · intro hnot
        simp [CommitRepo.Commit, hfind] at hnot
    | none =>
      refine ⟨dbForm c, { repo with commits := repo.commits ++ [dbForm c] }, ?_, ?_,
        rfl, rfl, ?_⟩
      · simp [CommitRepo.Insert, hid, hfind]
      · simp [CommitRepo.Commit, List.find?_append, hfind, Hash_dbForm]
      · intro _
        exact ⟨rfl, dbForm_dbForm c, rfl⟩
  · intro hid
    unfold CommitRepo.RepositoryID at hid
    simp [CommitRepo.Insert, hid]

end models

namespace controller

open models

/-- After the WIPs of a branch and a user are filtered out, none is found. -/
theorem findWip_filter_self (st : WipStore) (refID user : UUID) :
    (st.wips.filter fun w => !(w.RefID = refID && w.CreatorID = user)).find?
      (fun w => w.RefID = refID && w.CreatorID = user) = none := by
  rw [List.find?_eq_none]
  intro x hx
  have := (List.mem_filter.1 hx).2
  simp only [Bool.not_eq_true, Bool.not_eq_eq_eq_not, Bool.not_true] at this ⊢
  exact this

/-- Filtering out the WIP of a branch and a user keeps a list that has none. -/
theorem filter_of_findWip_none (st : WipStore) (refID user : UUID)
    (hno : findWip st refID user = none) :
    (st.wips.filter fun w => !(w.RefID = refID && w.CreatorID = user)) = st.wips := by
  rw [List.filter_eq_self]
  intro x hx
  have := List.find?_eq_none.1 hno x hx
  simp only [Bool.not_eq_true, Bool.not_eq_eq_eq_not, Bool.not_true] at this ⊢
  exact this

/-- C19: WIP auto-creation. On an existing branch where the user has no WIP,
`GetWip` answers Created with a new WIP of that user and branch, based on the
branch's commit and with that commit's tree as current tree, and the new WIP
is the one WIP added; a following `GetWip` answers OK with that same WIP and
changes nothing; `DeleteWip` then answers OK and removes it, after which
`GetWip` answers Created again; and `DeleteWip` while there is no WIP answers
NotFound and changes nothing. -/
theorem GetWip_auto_creation (st : WipStore) (user : UUID) (refName : String) (br : Branch)
    (hbr : findBranch st refName = some br) (hno : findWip st br.ID user = none) :
    ∃ w st1, GetWip st user refName = (StatusCreated, some w, st1) ∧
      st1.wips = st.wips ++ [w] ∧
      w.CreatorID = user ∧ w.RefID = br.ID ∧ w.BaseCommit = br.CommitHash ∧
      w.CurrentTree = treeOfCommit st br.CommitHash ∧
      GetWip st1 user refName = (StatusOK, some w, st1) ∧
      (∃ st2, DeleteWip st1 user refName = (StatusOK, st2) ∧
        st2.wips = st.wips ∧ findWip st2 br.ID user = none ∧
        ∃ w2 st3, GetWip st2 user refName = (StatusCreated, some w2, st3) ∧
          st3.wips = st.wips ++ [w2]) ∧
      DeleteWip st user refName = (StatusNotFound, st) := by
  have hfind1 : ∀ w : WorkingInProcess, w.RefID = br.ID → w.CreatorID = user →
      (st.wips ++ [w]).find? (fun w => w.RefID = br.ID && w.CreatorID = user) = some w := by
    intro w h1 h2
    unfold findWip at hno
    rw [List.find?_append, hno]
    simp [h1, h2]
  have hfilter : ∀ w : WorkingInProcess, w.RefID = br.ID → w.CreatorID = user →
      (st.wips ++ [w]).filter (fun w => !(w.RefID = br.ID && w.CreatorID = user)) =
        st.wips := by
    intro w h1 h2
    rw [List.filter_append, filter_of_findWip_none st br.ID user hno]
    simp [h1, h2]
  have hw := hfind1
    ⟨st.nextID, user, br.CommitHash, treeOfCommit st br.CommitHash, st.clock, br.ID⟩ rfl rfl
  have hf := hfilter
    ⟨st.nextID, user, br.CommitHash, treeOfCommit st br.CommitHash, st.clock, br.ID⟩ rfl rfl
  refine ⟨⟨st.nextID, user, br.CommitHash, treeOfCommit st br.CommitHash, st.clock, br.ID⟩,
    ⟨st.branches, st.commits,
      st.wips ++ [⟨st.nextID, user, br.CommitHash, treeOfCommit st br.CommitHash, st.clock,
        br.ID⟩], st.nextID + 1, st.clock + 1⟩,
    by simp only [GetWip, hbr, hno], rfl, rfl, rfl, rfl, rfl, ?_, ?_, ?_⟩
  · simp only [GetWip, findBranch, findWip] at hbr ⊢
    rw [hbr]
    simp only [hw]
  · refine ⟨⟨st.branches, st.commits, st.wips, st.nextID + 1, st.clock + 1⟩, ?_, rfl, hno, ?_⟩
    · simp only [DeleteWip, findBranch, findWip] at hbr ⊢
      rw [hbr]
      simp only [hw, hf]
    · refine ⟨⟨st.nextID + 1, user, br.CommitHash, treeOfCommit st br.CommitHash,
        st.clock + 1, br.ID⟩,
        ⟨st.branches, st.commits,
          st.wips ++ [⟨st.nextID + 1, user, br.CommitHash, treeOfCommit st br.CommitHash,
            st.clock + 1, br.ID⟩], st.nextID + 1 + 1, st.clock + 1 + 1⟩, ?_, rfl⟩
      simp only [GetWip, findBranch, findWip, treeOfCommit] at hbr hno ⊢
      rw [hbr]
      simp only [hno]
  · simp only [DeleteWip, hbr, hno]

end controller

/-! ## Hashes, handlers and stores on the in-memory instance -/

namespace memory

open models versionmgr

/-- Witness of C11: on `world0`, `DiffCommit` from `c0` to the hash of `cA`
gives the diff from the tree of `c0` to the tree of `cA`, and to a hash that
is not stored gives `NotFound`; the merge of `cB` into `cA`, whose single
merge base is `c0`, returns the commit `mergedAB` and computes the diffs from
the tree of `c0` to the tree of `cA` and from the tree of `c0` to the tree of
`cB`. -/
theorem DiffCommit_direction_witness :
    DiffCommit env c0 cA.Hash world0 =
        some (.ok [⟨"src/a.txt", none, some ⟨"src/a.txt", [2]⟩⟩], ⟨store0,
          [⟨.NewWorkTree c0.TreeHash, none⟩, ⟨.Commit cA.Hash, none⟩,
            ⟨.Diff c0.TreeHash cA.TreeHash, none⟩]⟩) ∧
      DiffCommit env c0 [9, 9] world0 =
        some (.error .NotFound,
          ⟨store0, [⟨.NewWorkTree c0.TreeHash, none⟩, ⟨.Commit [9, 9], some .NotFound⟩]⟩) ∧
      diffs worldAB.log = [(c0.TreeHash, cA.TreeHash), (c0.TreeHash, cB.TreeHash)] ∧
      Merge env 3 cA bob cB.Hash "m" declineAll world0 = some (.ok mergedAB, worldAB) ∧
      ∃ r w1, Merge env 3 cA bob cB.Hash "m" declineAll world0 = some (r, w1) ∧
        diffs w1.log = [(c0.TreeHash, cA.TreeHash), (c0.TreeHash, cB.TreeHash)] :=
  ⟨(((DiffCommit_direction env).1 c0 cA.Hash world0 tRoot store0 (by decide!)).1 cA store0
      (by decide!)).trans (by decide!),
    (((DiffCommit_direction env).1 c0 [9, 9] world0 tRoot store0 (by decide!)).2 .NotFound
      store0 (by decide!)).trans (by decide!),
    (DiffCommit_direction env).2.1 2 cA bob cB.Hash "m" declineAll world0 cB c0 cA cB
      store0 store0 store0 store0 store0 store0 store0 store0 store0 store0 tRoot tRoot
      [⟨"src/a.txt", none, some ⟨"src/a.txt", [2]⟩⟩]
      [⟨"src/b.txt", none, some ⟨"src/b.txt", [3]⟩⟩] (.ok mergedAB) worldAB
      (by decide!) (by decide!) (by decide!) (by decide!)
      (by decide!) (by decide!) (by decide!) (by decide!) (by decide!) (by decide!)
      (by decide!),
    by decide!,
    (DiffCommit_direction env).2.2 2 cA bob cB.Hash "m" declineAll world0 cB c0 cA cB
      store0 store0 store0 store0 store0 store0 store0 store0 store0 store0 tRoot tRoot
      [⟨"src/a.txt", none, some ⟨"src/a.txt", [2]⟩⟩]
      [⟨"src/b.txt", none, some ⟨"src/b.txt", [3]⟩⟩]
      (by decide!) (by decide!) (by decide!) (by decide!)
      (by decide!) (by decide!) (by decide!) (by decide!) (by decide!) (by decide!)
      (by
        intro wt3 s11 h
        have h0 : env.NewWorkTree c0.TreeHash store0 = (.ok tRoot, store0) := by decide!
        rw [h0] at h
        simp only [Prod.mk.injEq, Except.ok.injEq] at h
        obtain ⟨h1, h2⟩ := h
        subst h1 h2
        decide!)⟩

/-- Witness of C14: a receiver holding one byte is left as it was, with an
error, by the one-byte input, by `00"` without the opening quote, by `"00`
without the closing quote, by `"0"` of odd length and by `"zz"`. -/
theorem UnmarshalJSON_rejects_malformed_witness :
    (∃ err, hash.Hash.UnmarshalJSON [1] [34] = (some err, [1])) ∧
      (∃ err, hash.Hash.UnmarshalJSON [1] [48, 48, 34] = (some err, [1])) ∧
      (∃ err, hash.Hash.UnmarshalJSON [1] [34, 48, 48] = (some err, [1])) ∧
      (∃ err, hash.Hash.UnmarshalJSON [1] [34, 48, 34] = (some err, [1])) ∧
      (∃ err, hash.Hash.UnmarshalJSON [1] [34, 122, 122, 34] = (some err, [1])) :=
  ⟨hash.UnmarshalJSON_rejects_malformed [1] [34] (Or.inl (by decide)),
    hash.UnmarshalJSON_rejects_malformed [1] [48, 48, 34] (Or.inr (Or.inl (by decide))),
    hash.UnmarshalJSON_rejects_malformed [1] [34, 48, 48] (Or.inr (Or.inr (Or.inl (by decide)))),
    hash.UnmarshalJSON_rejects_malformed [1] [34, 48, 34]
      (Or.inr (Or.inr (Or.inr (by decide)))),
    hash.UnmarshalJSON_rejects_malformed [1] [34, 122, 122, 34]
      (Or.inr (Or.inr (Or.inr (by decide!))))⟩

/-- Witness of C18: `cA10` is a commit of repository 10: the empty commit
repository of repository 10 stores it at database precision and gives it back
under its hash; `cA`, a commit of repository 0, is refused. -/
theorem CommitRepo_Insert_Commit_roundtrip_witness :
    (∃ stored repo1, commitRepo0.Insert cA10 = (.ok stored, repo1) ∧
        repo1.Commit cA10.Hash = .ok stored ∧ stored.Hash = cA10.Hash ∧
        repo1.RepositoryID = commitRepo0.RepositoryID ∧
        (commitRepo0.Commit cA10.Hash = .error .ErrNotFound →
          stored = dbForm cA10 ∧ dbForm stored = dbForm cA10 ∧
            repo1.commits = commitRepo0.commits ++ [dbForm cA10])) ∧
      commitRepo0.Insert cA = (.error .ErrRepoIDMisMatch, commitRepo0) ∧
      dbForm cA10 ≠ cA10 :=
  ⟨(CommitRepo_Insert_Commit_roundtrip commitRepo0 cA10).1 (by decide),
    (CommitRepo_Insert_Commit_roundtrip commitRepo0 cA).2 (by decide), by decide!⟩

/-- Witness of C19: `bob` has no WIP on the branch `main` of `wipStore0`. -/
theorem GetWip_auto_creation_witness :
    controller.findBranch wipStore0 "main" = some branchMain ∧
      controller.findWip wipStore0 branchMain.ID 2 = none ∧
      (controller.GetWip wipStore0 2 "main").1 = controller.StatusCreated ∧
      (controller.GetWip (controller.GetWip wipStore0 2 "main").2.2 2 "main").1 =
        controller.StatusOK ∧
      ∃ w st1, controller.GetWip wipStore0 2 "main" = (controller.StatusCreated, some w, st1) ∧
        st1.wips = wipStore0.wips ++ [w] ∧
        w.CreatorID = 2 ∧ w.RefID = branchMain.ID ∧ w.BaseCommit = branchMain.CommitHash ∧
        w.CurrentTree = controller.treeOfCommit wipStore0 branchMain.CommitHash ∧
        controller.GetWip st1 2 "main" = (controller.StatusOK, some w, st1) ∧
        (∃ st2, controller.DeleteWip st1 2 "main" = (controller.StatusOK, st2) ∧
          st2.wips = wipStore0.wips ∧ controller.findWip st2 branchMain.ID 2 = none ∧
          ∃ w2 st3, controller.GetWip st2 2 "main" = (controller.StatusCreated, some w2, st3) ∧
            st3.wips = wipStore0.wips ++ [w2]) ∧
        controller.DeleteWip wipStore0 2 "main" = (controller.StatusNotFound, wipStore0) :=
  ⟨by decide!, by decide!, by decide!, by decide!,
    controller.GetWip_auto_creation wipStore0 2 "main" branchMain (by decide!) (by decide!)⟩

/-- Witness of C20: on `world0` there is no WIP 99; on `worldOrphan` the
creator of WIP 9 is not a user; with a failing `GetHash` and with a failing
`Insert` the commit of WIP 7 is not written; in each case `AddCommit` returns
the error. With `env` the commit `addedA` is returned, its parent `c0`. In
the run on the pointer receiver, the receiver holds `c0` after the call as
before, whether `Insert` succeeds or fails. -/
theorem AddCommit_atomic_on_failure_witness :
    (∃ w1, AddCommit env ⟨some c0⟩ bob 99 "second" world0 = some (.error .NotFound, w1) ∧
        inserts w1.log = inserts world0.log) ∧
      (∃ w1, AddCommit env ⟨some c0⟩ bob 9 "second" worldOrphan = some (.error .NotFound, w1) ∧
        inserts w1.log = inserts worldOrphan.log) ∧
      (∃ w1, AddCommit envHashFails ⟨some c0⟩ bob 7 "second" world0 =
          some (.error (.errorf "hash"), w1) ∧
        inserts w1.log = inserts world0.log) ∧
      (∃ w1, AddCommit envInsertFails ⟨some c0⟩ bob 7 "second" world0 =
          some (.error (.Internal 500), w1) ∧
        inserts w1.log = inserts world0.log ++ [addedA]) ∧
      (∃ w1, AddCommit env ⟨some c0⟩ bob 7 "second" world0 = some (.ok ⟨some addedA⟩, w1) ∧
        addedA.ParentHashes = [c0.Hash]) ∧
      (∃ r w1, CommitOp.AddCommit env bob 7 "second" ⟨some c0⟩ world0 =
          some (r, ⟨some c0⟩, w1) ∧
        AddCommit env ⟨some c0⟩ bob 7 "second" world0 = some (r, w1)) ∧
      CommitOp.AddCommit env bob 7 "second" ⟨some c0⟩ world0 =
        some (.ok ⟨some addedA⟩, ⟨some c0⟩, worldAdded) ∧
      (∃ w1, CommitOp.AddCommit envInsertFails bob 7 "second" ⟨some c0⟩ world0 =
        some (.error (.Internal 500), ⟨some c0⟩, w1)) :=
  ⟨(AddCommit_atomic_on_failure env ⟨some c0⟩ bob 99 "second" world0).1 .NotFound store0
      (by decide!),
    (AddCommit_atomic_on_failure env ⟨some c0⟩ bob 9 "second" worldOrphan).2.1 wipOrphan
      worldOrphan.store .NotFound worldOrphan.store (by decide!) (by decide!),
    ((AddCommit_atomic_on_failure envHashFails ⟨some c0⟩ bob 7 "second" world0).2.2.1 wipA alice
      store0 store0 { store0 with clock := 101 } { store0 with clock := 102 }
      { store0 with clock := 103 } 100 101 102
      (by decide!) (by decide!) (by decide!) (by decide!) (by decide!)).1 (.errorf "hash")
      (by decide!),
    (((AddCommit_atomic_on_failure envInsertFails ⟨some c0⟩ bob 7 "second" world0).2.2.1 wipA alice
      store0 store0 { store0 with clock := 101 } { store0 with clock := 102 }
      { store0 with clock := 103 } 100 101 102
      (by decide!) (by decide!) (by decide!) (by decide!) (by decide!)).2 addedA.Hash
      (by decide!)).1 (.Internal 500) { store0 with clock := 103 } (by decide!),
    (((AddCommit_atomic_on_failure env ⟨some c0⟩ bob 7 "second" world0).2.2.1 wipA alice
      store0 store0 { store0 with clock := 101 } { store0 with clock := 102 }
      { store0 with clock := 103 } 100 101 102
      (by decide!) (by decide!) (by decide!) (by decide!) (by decide!)).2 addedA.Hash
      (by decide!)).2 addedA worldAdded.store (by decide!),
    (AddCommit_atomic_on_failure env ⟨some c0⟩ bob 7 "second" world0).2.2.2,
    by decide!,
    (AddCommit_atomic_on_failure envInsertFails ⟨some c0⟩ bob 7 "second" world0).2.2.2.elim
      fun r h => h.elim fun w1 h1 =>
        ⟨w1, h1.1.trans (by
          have h2 := ((((AddCommit_atomic_on_failure envInsertFails ⟨some c0⟩ bob 7 "second"
            world0).2.2.1 wipA alice store0 store0 { store0 with clock := 101 }
            { store0 with clock := 102 } { store0 with clock := 103 } 100 101 102
            (by decide!) (by decide!) (by decide!) (by decide!) (by decide!)).2 addedA.Hash
            (by decide!)).1 (.Internal 500) { store0 with clock := 103 } (by decide!))
          obtain ⟨w2, hw2, _⟩ := h2
          rw [hw2] at h1
          have := h1.2
          simp only [Option.some.injEq, Prod.mk.injEq] at this
          rw [← this.1, ← this.2])⟩⟩

/-- Witness of C15: `bob` asks for diffs in the repository `mlops` of `alice`.
The ranges `d032..ca74` and `d032...ca74...cb75` are answered BadRequest;
`d032...ca74` loads `c0` and diffs it to the hash of `cA`, answering the one
added file; `0909...ca74` finds no base commit. -/
theorem GetCommitDiff_range_syntax_witness :
    controller.answer (controller.GetCommitDiff ctlEnv "alice" "mlops" "d032..ca74" ⟨none⟩)
        ⟨ctlStore bob, []⟩ =
        (.BadRequest "invalid basehead must be base...head", ⟨ctlStore bob,
          [.GetOperator, .UserGet "alice", .RepositoryGet 1 "mlops"]⟩) ∧
      controller.answer
          (controller.GetCommitDiff ctlEnv "alice" "mlops" "d032...ca74...cb75" ⟨none⟩)
          ⟨ctlStore bob, []⟩ =
        (.BadRequest "invalid basehead must be base...head", ⟨ctlStore bob,
          [.GetOperator, .UserGet "alice", .RepositoryGet 1 "mlops"]⟩) ∧
      controller.answer (controller.GetCommitDiff ctlEnv "alice" "mlops" "0909...ca74" ⟨none⟩)
          ⟨ctlStore bob, []⟩ =
        (.Error (.repo .NotFound), ⟨ctlStore bob,
          [.GetOperator, .UserGet "alice", .RepositoryGet 1 "mlops", .Commit 10 [9, 9]]⟩) ∧
      (controller.answer
          (controller.GetCommitDiff ctlEnv "alice" "mlops" ("d032" ++ "..." ++ "ca74") ⟨none⟩)
          ⟨ctlStore bob, []⟩).2.log =
        [.GetOperator, .UserGet "alice", .RepositoryGet 1 "mlops", .Commit 10 c0.Hash,
          .DiffCommit 10 c0 cA.Hash] ∧
      (controller.answer (controller.GetCommitDiff ctlEnv "alice" "mlops" "d032...ca74" ⟨none⟩)
          ⟨ctlStore bob, []⟩).1 =
        .JSON [⟨1, "src/a.txt", none, some "02"⟩] :=
  ⟨(controller.GetCommitDiff_range_syntax ctlEnv "alice" "mlops" ⟨ctlStore bob, []⟩ bob alice
      repoA (ctlStore bob) (ctlStore bob) (ctlStore bob) (by decide!) (by decide!) (by decide!)
      (by decide)).1 "d032..ca74" ⟨none⟩ (by decide!),
    (controller.GetCommitDiff_range_syntax ctlEnv "alice" "mlops" ⟨ctlStore bob, []⟩ bob alice
      repoA (ctlStore bob) (ctlStore bob) (ctlStore bob) (by decide!) (by decide!) (by decide!)
      (by decide)).2.2.1 "d032" "ca74" "cb75" ⟨none⟩ (by decide) (by decide) (by decide),
    ((controller.GetCommitDiff_range_syntax ctlEnv "alice" "mlops" ⟨ctlStore bob, []⟩ bob alice
      repoA (ctlStore bob) (ctlStore bob) (ctlStore bob) (by decide!) (by decide!) (by decide!)
      (by decide)).2.2.2 "0909" "ca74" [9, 9] cA.Hash ⟨none⟩ (by decide!) (by decide!)).1
      .NotFound (ctlStore bob) (by decide!),
    ((controller.GetCommitDiff_range_syntax ctlEnv "alice" "mlops" ⟨ctlStore bob, []⟩ bob alice
      repoA (ctlStore bob) (ctlStore bob) (ctlStore bob) (by decide!) (by decide!) (by decide!)
      (by decide)).2.2.2 "d032" "ca74" c0.Hash cA.Hash ⟨none⟩ (by decide!) (by decide!)).2
      c0 (ctlStore bob) (by decide!),
    by decide!⟩

/-- Witness of C17: `alice` asks for diffs in her own repository `mlops`. -/
theorem GetCommitDiff_forbids_owner_witness :
    controller.answer (controller.GetCommitDiff ctlEnv "alice" "mlops" "d032...ca74" ⟨none⟩)
        ⟨ctlStore alice, []⟩ =
        (.Forbidden, ⟨ctlStore alice,
          [.GetOperator, .UserGet "alice", .RepositoryGet 1 "mlops"]⟩) ∧
      (controller.answer (controller.GetCommitDiff ctlEnv "alice" "mlops" "d032...ca74" ⟨none⟩)
          ⟨ctlStore bob, []⟩).1 =
        .JSON [⟨1, "src/a.txt", none, some "02"⟩] ∧
      bob.ID ≠ alice.ID :=
  ⟨(controller.GetCommitDiff_forbids_owner ctlEnv "alice" "mlops" "d032...ca74" ⟨none⟩
      ⟨ctlStore alice, []⟩ alice alice repoA (ctlStore alice) (ctlStore alice) (ctlStore alice)
      (by decide!) (by decide!) (by decide!)).1 rfl,
    by decide!,
    (controller.GetCommitDiff_forbids_owner ctlEnv "alice" "mlops" "d032...ca74" ⟨none⟩
      ⟨ctlStore bob, []⟩ bob alice repoA (ctlStore bob) (ctlStore bob) (ctlStore bob)
      (by decide!) (by decide!) (by decide!)).2 10 c0 cA.Hash (by decide!) (by decide)⟩

/-- Witness of C16: `alice` deletes branches of her repository `mlops`, whose
HEAD is `main`: `main` is refused, `feat` is checked out and deleted. -/
theorem DeleteBranch_protects_HEAD_witness :
    controller.answer (controller.DeleteBranch ctlEnv "alice" "mlops" ⟨"main"⟩)
        ⟨ctlStore alice, []⟩ =
        (.BadRequest "can not delete HEAD branch", ⟨ctlStore alice,
          [.GetOperator, .UserGet "alice", .RepositoryGet 1 "mlops",
            .AuthorizeMember 10 "repo:DeleteBranch" 1]⟩) ∧
      controller.answer (controller.DeleteBranch ctlEnv "alice" "mlops" ⟨"feat"⟩)
        ⟨ctlStore alice, []⟩ =
        (.OK, ⟨{ ctlStore alice with branches := [(10, "main")] },
          [.GetOperator, .UserGet "alice", .RepositoryGet 1 "mlops",
            .AuthorizeMember 10 "repo:DeleteBranch" 1,
            .NewWorkRepositoryFromConfig alice repoA, .CheckOut .InBranch "feat",
            .DeleteBranch]⟩) ∧
      controller.answer (controller.DeleteBranch ctlEnv "alice" "mlops" ⟨"gone"⟩)
        ⟨ctlStore alice, []⟩ =
        (.Error (.repo .NotFound), ⟨ctlStore alice,
          [.GetOperator, .UserGet "alice", .RepositoryGet 1 "mlops",
            .AuthorizeMember 10 "repo:DeleteBranch" 1,
            .NewWorkRepositoryFromConfig alice repoA, .CheckOut .InBranch "gone"]⟩) :=
  ⟨(controller.DeleteBranch_protects_HEAD ctlEnv "alice" "mlops" ⟨"main"⟩ ⟨ctlStore alice, []⟩
      alice alice repoA (ctlStore alice) (ctlStore alice) (ctlStore alice) (ctlStore alice)
      (by decide!) (by decide!) (by decide!) (by decide!)).1 (by decide),
    ((((controller.DeleteBranch_protects_HEAD ctlEnv "alice" "mlops" ⟨"feat"⟩
      ⟨ctlStore alice, []⟩ alice alice repoA (ctlStore alice) (ctlStore alice) (ctlStore alice)
      (ctlStore alice) (by decide!) (by decide!) (by decide!) (by decide!)).2 (by decide)).2
      (10, none) (ctlStore alice) (by decide!)).2 (10, some "feat") (ctlStore alice)
      (by decide!)).2 { ctlStore alice with branches := [(10, "main")] } (by decide!),
    ((((controller.DeleteBranch_protects_HEAD ctlEnv "alice" "mlops" ⟨"gone"⟩
      ⟨ctlStore alice, []⟩ alice alice repoA (ctlStore alice) (ctlStore alice) (ctlStore alice)
      (ctlStore alice) (by decide!) (by decide!) (by decide!) (by decide!)).2 (by decide)).2
      (10, none) (ctlStore alice) (by decide!)).1 .NotFound (ctlStore alice) (by decide!))⟩

end memory

/-! ## Lists of hashes in hexadecimal -/

namespace hex

theorem mem_hexDigits_of_fromHexChar (c : Char) (h : (fromHexChar c).isSome = true) :
    c ∈ hexDigits := by
  have hc : c = Char.ofNat c.toNat := (Char.ofNat_toNat c).symm
  unfold fromHexChar at h
  generalize c.toNat = n at h hc
  subst hc
  split at h
  · rename_i hr
    obtain ⟨h1, h2⟩ := hr
    interval_cases n <;> decide
  · split at h
    · rename_i hr
      obtain ⟨h1, h2⟩ := hr
      interval_cases n <;> decide
    · split at h
      · rename_i hr
        obtain ⟨h1, h2⟩ := hr
        interval_cases n <;> decide
      · simp at h

theorem DecodeString_error_of_invalid (s : String)
    (hbad : ¬ (s.length % 2 = 0 ∧ ∀ c ∈ s.data, c ∈ hexDigits)) :
    ∃ err, DecodeString s = .error err := by
  cases hd : DecodeString s with
  | error err => exact ⟨err, rfl⟩
  | ok out =>
    exfalso
    apply hbad
    have := decode_ok s.data out hd
    exact ⟨this.1, fun c hc => mem_hexDigits_of_fromHexChar c (this.2 c hc)⟩

end hex

namespace gohex

theorem DecodeString_rejects_invalid (s : String)
    (hbad : ¬ (s.length % 2 = 0 ∧ ∀ c ∈ s.data, c ∈ hex.hexDigits)) :
    ∃ err, DecodeString s = .error err := by
  cases hd : DecodeString s with
  | error err => exact ⟨err, rfl⟩
  | ok out =>
    obtain ⟨err, herr⟩ := hex.DecodeString_error_of_invalid s hbad
    rw [(DecodeString_eq_ok s out).1 hd] at herr
    cases herr

end gohex

namespace hash

theorem HashesOfHexArray_map_Hex (hs : List Hash) :
    HashesOfHexArray (hs.map Hash.Hex) = .ok hs := by
  induction hs with
  | nil => rfl
  | cons h rest ih =>
    simp only [List.map_cons, HashesOfHexArray, Hash.Hex, gohex.DecodeString_EncodeToString]
    simp only [Hash.Hex] at ih
    rw [ih]

theorem HashesOfHexArray_error (strs : List String) (s : String) (hs : s ∈ strs)
    (hbad : ∃ err, gohex.DecodeString s = .error err) :
    ∃ err, HashesOfHexArray strs = .error err := by
  induction strs with
  | nil => simp at hs
  | cons x rest ih =>
    simp only [HashesOfHexArray]
    cases hx : gohex.DecodeString x with
    | error e => exact ⟨e, rfl⟩
    | ok out =>
      rcases List.mem_cons.1 hs with h | h
      · subst h
        obtain ⟨err, herr⟩ := hbad
        rw [hx] at herr
        cases herr
      · obtain ⟨err, herr⟩ := ih h
        exact ⟨err, by simp [herr]⟩

theorem HashesOfHexArray_ok (strs : List String) (out : List Hash)
    (h : HashesOfHexArray strs = .ok out) :
    out.length = strs.length ∧
      ∀ (i : Nat) (s : String), strs[i]? = some s →
        ∃ b, gohex.DecodeString s = .ok b ∧ out[i]? = some b := by
  induction strs generalizing out with
  | nil =>
    simp only [HashesOfHexArray, Except.ok.injEq] at h
    subst h
    simp
  | cons x rest ih =>
    simp only [HashesOfHexArray] at h
    cases hx : gohex.DecodeString x with
    | error e => simp [hx] at h
    | ok b =>
      cases hr : HashesOfHexArray rest with
      | error e => simp [hx, hr] at h
      | ok bs =>
        simp only [hx, hr, Except.ok.injEq] at h
        subst h
        obtain ⟨hl, hi⟩ := ih bs hr
        refine ⟨by simp [hl], ?_⟩
        intro i s hs
        cases i with
        | zero =>
          simp only [List.getElem?_cons_zero, Option.some.injEq] at hs
          subst hs
          exact ⟨b, hx, by simp⟩
        | succ j =>
          simp only [List.getElem?_cons_succ] at hs ⊢
          exact hi j s hs

/-- C22: the hex-array round trip. For every list `hs` of hashes,
`HexArrayOfHashes` returns a list of the same length whose element `i` is
`hs[i].Hex()`, and `HashesOfHexArray` of that list succeeds and returns `hs`
itself. Whenever `HashesOfHexArray` succeeds, its result has the length of
the input and element `i` is the decoding of string `i`; and for an input
holding a string that is not an even-length string of hexadecimal digits it
returns an error, hence no list. -/
theorem HexArray_roundtrip (hs : List Hash) :
    (HexArrayOfHashes hs).length = hs.length ∧
      (∀ (i : Nat) (h : Hash), hs[i]? = some h →
        (HexArrayOfHashes hs)[i]? = some (Hash.Hex h)) ∧
      HashesOfHexArray (HexArrayOfHashes hs) = .ok hs ∧
      (∀ (strs : List String) (out : List Hash), HashesOfHexArray strs = .ok out →
        out.length = strs.length ∧
          ∀ (i : Nat) (s : String), strs[i]? = some s →
            ∃ b, gohex.DecodeString s = .ok b ∧ out[i]? = some b) ∧
      (∀ (strs : List String) (s : String), s ∈ strs →
        ¬ (s.length % 2 = 0 ∧ ∀ c ∈ s.data, c ∈ hex.hexDigits) →
        ∃ err, HashesOfHexArray strs = .error err) := by
  refine ⟨by simp [HexArrayOfHashes], ?_, HashesOfHexArray_map_Hex hs, HashesOfHexArray_ok, ?_⟩
  · intro i h hi
    simp [HexArrayOfHashes, List.getElem?_map, hi]
  · intro strs s hs hbad
    exact HashesOfHexArray_error strs s hs (gohex.DecodeString_rejects_invalid s hbad)

end hash

/-! ## The path filter of GetCommitDiff -/

namespace controller

open models

theorem HasPrefix_empty (s : String) : strings.HasPrefix s "" = true := by
  simp [strings.HasPrefix]

theorem changesResp_filter (actionCode : versionmgr.Action → Int) (path : String)
    (changes : versionmgr.Changes) (hwf : ∀ c ∈ changes, ∃ a, c.Action = .ok a) :
    ∃ resp, changesResp actionCode path changes = .ok resp ∧
      List.Forall₂
        (fun (r : api.Change) (c : versionmgr.Change) =>
          r.Path = c.Path ∧ c.Action.map actionCode = .ok r.Action ∧
            r.BaseHash = c.From.map (fun e => hex.EncodeToString e.Hash) ∧
            r.ToHash = c.To.map (fun e => hex.EncodeToString e.Hash))
        resp (changes.filter fun c => strings.HasPrefix c.Path path) := by
  induction changes with
  | nil => exact ⟨[], rfl, List.Forall₂.nil⟩
  | cons c rest ih =>
    obtain ⟨a, ha⟩ := hwf c (List.mem_cons_self _ _)
    obtain ⟨out, hout, hrel⟩ := ih fun d hd => hwf d (List.mem_cons_of_mem _ hd)
    simp only [changesResp, ha, hout]
    by_cases hp : strings.HasPrefix c.Path path = true
    · have hf : (c :: rest).filter (fun c => strings.HasPrefix c.Path path) =
          c :: rest.filter fun c => strings.HasPrefix c.Path path := by
        simp [List.filter_cons, hp]
      rw [hf]
      simp only [hp, if_true]
      exact ⟨_, rfl, List.Forall₂.cons ⟨rfl, by simp [ha, Except.map], rfl, rfl⟩ hrel⟩
    · have hf : (c :: rest).filter (fun c => strings.HasPrefix c.Path path) =
          rest.filter fun c => strings.HasPrefix c.Path path := by
        simp [List.filter_cons, hp]
      rw [hf]
      simp only [hp]
      exact ⟨out, by simp, hrel⟩

theorem changesResp_error (actionCode : versionmgr.Action → Int) (path : String)
    (changes : versionmgr.Changes) (c : versionmgr.Change) (hc : c ∈ changes)
    (hbad : ∀ a, c.Action ≠ .ok a) :
    ∃ err, changesResp actionCode path changes = .error err := by
  induction changes with
  | nil => simp at hc
  | cons d rest ih =>
    simp only [changesResp]
    cases hd : d.Action with
    | error e => exact ⟨e, rfl⟩
    | ok a =>
      rcases List.mem_cons.1 hc with h | h
      · subst h
        exact absurd hd (hbad a)
      · obtain ⟨err, herr⟩ := ih h
        exact ⟨err, by simp [herr]⟩

theorem pairwise_of_forall2 {α β : Type} (R : α → β → Prop) (P : α → α → Prop) (Q : β → β → Prop)
    (hPQ : ∀ a a1 b b1, R a b → R a1 b1 → Q b b1 → P a a1) :
    ∀ (l : List α) (m : List β), List.Forall₂ R l m → m.Pairwise Q → l.Pairwise P
  | _, _, .nil, _ => List.Pairwise.nil
  | _, _, @List.Forall₂.cons _ _ _ a b l m hab hrest, hm => by
    rw [List.pairwise_cons] at hm ⊢
    refine ⟨?_, pairwise_of_forall2 R P Q hPQ l m hrest hm.2⟩
    intro a1 ha1
    obtain ⟨b1, hb1, hr⟩ : ∃ b1, b1 ∈ m ∧ R a1 b1 := by
      clear hm
      induction hrest with
      | nil => simp at ha1
      | cons hxy _ ih =>
        rcases List.mem_cons.1 ha1 with h | h
        · subst h
          exact ⟨_, List.mem_cons_self _ _, hxy⟩
        · obtain ⟨b1, hb1, hr⟩ := ih h
          exact ⟨b1, List.mem_cons_of_mem _ hb1, hr⟩
    exact hPQ a a1 b b1 hab hr (hm.1 b1 hb1)

/-- C21: the path filter of `GetCommitDiff`. For a request that reaches the
diff (lookups done, operator not the owner, `basehead` split in two parts that
decode, base commit loaded) and a change stream `changes` returned by
`DiffCommit`, each change of which has an action: the handler answers the JSON
of a list that matches, entry by entry and in the stream's order, the changes
whose path has the path parameter as a prefix (the empty string when the
parameter is absent); an entry carries the path of its change, the code of its
action, the hex of the hash of its from-entry as base hash exactly when the
change has a from-entry, and the hex of the hash of its to-entry as to hash
exactly when it has a to-entry. With the parameter absent or empty every
change is answered. For every relation on paths that holds pairwise along the
stream (a strict order in particular), it holds pairwise along the response.
When a change of the stream has no action, the handler answers an error. -/
theorem GetCommitDiff_path_filter {σ ρ : Type} (env : Env σ ρ)
    (ownerName repositoryName basehead a b : String) (ha hb : hash.Hash)
    (params : api.GetCommitDiffParams)
    (w : HWorld σ) (operator owner : User) (repository : Repository) (s1 s2 s3 s4 s5 : σ)
    (base : Commit) (changes : versionmgr.Changes)
    (hop : env.GetOperator w.store = (.ok operator, s1))
    (hown : env.UserGet ownerName s1 = (.ok owner, s2))
    (hrepo : env.RepositoryGet owner.ID repositoryName s2 = (.ok repository, s3))
    (hne : operator.ID ≠ owner.ID)
    (hsplit : strings.Split basehead "..." = [a, b])
    (hda : hex.DecodeString a = .ok ha) (hdb : hex.DecodeString b = .ok hb)
    (hload : env.Commit repository.ID ha s3 = (.ok base, s4))
    (hdiff : env.DiffCommit repository.ID base hb s4 = (.ok changes, s5)) :
    ((∀ c ∈ changes, ∃ act, c.Action = .ok act) →
      ∃ resp, answer (GetCommitDiff env ownerName repositoryName basehead params) w =
          (.JSON resp, ⟨s5, w.log ++
            [.GetOperator, .UserGet ownerName, .RepositoryGet owner.ID repositoryName,
              .Commit repository.ID ha, .DiffCommit repository.ID base hb]⟩) ∧
        List.Forall₂
          (fun (r : api.Change) (c : versionmgr.Change) =>
            r.Path = c.Path ∧ c.Action.map env.ActionCode = .ok r.Action ∧
              r.BaseHash = c.From.map (fun e => hex.EncodeToString e.Hash) ∧
              r.ToHash = c.To.map (fun e => hex.EncodeToString e.Hash) ∧
              (r.BaseHash.isSome ↔ c.From.isSome) ∧ (r.ToHash.isSome ↔ c.To.isSome))
          resp (changes.filter fun c => strings.HasPrefix c.Path (params.Path.getD "")) ∧
        (params.Path = none ∨ params.Path = some "" →
          resp.map (fun r => r.Path) = changes.map fun c => c.Path) ∧
        ∀ lt : String → String → Prop,
          changes.Pairwise (fun c d => lt c.Path d.Path) →
          resp.Pairwise fun r q => lt r.Path q.Path) ∧
      (∀ c ∈ changes, (∀ act, c.Action ≠ .ok act) →
        ∃ err, answer (GetCommitDiff env ownerName repositoryName basehead params) w =
          (.Error (.repo err), ⟨s5, w.log ++
            [.GetOperator, .UserGet ownerName, .RepositoryGet owner.ID repositoryName,
              .Commit repository.ID ha, .DiffCommit repository.ID base hb]⟩)) := by
  have hrun : answer (GetCommitDiff env ownerName repositoryName basehead params) w =
      ((match changesResp env.ActionCode (params.Path.getD "") changes with
        | .error err => Response.Error (.repo err)
        | .ok resp => .JSON resp), ⟨s5, w.log ++
        [.GetOperator, .UserGet ownerName, .RepositoryGet owner.ID repositoryName,
          .Commit repository.ID ha, .DiffCommit repository.ID base hb]⟩) := by
    unfold answer GetCommitDiff
    rw [callE_ok hop, callE_ok (w := ⟨s1, _⟩) hown, callE_ok (w := ⟨s2, _⟩) hrepo]
    simp only [hne, if_false, hsplit]
    rw [decodeE_ok hda, decodeE_ok hdb, callE_ok (w := ⟨s3, _⟩) hload]
    simp only []
    rw [callE_ok (w := ⟨s4, _⟩) hdiff]
    cases changesResp env.ActionCode (params.Path.getD "") changes <;>
      simp [respond, pure, Handler.ret]
  constructor
  · intro hwf
    obtain ⟨resp, hresp, hrel⟩ := changesResp_filter env.ActionCode (params.Path.getD "")
      changes hwf
    have hpaths : resp.map (fun r => r.Path) =
        (changes.filter fun c => strings.HasPrefix c.Path (params.Path.getD "")).map
          fun c => c.Path := by
      clear hresp
      generalize (changes.filter fun c => strings.HasPrefix c.Path (params.Path.getD "")) = m
        at hrel
      induction hrel with
      | nil => rfl
      | cons h _ ih => simp [h.1, ih]
    refine ⟨resp, ?_, ?_, ?_, ?_⟩
    · rw [hrun, hresp]
    · exact hrel.imp fun r c h => ⟨h.1, h.2.1, h.2.2.1, h.2.2.2, by simp [h.2.2.1],
        by simp [h.2.2.2]⟩
    · intro hpath
      have hall : (changes.filter fun c => strings.HasPrefix c.Path (params.Path.getD "")) =
          changes := by
        rw [List.filter_eq_self]
        intro c _
        rcases hpath with h | h <;> simp [h, HasPrefix_empty]
      rw [hpaths, hall]
    · intro lt hsorted
      have hsub : (changes.filter fun c => strings.HasPrefix c.Path (params.Path.getD
          "")).Pairwise (fun c d => lt c.Path d.Path) :=
        hsorted.sublist (List.filter_sublist _)
      refine pairwise_of_forall2 _ _ _ ?_ _ _ hrel hsub
      intro r q c d hrc hqd hcd
      rw [hrc.1, hqd.1]
      exact hcd
  · intro c hc hbad
    obtain ⟨err, herr⟩ := changesResp_error env.ActionCode (params.Path.getD "") changes c hc
      hbad
    exact ⟨err, by rw [hrun, herr]⟩

end controller

/-! ## The page amount of ListBranches -/

namespace controller

open models

theorem Amount_listBranchParamsOf (DefaultMaxPerPage : Int) (repositoryID : UUID)
    (params : api.ListBranchesParams) :
    (listBranchParamsOf DefaultMaxPerPage repositoryID params).Amount =
      if utils.IntValue params.Amount > DefaultMaxPerPage ∨ utils.IntValue params.Amount ≤ 0
      then DefaultMaxPerPage else utils.IntValue params.Amount := by
  unfold listBranchParamsOf
  simp only [ListBranchParams.SetRepositoryID]
  split <;> rfl

/-- C23: the page-size clamp of `ListBranches`. For a request that passes the
lookups and the authorization, the handler lists the branches once, with
parameters of the repository whose amount is the requested amount `a` (0 when
absent) when `1 ≤ a ≤ DefaultMaxPerPage`, and `DefaultMaxPerPage` otherwise
(zero, negative or above the maximum); so for `DefaultMaxPerPage ≥ 1` the
amount passed lies between 1 and `DefaultMaxPerPage`. -/
theorem ListBranches_page_amount {σ ρ ω : Type} (env : TreeEnv σ ρ ω) (DefaultMaxPerPage : Int)
    (ownerName repositoryName : String) (params : api.ListBranchesParams) (w : HWorld σ)
    (owner : User) (repository : Repository) (s1 s2 s3 : σ)
    (hown : env.UserGet ownerName w.store = (.ok owner, s1))
    (hrepo : env.RepositoryGet owner.ID repositoryName s1 = (.ok repository, s2))
    (hauth : env.AuthorizeMember repository.ID rbacmodel.ListBranchesAction owner.ID s2 =
      (none, s3)) :
    (answer (ListBranches env DefaultMaxPerPage ownerName repositoryName params) w).2.log =
        w.log ++ [.UserGet ownerName, .RepositoryGet owner.ID repositoryName,
          .AuthorizeMember repository.ID rbacmodel.ListBranchesAction owner.ID,
          .BranchList (listBranchParamsOf DefaultMaxPerPage repository.ID params)] ∧
      (listBranchParamsOf DefaultMaxPerPage repository.ID params).RepositoryID = repository.ID ∧
      (params.Amount = none → utils.IntValue params.Amount = 0) ∧
      (1 ≤ utils.IntValue params.Amount ∧ utils.IntValue params.Amount ≤ DefaultMaxPerPage →
        (listBranchParamsOf DefaultMaxPerPage repository.ID params).Amount =
          utils.IntValue params.Amount) ∧
      (¬ (1 ≤ utils.IntValue params.Amount ∧ utils.IntValue params.Amount ≤ DefaultMaxPerPage) →
        (listBranchParamsOf DefaultMaxPerPage repository.ID params).Amount =
          DefaultMaxPerPage) ∧
      (1 ≤ DefaultMaxPerPage →
        1 ≤ (listBranchParamsOf DefaultMaxPerPage repository.ID params).Amount ∧
          (listBranchParamsOf DefaultMaxPerPage repository.ID params).Amount ≤
            DefaultMaxPerPage) := by
  refine ⟨?_, rfl, ?_, ?_, ?_, ?_⟩
  · unfold answer ListBranches
    rw [callE_ok hown, callE_ok (w := ⟨s1, _⟩) hrepo, callAuth_ok (w := ⟨s2, _⟩) hauth]
    simp only []
    cases hl : env.BranchList (listBranchParamsOf DefaultMaxPerPage repository.ID params) s3 with
    | mk r s4 =>
      cases r with
      | error e =>
        rw [callE_err (w := ⟨s3, _⟩) hl]
        simp
      | ok page =>
        rw [callE_ok (w := ⟨s3, _⟩) hl]
        simp [pure, Handler.ret]
  · intro h
    rw [h]
    rfl
  · intro h
    rw [Amount_listBranchParamsOf, if_neg (by omega)]
  · intro h
    rw [Amount_listBranchParamsOf, if_pos (by omega)]
  · intro h
    rw [Amount_listBranchParamsOf]
    split <;> omega

end controller

/-! ## The ref of GetEntriesInRef -/

namespace controller

open models

theorem GetEntriesInRef_ref_name {σ ρ ω : Type} (env : TreeEnv σ ρ ω)
    (ownerName repositoryName : String) (params : api.GetEntriesInRefParams) (w : HWorld σ)
    (operator owner : User) (repository : Repository) (s1 s2 s3 : σ)
    (hop : env.GetOperator w.store = (.ok operator, s1))
    (hown : env.UserGet ownerName s1 = (.ok owner, s2))
    (hrepo : env.RepositoryGet owner.ID repositoryName s2 = (.ok repository, s3))
    (hne : operator.Name ≠ ownerName) :
    (∀ path, params.Path = some path → params.Ref = none →
        answer (GetEntriesInRef env ownerName repositoryName params) w =
          (.NilDereference, ⟨s3, w.log ++
            [.GetOperator, .UserGet ownerName, .RepositoryGet owner.ID repositoryName]⟩)) ∧
      (∀ path ref, params.Path = some path → params.Ref = some ref →
        ∃ rest, (answer (GetEntriesInRef env ownerName repositoryName params) w).2.log =
          w.log ++ [.GetOperator, .UserGet ownerName, .RepositoryGet owner.ID repositoryName,
            .RefGet repository.ID ref] ++ rest) ∧
      (params.Path = none →
        ∃ rest, (answer (GetEntriesInRef env ownerName repositoryName params) w).2.log =
          w.log ++ [.GetOperator, .UserGet ownerName, .RepositoryGet owner.ID repositoryName,
            .RefGet repository.ID "main"] ++ rest) := by
  have hlog : ∀ (refName : String),
      ∃ rest, (answer
        (callE (.RefGet repository.ID refName) (env.RefGet repository.ID refName) >>= fun ref =>
        callE (.Commit repository.ID ref.CommitHash)
          (env.Commit repository.ID ref.CommitHash) >>= fun commit =>
        callE (.NewWorkTree repository.ID commit.TreeHash)
          (env.NewWorkTree repository.ID commit.TreeHash) >>= fun workTree =>
        callE (.Ls (params.Path.getD "")) (env.Ls workTree (params.Path.getD "")) >>=
          fun treeEntry => (pure (Response.Entries treeEntry) : Handler σ Response))
        ⟨s3, w.log ++ [.GetOperator] ++ [.UserGet ownerName] ++
          [.RepositoryGet owner.ID repositoryName]⟩).2.log =
        w.log ++ [.GetOperator, .UserGet ownerName, .RepositoryGet owner.ID repositoryName,
          .RefGet repository.ID refName] ++ rest := by
    intro refName
    unfold answer
    rcases h1 : env.RefGet repository.ID refName s3 with ⟨_ | ref, s4⟩
    · rw [callE_err (w := ⟨s3, _⟩) h1]
      exact ⟨[], by simp⟩
    rw [callE_ok (w := ⟨s3, _⟩) h1]
    rcases h2 : env.Commit repository.ID ref.CommitHash s4 with ⟨_ | commit, s5⟩
    · rw [callE_err (w := ⟨s4, _⟩) h2]
      exact ⟨[.Commit repository.ID ref.CommitHash], by simp⟩
    rw [callE_ok (w := ⟨s4, _⟩) h2]
    rcases h3 : env.NewWorkTree repository.ID commit.TreeHash s5 with ⟨_ | workTree, s6⟩
    · rw [callE_err (w := ⟨s5, _⟩) h3]
      exact ⟨[.Commit repository.ID ref.CommitHash,
        .NewWorkTree repository.ID commit.TreeHash], by simp⟩
    rw [callE_ok (w := ⟨s5, _⟩) h3]
    rcases h4 : env.Ls workTree (params.Path.getD "") s6 with ⟨_ | entries, s7⟩
    · rw [callE_err (w := ⟨s6, _⟩) h4]
      exact ⟨[.Commit repository.ID ref.CommitHash,
        .NewWorkTree repository.ID commit.TreeHash, .Ls (params.Path.getD "")], by simp⟩
    rw [callE_ok (w := ⟨s6, _⟩) h4]
    exact ⟨[.Commit repository.ID ref.CommitHash,
      .NewWorkTree repository.ID commit.TreeHash, .Ls (params.Path.getD "")],
      by simp [pure, Handler.ret]⟩
  refine ⟨?_, ?_, ?_⟩
  · intro path hp hr
    unfold answer GetEntriesInRef
    rw [callE_ok hop, callE_ok (w := ⟨s1, _⟩) hown, callE_ok (w := ⟨s2, _⟩) hrepo]
    simp only [hne, if_false, hp, hr, deref]
    rw [hbind_run]
    simp [respond, Handler.bind]
  · intro path ref hp hr
    obtain ⟨rest, hrest⟩ := hlog ref
    refine ⟨rest, ?_⟩
    unfold answer at hrest
    unfold GetEntriesInRef answer
    rw [callE_ok hop, callE_ok (w := ⟨s1, _⟩) hown, callE_ok (w := ⟨s2, _⟩) hrepo]
    simp only [hne, if_false, hp, hr, deref]
    rw [hbind_run]
    simp only [Handler.bind, pure, Handler.ret]
    simpa [hp] using hrest
  · intro hp
    obtain ⟨rest, hrest⟩ := hlog "main"
    refine ⟨rest, ?_⟩
    unfold answer at hrest
    unfold GetEntriesInRef answer
    rw [callE_ok hop, callE_ok (w := ⟨s1, _⟩) hown, callE_ok (w := ⟨s2, _⟩) hrepo]
    simp only [hne, if_false, hp]
    rw [hbind_run]
    simp only [Handler.bind, pure, Handler.ret]
    simpa [hp] using hrest

end controller

/-! ## Listings, entries and hash lists on the in-memory instance -/

namespace memory

open models versionmgr

/-- C24, on the code: `bob` lists entries in the repository `mlops` of `alice`.
With a path and no ref the handler dereferences the absent ref: no response,
no ref looked up. With a ref `feat` and no path it looks up `main` and lists
the tree of `c0`, not that of `feat`. Only with both given does it resolve the
given ref. -/
theorem GetEntriesInRef_ref_chosen_by_Path :
    controller.answer (controller.GetEntriesInRef ctlTreeEnv "alice" "mlops" ⟨some "docs", none⟩)
        ⟨ctlStore bob, []⟩ =
        (.NilDereference, ⟨ctlStore bob,
          [.GetOperator, .UserGet "alice", .RepositoryGet 1 "mlops"]⟩) ∧
      controller.answer (controller.GetEntriesInRef ctlTreeEnv "alice" "mlops" ⟨none, some "feat"⟩)
        ⟨ctlStore bob, []⟩ =
        (.Entries [⟨"docs/readme.md", [1]⟩], ⟨ctlStore bob,
          [.GetOperator, .UserGet "alice", .RepositoryGet 1 "mlops", .RefGet 10 "main",
            .Commit 10 c0.Hash, .NewWorkTree 10 c0.TreeHash, .Ls ""]⟩) ∧
      controller.answer
        (controller.GetEntriesInRef ctlTreeEnv "alice" "mlops" ⟨some "", some "feat"⟩)
        ⟨ctlStore bob, []⟩ =
        (.Entries [⟨"docs/readme.md", [1]⟩, ⟨"src/a.txt", [2]⟩], ⟨ctlStore bob,
          [.GetOperator, .UserGet "alice", .RepositoryGet 1 "mlops", .RefGet 10 "feat",
            .Commit 10 cA.Hash, .NewWorkTree 10 cA.TreeHash, .Ls ""]⟩) ∧
      c0.TreeHash ≠ cA.TreeHash :=
  ⟨by decide!, by decide!, by decide!, by decide!⟩

/-- Witness of C21: `bob` asks for the diff from `c0` to `cA2` in the
repository `mlops` of `alice` under the path `src/`: of the three changes of
the stream the two under `src/` are answered, in path order. -/
theorem GetCommitDiff_path_filter_witness :
    (ctlEnv.DiffCommit 10 c0 cA2.Hash (ctlStore bob)).1 =
        .ok [⟨"src/a.txt", none, some ⟨"src/a.txt", [2]⟩⟩,
          ⟨"src/b.txt", none, some ⟨"src/b.txt", [3]⟩⟩, ⟨"x.txt", none, some ⟨"x.txt", [8]⟩⟩] ∧
      (controller.answer
          (controller.GetCommitDiff ctlEnv "alice" "mlops" "d032...5d38" ⟨some "src/"⟩)
          ⟨ctlStore bob, []⟩).1 =
        .JSON [⟨1, "src/a.txt", none, some "02"⟩, ⟨1, "src/b.txt", none, some "03"⟩] ∧
      ∃ resp, controller.answer
          (controller.GetCommitDiff ctlEnv "alice" "mlops" "d032...5d38" ⟨some "src/"⟩)
          ⟨ctlStore bob, []⟩ =
          (.JSON resp, ⟨ctlStore bob, [.GetOperator, .UserGet "alice", .RepositoryGet 1 "mlops",
            .Commit 10 c0.Hash, .DiffCommit 10 c0 cA2.Hash]⟩) ∧
        resp.Pairwise fun r q => pathLt r.Path q.Path = true :=
  ⟨by decide!, by decide!,
    Exists.imp (fun _ h => ⟨h.1, h.2.2.2 (fun x y => pathLt x y = true) (by decide!)⟩)
      ((controller.GetCommitDiff_path_filter ctlEnv "alice" "mlops" "d032...5d38" "d032" "5d38"
        c0.Hash cA2.Hash ⟨some "src/"⟩ ⟨ctlStore bob, []⟩ bob alice repoA (ctlStore bob)
        (ctlStore bob) (ctlStore bob) (ctlStore bob) (ctlStore bob) c0
        [⟨"src/a.txt", none, some ⟨"src/a.txt", [2]⟩⟩,
          ⟨"src/b.txt", none, some ⟨"src/b.txt", [3]⟩⟩, ⟨"x.txt", none, some ⟨"x.txt", [8]⟩⟩]
        (by decide!) (by decide!) (by decide!) (by decide) (by decide!) (by decide!)
        (by decide!) (by decide!) (by decide!)).1
        (by
          intro c hc
          simp only [List.mem_cons, List.mem_singleton, List.not_mem_nil, or_false] at hc
          rcases hc with rfl | rfl | rfl <;> exact ⟨.ADD, rfl⟩))⟩

/-- Witness of C23: `alice` lists the branches of her repository `mlops` with
a maximum of 100 per page: the amounts 500, 0 (absent) and -3 are passed as
100, the amount 7 as 7. -/
theorem ListBranches_page_amount_witness :
    (controller.answer (controller.ListBranches ctlTreeEnv 100 "alice" "mlops" ⟨none, none, some 500⟩)
        ⟨ctlStore alice, []⟩).2.log =
        [.UserGet "alice", .RepositoryGet 1 "mlops", .AuthorizeMember 10 "repo:ListBranches" 1,
          .BranchList ⟨10, none, none, 100⟩] ∧
      (controller.listBranchParamsOf 100 repoA.ID ⟨none, none, none⟩).Amount = 100 ∧
      (controller.listBranchParamsOf 100 repoA.ID ⟨none, none, some (-3)⟩).Amount = 100 ∧
      (controller.listBranchParamsOf 100 repoA.ID ⟨none, none, some 7⟩).Amount = 7 :=
  ⟨((controller.ListBranches_page_amount ctlTreeEnv 100 "alice" "mlops" ⟨none, none, some 500⟩
      ⟨ctlStore alice, []⟩ alice repoA (ctlStore alice) (ctlStore alice) (ctlStore alice)
      (by decide!) (by decide!) (by decide!)).1).trans (by decide!),
    (controller.ListBranches_page_amount ctlTreeEnv 100 "alice" "mlops" ⟨none, none, none⟩
      ⟨ctlStore alice, []⟩ alice repoA (ctlStore alice) (ctlStore alice) (ctlStore alice)
      (by decide!) (by decide!) (by decide!)).2.2.2.2.1 (by decide),
    (controller.ListBranches_page_amount ctlTreeEnv 100 "alice" "mlops" ⟨none, none, some (-3)⟩
      ⟨ctlStore alice, []⟩ alice repoA (ctlStore alice) (ctlStore alice) (ctlStore alice)
      (by decide!) (by decide!) (by decide!)).2.2.2.2.1 (by decide),
    (controller.ListBranches_page_amount ctlTreeEnv 100 "alice" "mlops" ⟨none, none, some 7⟩
      ⟨ctlStore alice, []⟩ alice repoA (ctlStore alice) (ctlStore alice) (ctlStore alice)
      (by decide!) (by decide!) (by decide!)).2.2.2.1 (by decide)⟩

/-- Witness of C22: three hashes in hexadecimal and back; a list with a
string of odd length and a list with a string that is not hexadecimal give an
error. -/
theorem HexArray_roundtrip_witness :
    hash.HexArrayOfHashes [c0.Hash, cA.Hash, []] = ["d032", "ca74", ""] ∧
      hash.HashesOfHexArray (hash.HexArrayOfHashes [c0.Hash, cA.Hash, []]) =
        .ok [c0.Hash, cA.Hash, []] ∧
      (∃ err, hash.HashesOfHexArray ["d032", "ca7"] = .error err) ∧
      (∃ err, hash.HashesOfHexArray ["d032", "zz", "ca74"] = .error err) :=
  ⟨by decide!, (hash.HexArray_roundtrip [c0.Hash, cA.Hash, []]).2.2.1,
    (hash.HexArray_roundtrip []).2.2.2.2 ["d032", "ca7"] "ca7" (by decide) (by decide),
    (hash.HexArray_roundtrip []).2.2.2.2 ["d032", "zz", "ca74"] "zz" (by decide) (by decide!)⟩

end memory
